import Mathlib

/-!
# Luminae: the streaming route `backend/routes/scrape.js`

A shallow embedding of the live-ingestion code of `POST /api/scrape/start`:
the line handlers of the worker's stdout/stderr, the incremental file reader
`streamFileIncremental`, the polling interval `monitorInterval`, and the
`close` handler of the worker process with its final read.

JavaScript strings are modelled as lists of characters (`Str`).  The
response object `res` is modelled as the list of events written to it.
-/

set_option autoImplicit false

namespace Luminae

/-! ## Strings -/

/-- A JavaScript string, as the list of its characters. -/
abbrev Str := List Char

/-- White space and line terminators removed by `String.prototype.trim`. -/
def isJsWhitespace (c : Char) : Bool :=
  c.toNat = 0x09 || c.toNat = 0x0A || c.toNat = 0x0B || c.toNat = 0x0C || c.toNat = 0x0D ||
  c.toNat = 0x20 || c.toNat = 0xA0 || c.toNat = 0x1680 ||
  (0x2000 ≤ c.toNat && c.toNat ≤ 0x200A) ||
  c.toNat = 0x2028 || c.toNat = 0x2029 || c.toNat = 0x202F || c.toNat = 0x205F ||
  c.toNat = 0x3000 || c.toNat = 0xFEFF

/-- The method `s.trim()`. -/
def trim (s : Str) : Str :=
  ((s.dropWhile isJsWhitespace).reverse.dropWhile isJsWhitespace).reverse

/-- The call `s.split('\n')`: the segments between newlines; never empty. -/
def splitNewline : Str → List Str
  | [] => [[]]
  | c :: cs =>
    match splitNewline cs with
    | [] => if c = '\n' then [[], []] else [[c]]
    | seg :: segs => if c = '\n' then [] :: seg :: segs else (c :: seg) :: segs

/-- The method `s.substring(a, b)`: the arguments are swapped when `a > b`. -/
def substring (s : Str) (a b : Nat) : Str :=
  (s.take (max a b)).drop (min a b)

/-- The call `Buffer.byteLength(s, 'utf8')`. -/
def byteLength (s : Str) : Nat :=
  (s.map Char.utf8Size).sum

/-! ## Events written to the response -/

/-- The `data` field of a `data` event: a trimmed line or a parsed object. -/
inductive Payload (J : Type) where
  | text (line : Str)
  | json (item : J)
  deriving DecidableEq, Repr

/-- The monitored output files (`filesToMonitor`), by key. -/
inductive FileKey where
  | postid | mediaIds | comments | likes | followers | leads | leadsData | leadsRanked
  deriving DecidableEq, Repr

/-- The exit code handed to the `close` handler: a number, or `null` when the
worker was terminated by a signal. -/
abbrev ExitCode := Option Int

/-- The objects serialised by `res.write`. -/
inductive Event (J : Type) where
  | connected (message : String)
  | log (message : Str)
  | error (message : Str)
  | data (file : FileKey) (data : Payload J)
  | complete (code : ExitCode) (message : String)
  deriving DecidableEq, Repr

/-! ## Line discipline -/

/-- The body shared by the three line handlers: `lines = buffer.split('\n')`,
`buffer = lines.pop() || ''`, and for each remaining line with a non-empty
`trim()` the trimmed line is written.  Returns the written lines and the new
buffer. -/
def splitLines (buffer : Str) : List Str × Str :=
  let lines := splitNewline buffer
  let rest := lines.getLast?.getD []
  let lines := lines.dropLast
  ((lines.filter (fun line => !(trim line).isEmpty)).map trim, rest)

/-- The handler `pythonProcess.stdout.on('data')`: returns the `log` events and
the new `stdoutBuffer`. -/
def stdoutOnData {J : Type} (stdoutBuffer data : Str) : List (Event J) × Str :=
  let r := splitLines (stdoutBuffer ++ data)
  (r.1.map Event.log, r.2)

/-- The handler `pythonProcess.stderr.on('data')`: returns the `error` events and
the new `stderrBuffer`. -/
def stderrOnData {J : Type} (stderrBuffer data : Str) : List (Event J) × Str :=
  let r := splitLines (stderrBuffer ++ data)
  (r.1.map Event.error, r.2)

/-- The text branch of `stream.on('data')` in `streamFileIncremental`: returns
the `data` events and the new `buffer`. -/
def textOnData {J : Type} (fileKey : FileKey) (buffer chunk : Str) : List (Event J) × Str :=
  let r := splitLines (buffer ++ chunk)
  (r.1.map (fun line => Event.data fileKey (Payload.text line)), r.2)

/-! ## The brace scanner of the JSON branch -/

/-- The `for` loop over `jsonBuffer` in the JSON branch of `stream.on('data')`.
The first argument is the part of `jsonBuffer` from index `i` on, so its head
is `jsonBuffer[i]`; `JSON.parse` is the parameter `parse`, with `none` for a
thrown exception.  The test `char === '"' && !escapeNext` is reached only with
`escapeNext` false.  After a successful parse `jsonBuffer` becomes
`jsonBuffer.substring(i + 1)`, which is the part still to be visited, and the
index restarts at `0`.  Returns the written events and the final `jsonBuffer`. -/
def scanLoop {J : Type} (parse : Str → Option J) (fileKey : FileKey) :
    Str → Str → Nat → Int → Int → Bool → Bool → List (Event J) × Str
  | [], jsonBuffer, _, _, _, _, _ => ([], jsonBuffer)
  | char :: rest, jsonBuffer, i, braceCount, objectStart, inString, escapeNext =>
    if escapeNext then
      scanLoop parse fileKey rest jsonBuffer (i + 1) braceCount objectStart inString false
    else if char = '\\' then
      scanLoop parse fileKey rest jsonBuffer (i + 1) braceCount objectStart inString true
    else if char = '"' then
      scanLoop parse fileKey rest jsonBuffer (i + 1) braceCount objectStart (!inString) false
    else if !inString then
      if char = '{' then
        scanLoop parse fileKey rest jsonBuffer (i + 1) (braceCount + 1)
          (if braceCount = 0 then (i : Int) else objectStart) inString false
      else if char = '}' then
        if braceCount - 1 = 0 ∧ objectStart ≥ 0 then
          match parse (substring jsonBuffer objectStart.toNat (i + 1)) with
          | some item =>
            let r := scanLoop parse fileKey rest rest 0 (braceCount - 1) (-1) inString false
            (Event.data fileKey (Payload.json item) :: r.1, r.2)
          | none =>
            scanLoop parse fileKey rest jsonBuffer (i + 1) (braceCount - 1) objectStart inString false
        else
          scanLoop parse fileKey rest jsonBuffer (i + 1) (braceCount - 1) objectStart inString false
      else
        scanLoop parse fileKey rest jsonBuffer (i + 1) braceCount objectStart inString false
    else
      scanLoop parse fileKey rest jsonBuffer (i + 1) braceCount objectStart inString false

/-- The JSON branch of `stream.on('data')` once `buffer += chunk` is done: the
scan of `buffer` with `braceCount = 0`, `objectStart = -1`, `inString = false`,
`escapeNext = false`.  Returns the `data` events and the new `buffer`. -/
def scanJson {J : Type} (parse : Str → Option J) (fileKey : FileKey) (buffer : Str) :
    List (Event J) × Str :=
  scanLoop parse fileKey buffer buffer 0 0 (-1) false false

/-- The JSON branch of `stream.on('data')`: `buffer += chunk`, then the scan. -/
def jsonOnData {J : Type} (parse : Str → Option J) (fileKey : FileKey) (buffer chunk : Str) :
    List (Event J) × Str :=
  scanJson parse fileKey (buffer ++ chunk)

/-- The `for` loop over `remainingContent` in the final read of the `close`
handler.  The first argument is the part of `remainingContent` from index `i`
on.  `objectStart = -1` follows the `try`/`catch`, so it is reset whether or
not the parse succeeded; the content is never shortened. -/
def drainLoop {J : Type} (parse : Str → Option J) (key : FileKey) :
    Str → Str → Nat → Int → Int → Bool → Bool → List (Event J)
  | [], _, _, _, _, _, _ => []
  | char :: rest, remainingContent, i, braceCount, objectStart, inString, escapeNext =>
    if escapeNext then
      drainLoop parse key rest remainingContent (i + 1) braceCount objectStart inString false
    else if char = '\\' then
      drainLoop parse key rest remainingContent (i + 1) braceCount objectStart inString true
    else if char = '"' then
      drainLoop parse key rest remainingContent (i + 1) braceCount objectStart (!inString) false
    else if !inString then
      if char = '{' then
        drainLoop parse key rest remainingContent (i + 1) (braceCount + 1)
          (if braceCount = 0 then (i : Int) else objectStart) inString false
      else if char = '}' then
        if braceCount - 1 = 0 ∧ objectStart ≥ 0 then
          (match parse (substring remainingContent objectStart.toNat (i + 1)) with
            | some item => [Event.data key (Payload.json item)]
            | none => []) ++
          drainLoop parse key rest remainingContent (i + 1) (braceCount - 1) (-1) inString false
        else
          drainLoop parse key rest remainingContent (i + 1) (braceCount - 1) objectStart inString false
      else
        drainLoop parse key rest remainingContent (i + 1) braceCount objectStart inString false
    else
      drainLoop parse key rest remainingContent (i + 1) braceCount objectStart inString false

/-- The JSON branch of the final read: the scan of `remainingContent` from the
initial scanner state. -/
def drainJson {J : Type} (parse : Str → Option J) (key : FileKey) (remainingContent : Str) :
    List (Event J) :=
  drainLoop parse key remainingContent remainingContent 0 0 (-1) false false

/-- The four scanner variables. -/
structure ScanState where
  braceCount : Int
  objectStart : Int
  inString : Bool
  escapeNext : Bool
  deriving DecidableEq, Repr

/-- The scanner variables at the start of a scan. -/
def ScanState.init : ScanState := ⟨0, -1, false, false⟩

/-- The scanner variables after one loop iteration at index `i` on character `char`
(the emission aside). -/
def ScanState.next (σ : ScanState) (i : Nat) (char : Char) : ScanState :=
  if σ.escapeNext then { σ with escapeNext := false }
  else if char = '\\' then { σ with escapeNext := true }
  else if char = '"' then { σ with inString := !σ.inString }
  else if σ.inString then σ
  else if char = '{' then
    { σ with braceCount := σ.braceCount + 1,
             objectStart := if σ.braceCount = 0 then (i : Int) else σ.objectStart }
  else if char = '}' then { σ with braceCount := σ.braceCount - 1 }
  else σ

/-- The iteration reaches the parse attempt: a `}` outside a string that
closes the span opened at `objectStart`. -/
def ScanState.closes (σ : ScanState) (char : Char) : Prop :=
  σ.escapeNext = false ∧ σ.inString = false ∧ char = '}' ∧ σ.braceCount = 1 ∧ 0 ≤ σ.objectStart

instance (σ : ScanState) (char : Char) : Decidable (σ.closes char) := by
  unfold ScanState.closes; infer_instance

/-- The incremental loop, run from a state record. -/
def scanFrom {J : Type} (parse : Str → Option J) (fileKey : FileKey)
    (rest jsonBuffer : Str) (i : Nat) (σ : ScanState) : List (Event J) × Str :=
  scanLoop parse fileKey rest jsonBuffer i σ.braceCount σ.objectStart σ.inString σ.escapeNext

/-- The lexical state of a text read from its first character: the string and
escape flags, and the number of `{` and of `}` met outside string literals. -/
structure LexState where
  inString : Bool
  escapeNext : Bool
  opens : Nat
  closes : Nat
  deriving DecidableEq, Repr

/-- One character of lexing: a character after a backslash is skipped, an
unescaped `"` opens or closes a string literal, and braces are counted
outside string literals only. -/
def lexStep (l : LexState) (c : Char) : LexState :=
  if l.escapeNext then { l with escapeNext := false }
  else if c = '\\' then { l with escapeNext := true }
  else if c = '"' then { l with inString := !l.inString }
  else if l.inString then l
  else if c = '{' then { l with opens := l.opens + 1 }
  else if c = '}' then { l with closes := l.closes + 1 }
  else l

/-- The lexical state after a whole text. -/
def lexSpan (s : Str) : LexState :=
  s.foldl lexStep ⟨false, false, 0, 0⟩

/-- A complete brace span: it begins with `{`, ends with `}`, holds equally
many `{` and `}` outside string literals, and its last `}` is outside any
string literal (and not escaped). -/
def BalancedSpan (span : Str) : Prop :=
  span.head? = some '{' ∧ span.getLast? = some '}' ∧
  (lexSpan span).opens = (lexSpan span).closes ∧
  (lexSpan span.dropLast).inString = false ∧ (lexSpan span.dropLast).escapeNext = false

instance (span : Str) : Decidable (BalancedSpan span) := by
  unfold BalancedSpan; infer_instance

/-- While the depth is positive, the text from `objectStart` to the current
index begins with `{`, and the scanner variables agree with its lexical state. -/
def OpenSpan (pre : Str) (σ : ScanState) : Prop :=
  1 ≤ σ.braceCount →
    0 ≤ σ.objectStart ∧ σ.objectStart.toNat < pre.length ∧
    (pre.drop σ.objectStart.toNat).head? = some '{' ∧
    (lexSpan (pre.drop σ.objectStart.toNat)).inString = σ.inString ∧
    (lexSpan (pre.drop σ.objectStart.toNat)).escapeNext = σ.escapeNext ∧
    ((lexSpan (pre.drop σ.objectStart.toNat)).opens : Int)
      = (lexSpan (pre.drop σ.objectStart.toNat)).closes + σ.braceCount

/-- The final-read loop, run from a state record. -/
def drainFrom {J : Type} (parse : Str → Option J) (key : FileKey)
    (rest remainingContent : Str) (i : Nat) (σ : ScanState) : List (Event J) :=
  drainLoop parse key rest remainingContent i σ.braceCount σ.objectStart σ.inString σ.escapeNext

/-! ## The JSON grammar (ECMA-404), as accepted by `JSON.parse` -/

/-- The production `ws`: spaces, line feeds, carriage returns and tabs. -/
def isWs (s : Str) : Bool :=
  s.all (fun c => c = ' ' || c = '\n' || c = '\r' || c = '\t')

/-- The production `hex`. -/
def isHex (c : Char) : Bool :=
  c.isDigit || ('a' ≤ c && c ≤ 'f') || ('A' ≤ c && c ≤ 'F')

/-- The production `characters`, the text between the quotes of a string: any
character from U+0020 on except `"` and `\`, or a backslash followed by one of
`"`, `\`, `/`, `b`, `f`, `n`, `r`, `t`, or by `u` and four hex digits. -/
def isCharacters : Str → Bool
  | [] => true
  | c :: rest =>
    if c = '\\' then
      match rest with
      | [] => false
      | e :: rest2 =>
        if e = 'u' then
          match rest2 with
          | h1 :: h2 :: h3 :: h4 :: rest3 =>
            isHex h1 && isHex h2 && isHex h3 && isHex h4 && isCharacters rest3
          | _ => false
        else
          (e = '"' || e = '\\' || e = '/' || e = 'b' || e = 'f' || e = 'n' || e = 'r' || e = 't')
            && isCharacters rest2
    else
      c ≠ '"' && decide (0x20 ≤ c.toNat) && isCharacters rest

/-- The production `digits`: one or more decimal digits. -/
def isDigits (s : Str) : Bool :=
  !s.isEmpty && s.all Char.isDigit

/-- The production `integer`: an optional `-`, then a single digit or a
digit other than `0` followed by digits. -/
def isInteger (s : Str) : Bool :=
  let body := if s.head? = some '-' then s.tail else s
  match body with
  | [] => false
  | [d] => d.isDigit
  | d :: ds => d.isDigit && d ≠ '0' && ds.all Char.isDigit

/-- The production `fraction`: empty, or `.` and digits. -/
def isFraction (s : Str) : Bool :=
  match s with
  | [] => true
  | c :: ds => c = '.' && isDigits ds

/-- The production `exponent`: empty, or `e`/`E`, an optional sign, and digits. -/
def isExponent (s : Str) : Bool :=
  match s with
  | [] => true
  | c :: t =>
    (c = 'e' || c = 'E') &&
      isDigits (if t.head? = some '+' ∨ t.head? = some '-' then t.tail else t)

/-- The nonterminals of the grammar with a recursive production. -/
inductive Kind where
  | object | value | element | members | elements
  deriving DecidableEq, Repr

/-- The texts derived from each nonterminal. -/
inductive JsonText : Kind → Str → Prop where
  | objectEmpty (w : Str) : isWs w = true → JsonText .object ('{' :: w ++ ['}'])
  | objectMembers (m : Str) : JsonText .members m → JsonText .object ('{' :: m ++ ['}'])
  | valueObject (t : Str) : JsonText .object t → JsonText .value t
  | valueArrayEmpty (w : Str) : isWs w = true → JsonText .value ('[' :: w ++ [']'])
  | valueArray (es : Str) : JsonText .elements es → JsonText .value ('[' :: es ++ [']'])
  | valueString (b : Str) : isCharacters b = true → JsonText .value ('"' :: b ++ ['"'])
  | valueNumber (n f e : Str) : isInteger n = true → isFraction f = true → isExponent e = true →
      JsonText .value (n ++ f ++ e)
  | valueTrue : JsonText .value ['t', 'r', 'u', 'e']
  | valueFalse : JsonText .value ['f', 'a', 'l', 's', 'e']
  | valueNull : JsonText .value ['n', 'u', 'l', 'l']
  | element (w1 v w2 : Str) : isWs w1 = true → JsonText .value v → isWs w2 = true →
      JsonText .element (w1 ++ v ++ w2)
  | member (w1 k w2 e : Str) : isWs w1 = true → isCharacters k = true → isWs w2 = true →
      JsonText .element e → JsonText .members (w1 ++ '"' :: k ++ '"' :: w2 ++ ':' :: e)
  | membersCons (w1 k w2 e ms : Str) : isWs w1 = true → isCharacters k = true →
      isWs w2 = true → JsonText .element e → JsonText .members ms →
      JsonText .members (w1 ++ '"' :: k ++ '"' :: w2 ++ ':' :: e ++ ',' :: ms)
  | elementsOne (e : Str) : JsonText .element e → JsonText .elements e
  | elementsCons (e es : Str) : JsonText .element e → JsonText .elements es →
      JsonText .elements (e ++ ',' :: es)

/-- The scanner variables after the iterations over a text, from index `i`. -/
def ScanState.run : ScanState → Nat → Str → ScanState
  | σ, _, [] => σ
  | σ, i, c :: x => (σ.next i c).run (i + 1) x

/-- No iteration over the text reaches a parse attempt. -/
def NoClose : ScanState → Nat → Str → Prop
  | _, _, [] => True
  | σ, i, c :: x => ¬ σ.closes c ∧ NoClose (σ.next i c) (i + 1) x

/-- A text the scanner passes over, at positive depth and outside a string,
without a parse attempt and with its variables unchanged at the end. -/
def Transparent (x : Str) : Prop :=
  ∀ (bc os : Int) (i : Nat), 1 ≤ bc →
    NoClose ⟨bc, os, false, false⟩ i x ∧
    ScanState.run ⟨bc, os, false, false⟩ i x = ⟨bc, os, false, false⟩

/-- A text the scanner passes over inside a string, ending inside the string
with no pending escape. -/
def Quoted (x : Str) : Prop :=
  ∀ (bc os : Int) (i : Nat),
    NoClose ⟨bc, os, true, false⟩ i x ∧
    ScanState.run ⟨bc, os, true, false⟩ i x = ⟨bc, os, true, false⟩

/-- Characters the scanner ignores outside a string. -/
def inert (c : Char) : Bool :=
  c ≠ '\\' && c ≠ '"' && c ≠ '{' && c ≠ '}'

/-! ## The session -/

/-- The table `filesToMonitor`: each key with the text that follows the
username in its file name. -/
def filesToMonitor : List (FileKey × Str) :=
  [(.postid, "_postid.txt".toList), (.mediaIds, "_media_ids.txt".toList),
   (.comments, "_comments.json".toList), (.likes, "_likers.txt".toList),
   (.followers, "_followers.txt".toList), (.leads, "_leads.txt".toList),
   (.leadsData, "_leads_data.json".toList), (.leadsRanked, "_leads_ranked.json".toList)]

/-- The file name suffix of a key in `filesToMonitor`. -/
def fileSuffix (key : FileKey) : Str :=
  ((filesToMonitor.find? (fun p => p.1 = key)).map Prod.snd).getD []

/-- The call `path.extname(p)` for a name whose last `.` is neither its first
character nor before a `/`: the text from the last `.` on, or `''`. -/
def extname (p : Str) : Str :=
  if '.' ∈ p then '.' :: (p.reverse.takeWhile (fun c => c ≠ '.')).reverse else []

/-- The `fileExtension` of the file of a key.  The file name is the username
followed by the suffix, and the suffix holds the last `.` of the path. -/
def fileExtension (key : FileKey) : Str :=
  extname (fileSuffix key)

/-- The path `path.join(outputDir, file)` of the file of a key, as joined with
`/`; `normalize` gives its segments after `path.join` has resolved the `.` and
`..` segments. -/
def filePath (outputDir username : Str) (key : FileKey) : Str :=
  outputDir ++ '/' :: (username ++ fileSuffix key)

/-- The number of UTF-16 code units of a character. -/
def utf16Length (c : Char) : Nat :=
  if c.toNat < 0x10000 then 1 else 2

/-- The method `s.slice(n)` for `n ≥ 0`: the string from code unit `n` on.  A cut
inside a surrogate pair leaves the pair's second half, written here as U+FFFD. -/
def jsSlice : Str → Nat → Str
  | s, 0 => s
  | [], _ + 1 => []
  | c :: cs, n + 1 =>
    if utf16Length c = 1 then jsSlice cs n
    else
      match n with
      | 0 => Char.ofNat 0xFFFD :: cs
      | m + 1 => jsSlice cs m

/-- The text of a file from byte offset `start` on, for an offset at a
character boundary (as `createReadStream` with `start` and `encoding: 'utf8'`
delivers it). -/
def readFrom : Str → Nat → Str
  | [], _ => []
  | c :: cs, n => if n = 0 then c :: cs else readFrom cs (n - c.utf8Size)

/-- The `status` of a job record. -/
inductive JobStatus where
  | pending | running | completed | failed
  deriving DecidableEq, Repr

/-- The fields of the `ScrapeResult` record that the route writes. -/
structure Job where
  status : JobStatus
  startTime : Option Nat
  endTime : Option Nat
  error : Option String
  files : FileKey → Option Str

/-- The update object of a `findByIdAndUpdate` call; `none` is an absent or
`undefined` field, which leaves the stored field as it is. -/
structure JobUpdate where
  status : Option JobStatus
  endTime : Option Nat
  error : Option String
  deriving DecidableEq, Repr

/-- The record after `findByIdAndUpdate`. -/
def Job.update (job : Job) (u : JobUpdate) : Job :=
  { job with
    status := u.status.getD job.status
    endTime := match u.endTime with
      | some t => some t
      | none => job.endTime
    error := match u.error with
      | some e => some e
      | none => job.error }

/-- The template literal `${code}`. -/
def codeText (code : ExitCode) : String :=
  match code with
  | some n => toString n
  | none => "null"

/-- The update object built in the `close` handler of the worker. -/
def exitUpdate (code : ExitCode) (now : Nat) : JobUpdate :=
  { status := some (if code = some 0 then JobStatus.completed else JobStatus.failed)
    endTime := some now
    error := if code ≠ some 0 then some ("Process exited with code " ++ codeText code) else none }

/-- The `complete` event written after the final read. -/
def completeEvent {J : Type} (code : ExitCode) : Event J :=
  Event.complete code (if code = some 0 then "Scraping completed successfully" else "Scraping failed")

/-- The update object built in the `close` handler of the request. -/
def disconnectUpdate : JobUpdate :=
  { status := some JobStatus.failed, endTime := none, error := some "Client disconnected" }

/-- The closure variables of one `streamFileIncremental` call. -/
structure ReadStream where
  startPosition : Nat
  buffer : Str
  bytesRead : Nat
  deriving DecidableEq, Repr

/-- The files of the output directory at one instant: the text of the file of
each key, or `none` when it does not exist. -/
abbrev Files := FileKey → Option Str

/-- The state of one `POST /start` request once the job record exists. -/
structure Session (J : Type) where
  /-- The request's `username`. -/
  username : Str
  /-- The directory `outputDir`. -/
  outputDir : Str
  /-- The events passed to `res.write`, in call order. -/
  written : List (Event J)
  /-- The number of events written when `res.end()` was called, if it was. -/
  endedAt : Option Nat
  stdoutBuffer : Str
  stderrBuffer : Str
  /-- The map `filePositions`. -/
  filePositions : FileKey → Option Nat
  /-- The keys of the map `fileStreams`. -/
  fileStreams : FileKey → Bool
  /-- The read streams that are open. -/
  streams : FileKey → Option ReadStream
  /-- The interval `monitorInterval` is set. -/
  monitoring : Bool
  /-- The exit code held by the pending timeout of the worker's `close` handler. -/
  finalReadPending : Option ExitCode
  /-- The worker's `close` event has fired. -/
  workerClosed : Bool
  /-- The call `pythonProcess.kill()` was made. -/
  killed : Bool
  job : Job

/-- The session as the job record is created and the worker spawned: the
`connected` event is written and the job is `running`. -/
def Session.start {J : Type} (username outputDir : Str) (startTime : Nat) : Session J :=
  { username := username
    outputDir := outputDir
    written := [Event.connected "Streaming started"]
    endedAt := none
    stdoutBuffer := []
    stderrBuffer := []
    filePositions := fun _ => none
    fileStreams := fun _ => false
    streams := fun _ => none
    monitoring := true
    finalReadPending := none
    workerClosed := false
    killed := false
    job := { status := .running, startTime := some startTime, endTime := none, error := none,
             files := fun _ => none } }

/-- The calls `res.write` for a list of events. -/
def Session.resWrite {J : Type} (s : Session J) (events : List (Event J)) : Session J :=
  { s with written := s.written ++ events }

/-- The call `res.end()`. -/
def Session.resEnd {J : Type} (s : Session J) : Session J :=
  { s with endedAt := match s.endedAt with
      | some n => some n
      | none => some s.written.length }

/-- The function `streamFileIncremental`, up to the return of the call: the
key is marked in `fileStreams`, the stream is opened at `startPosition`, and
the job record's `files.<key>` is set. -/
def streamFileIncremental {J : Type} (fs : Files) (s : Session J) (fileKey : FileKey)
    (startPosition : Nat) : Session J :=
  if (fs fileKey).isNone then s
  else
    { s with
      fileStreams := Function.update s.fileStreams fileKey true
      streams := Function.update s.streams fileKey (some ⟨startPosition, [], 0⟩)
      job := { s.job with
        files := Function.update s.job.files fileKey
          (some (filePath s.outputDir s.username fileKey)) } }

/-- The body of `filesToMonitor.forEach` in the interval callback, for one key. -/
def tickFile {J : Type} (fs : Files) (s : Session J) (key : FileKey) : Session J :=
  match fs key with
  | none => s
  | some content =>
    let currentSize := byteLength content
    let lastPosition := (s.filePositions key).getD 0
    if currentSize > lastPosition && !s.fileStreams key then
      streamFileIncremental fs s key lastPosition
    else s

/-- The callback of `monitorInterval`; it runs only while the interval is set. -/
def tick {J : Type} (fs : Files) (s : Session J) : Session J :=
  if s.monitoring then (filesToMonitor.map Prod.fst).foldl (tickFile fs) s else s

/-- The handler `stream.on('data')` of the open stream of a key. -/
def streamOnData {J : Type} (parse : Str → Option J) (s : Session J) (fileKey : FileKey)
    (chunk : Str) : Session J :=
  match s.streams fileKey with
  | none => s
  | some st =>
    let r := if fileExtension fileKey = ".json".toList
      then jsonOnData parse fileKey st.buffer chunk
      else textOnData fileKey st.buffer chunk
    { s.resWrite r.1 with
      streams := Function.update s.streams fileKey
        (some { st with buffer := r.2, bytesRead := st.bytesRead + byteLength chunk }) }

/-- The handler `stream.on('end')` of the open stream of a key. -/
def streamOnEnd {J : Type} (s : Session J) (fileKey : FileKey) : Session J :=
  match s.streams fileKey with
  | none => s
  | some st =>
    { s with
      filePositions := Function.update s.filePositions fileKey (some (st.startPosition + st.bytesRead))
      fileStreams := Function.update s.fileStreams fileKey false
      streams := Function.update s.streams fileKey none }

/-- The handler `stream.on('error')` of the open stream of a key. -/
def streamOnError {J : Type} (s : Session J) (fileKey : FileKey) : Session J :=
  match s.streams fileKey with
  | none => s
  | some _ =>
    { s with
      fileStreams := Function.update s.fileStreams fileKey false
      streams := Function.update s.streams fileKey none }

/-- The handler `pythonProcess.stdout.on('data')` on the session. -/
def stdoutData {J : Type} (s : Session J) (data : Str) : Session J :=
  let r : List (Event J) × Str := stdoutOnData s.stdoutBuffer data
  { s.resWrite r.1 with stdoutBuffer := r.2 }

/-- The handler `pythonProcess.stderr.on('data')` on the session. -/
def stderrData {J : Type} (s : Session J) (data : Str) : Session J :=
  let r : List (Event J) × Str := stderrOnData s.stderrBuffer data
  { s.resWrite r.1 with stderrBuffer := r.2 }

/-- The handler `pythonProcess.on('close')`, up to its return: the interval is
cleared, the final read is scheduled, and the job record is updated. -/
def processClose {J : Type} (s : Session J) (code : ExitCode) (now : Nat) : Session J :=
  if s.workerClosed then s
  else
    { s with
      monitoring := false
      workerClosed := true
      finalReadPending := some code
      job := s.job.update (exitUpdate code now) }

/-- The events of the final read of one file, from `remainingContent`. -/
def finalReadEvents {J : Type} (parse : Str → Option J) (key : FileKey)
    (remainingContent : Str) : List (Event J) :=
  if !(trim remainingContent).isEmpty then
    if fileExtension key = ".json".toList then
      drainJson parse key remainingContent
    else
      ((splitNewline remainingContent).filter (fun line => !(trim line).isEmpty)).map
        (fun line => Event.data key (Payload.text (trim line)))
  else []

/-- The body of `filesToMonitor.forEach` in the timeout callback, for one key. -/
def finalReadFile {J : Type} (parse : Str → Option J) (fs : Files) (s : Session J)
    (key : FileKey) : Session J :=
  match fs key with
  | none => s
  | some content =>
    let lastPosition := (s.filePositions key).getD 0
    let currentSize := byteLength content
    if currentSize > lastPosition then
      let remainingContent := jsSlice content lastPosition
      { s.resWrite (finalReadEvents parse key remainingContent) with
        filePositions := Function.update s.filePositions key (some currentSize) }
    else s

/-- The timeout callback of the worker's `close` handler: the final read of
every file, then the `complete` event and `res.end()`. -/
def finalRead {J : Type} (parse : Str → Option J) (fs : Files) (s : Session J) : Session J :=
  match s.finalReadPending with
  | none => s
  | some code =>
    let s := (filesToMonitor.map Prod.fst).foldl (finalReadFile parse fs) s
    { (s.resWrite [completeEvent code]).resEnd with finalReadPending := none }

/-- The handler `req.on('close')`. -/
def requestClose {J : Type} (s : Session J) : Session J :=
  { s with
    killed := true
    monitoring := false
    job := s.job.update disconnectUpdate }

/-- The callbacks that the event loop can run during a session, with what
they receive from outside. -/
inductive Action where
  | tick (fs : Files)
  | streamData (key : FileKey) (chunk : Str)
  | streamEnd (key : FileKey)
  | streamError (key : FileKey)
  | stdout (data : Str)
  | stderr (data : Str)
  | processClose (code : ExitCode) (now : Nat)
  | finalRead (fs : Files)
  | requestClose

/-- One callback run to completion. -/
def step {J : Type} (parse : Str → Option J) (s : Session J) : Action → Session J
  | .tick fs => tick fs s
  | .streamData key chunk => streamOnData parse s key chunk
  | .streamEnd key => streamOnEnd s key
  | .streamError key => streamOnError s key
  | .stdout data => stdoutData s data
  | .stderr data => stderrData s data
  | .processClose code now => processClose s code now
  | .finalRead fs => finalRead parse fs s
  | .requestClose => requestClose s

/-- A sequence of callbacks, run in order. -/
def run {J : Type} (parse : Str → Option J) (s : Session J) (actions : List Action) : Session J :=
  actions.foldl (step parse) s

/-- The text `{"a": "x}y"}`. -/
def sampleBraceInString : Str :=
  ['{', '"', 'a', '"', ':', ' ', '"', 'x', '}', 'y', '"', '}']

/-- The text `{"b":{"c":"\"\\{"}}`. -/
def sampleNested : Str :=
  ['{', '"', 'b', '"', ':', '{', '"', 'c', '"', ':', '"', '\\', '"', '\\', '\\', '{', '"', '}', '}']

/-- A parser that accepts the two sample texts. -/
def sampleParse (t : Str) : Option Nat :=
  if t = sampleBraceInString then some 1 else if t = sampleNested then some 2 else none

/-- What a callback leaves alone for a key: the written events, the stored
offsets, and the key's in-progress mark and stream. -/
def SameFor {J : Type} (key : FileKey) (s t : Session J) : Prop :=
  t.written = s.written ∧ t.filePositions = s.filePositions ∧
  t.fileStreams key = s.fileStreams key ∧ t.streams key = s.streams key

/-- The files with `alice\n` in the `postid` file and nothing else. -/
def sampleFiles : Files :=
  fun k => if k = FileKey.postid then some ['a', 'l', 'i', 'c', 'e', '\n'] else none

/-- A session in which a read of the six bytes of `sampleFiles` has ended. -/
def sampleSession : Session Unit :=
  run (fun _ => none) (Session.start ['u'] ['o'] 0)
    [Action.tick sampleFiles, Action.streamData FileKey.postid ['a', 'l', 'i', 'c', 'e', '\n'],
      Action.streamEnd FileKey.postid]

/-- The files with the given text in the `postid` file and nothing else. -/
def postidOnly (content : Str) : Files :=
  fun k => if k = FileKey.postid then some content else none

/-- Two scheduler reads of the `postid` file: the first ends after `alice\nbo`,
the second reads the `b\n` appended since. -/
def straddlingReads : List Action :=
  [Action.tick (postidOnly ['a', 'l', 'i', 'c', 'e', '\n', 'b', 'o']),
   Action.streamData FileKey.postid ['a', 'l', 'i', 'c', 'e', '\n', 'b', 'o'],
   Action.streamEnd FileKey.postid,
   Action.tick (postidOnly ['a', 'l', 'i', 'c', 'e', '\n', 'b', 'o', 'b', '\n']),
   Action.streamData FileKey.postid
     (readFrom ['a', 'l', 'i', 'c', 'e', '\n', 'b', 'o', 'b', '\n'] 8),
   Action.streamEnd FileKey.postid]

/-- A scheduler read of `é\n`, then the worker's exit and the final read of the
file grown to `é\nx\n`. -/
def multibyteFinalRead : List Action :=
  [Action.tick (postidOnly ['é', '\n']),
   Action.streamData FileKey.postid ['é', '\n'],
   Action.streamEnd FileKey.postid,
   Action.processClose (some 0) 5,
   Action.finalRead (postidOnly ['é', '\n', 'x', '\n'])]

/-- A scheduler read of `a\n` is opened, the worker exits, the final read runs,
and only then the stream delivers its chunk. -/
def lateChunk : List Action :=
  [Action.tick (postidOnly ['a', '\n']),
   Action.processClose (some 0) 5,
   Action.finalRead (postidOnly ['a', '\n']),
   Action.streamData FileKey.postid ['a', '\n']]

/-- A scheduler read delivers `a\n`, the file grows to `a\nb\n`, the worker
exits and the final read runs before the stream's `end`. -/
def finalReadBeforeEnd : List Action :=
  [Action.tick (postidOnly ['a', '\n']),
   Action.streamData FileKey.postid ['a', '\n'],
   Action.processClose (some 0) 5,
   Action.finalRead (postidOnly ['a', '\n', 'b', '\n'])]

/-- A read of `a\n` is open when the request closes; the read then delivers its
chunk and ends, the killed worker's `close` fires, and the final read finds
the file grown to `a\nb\n`. -/
def disconnectThenExit : List Action :=
  [Action.tick (postidOnly ['a', '\n']),
   Action.requestClose,
   Action.streamData FileKey.postid ['a', '\n'],
   Action.streamEnd FileKey.postid,
   Action.processClose none 5,
   Action.finalRead (postidOnly ['a', '\n', 'b', '\n'])]

/-- The worker exits with code 0, the final read ends the response, and the
request closes afterwards. -/
def closeAfterCompletion : List Action :=
  [Action.processClose (some 0) 5,
   Action.finalRead (fun _ => none),
   Action.requestClose]

/-- An empty `postid` file is seen by a tick and by the final read. -/
def emptyFileSession : List Action :=
  [Action.tick (postidOnly []),
   Action.processClose (some 0) 5,
   Action.finalRead (postidOnly [])]

/-- The `postid` file appears only after the last tick; the final read reads it. -/
def foundByFinalRead : List Action :=
  [Action.tick (fun _ => none),
   Action.processClose (some 0) 5,
   Action.finalRead (postidOnly ['a', '\n'])]

/-- The job record holds the path of the file of `key`, built from the
session's directory and username. -/
def FileRecorded {J : Type} (outputDir username : Str) (key : FileKey) (s : Session J) : Prop :=
  s.outputDir = outputDir ∧ s.username = username ∧
  s.job.files key = some (filePath outputDir username key)

/-- What the interval callback never changes. -/
def TickFrame {J : Type} (s t : Session J) : Prop :=
  t.written = s.written ∧ t.filePositions = s.filePositions ∧ t.monitoring = s.monitoring ∧
  t.outputDir = s.outputDir ∧ t.username = s.username

/-- The state of a key right after `streamFileIncremental` was called for it
with start position `off`. -/
def ReadOpened {J : Type} (key : FileKey) (off : Nat) (path : Str) (t : Session J) : Prop :=
  t.streams key = some ⟨off, [], 0⟩ ∧ t.fileStreams key = true ∧ t.job.files key = some path

/-! ## The start of a session -/

/-- How far the handler of `POST /start` gets: `ScrapeResult.create` rejects,
or the callback of its `then` throws while preparing the directory and
starting the worker (before any handler is attached), or the worker is
started and the handlers are attached. -/
inductive StartOutcome where
  | createRejects
  | startThrows
  | started
  deriving DecidableEq, Repr

/-- What `POST /start` leaves behind. -/
inductive Started (J : Type) where
  /-- The reply `400` for a missing username; no event stream. -/
  | badRequest
  /-- The `catch` of the promise chain ran: the events written and the number
  of events written when `res.end()` was called.  No handler of the session
  exists. -/
  | failed (written : List (Event J)) (endedAt : Nat)
  /-- The session runs from this state. -/
  | running (s : Session J)

/-- The handler of `POST /start`. -/
def postStart {J : Type} (username outputDir : Str) (startTime : Nat) (outcome : StartOutcome) :
    Started J :=
  if username.isEmpty then Started.badRequest
  else
    let written : List (Event J) := [Event.connected "Streaming started"]
    match outcome with
    | .createRejects | .startThrows =>
      let written := written ++ [Event.error "Failed to start scraping process".toList]
      Started.failed written written.length
    | .started => Started.running (Session.start username outputDir startTime)

/-! ## The routes on one result -/

/-- A stored `ScrapeResult`, as far as the routes on one result read it:
its id, the id of its owner as text, and its `files`. -/
structure StoredResult where
  id : String
  user : String
  files : String → Option Str

/-- The outcome of `ScrapeResult.findById(req.params.id)`: it throws, it
finds nothing, or it finds a result. -/
inductive Lookup where
  | throws
  | missing
  | found (result : StoredResult)

/-- The reply of a route on one result. -/
inductive Reply where
  /-- A reply `res.status(code).json(...)` with `success: false` and a message. -/
  | failure (status : Nat) (message : String)
  /-- The reply of `GET /:id` with the result. -/
  | result (data : StoredResult)
  /-- The reply of `GET /:id/file/:fileKey` with the file's text. -/
  | fileContent (content : Str)
  /-- The reply of `DELETE /:id` after the deletion. -/
  | deleted

/-- The route `GET /:id/file/:fileKey`; `disk` gives the text of the files that
exist. -/
def getFile (lookup : Lookup) (reqUser : String) (fileKey : String) (disk : Str → Option Str) :
    Reply :=
  match lookup with
  | .throws => Reply.failure 500 "Server error"
  | .missing => Reply.failure 404 "Result not found"
  | .found result =>
    if result.user ≠ reqUser then Reply.failure 403 "Not authorized to access this result"
    else
      match result.files fileKey with
      | none => Reply.failure 404 "File not found"
      | some filePath =>
        match disk filePath with
        | none => Reply.failure 404 "File not found"
        | some fileContent => Reply.fileContent fileContent

/-- The route `GET /:id`. -/
def getResult (lookup : Lookup) (reqUser : String) : Reply :=
  match lookup with
  | .throws => Reply.failure 500 "Server error"
  | .missing => Reply.failure 404 "Result not found"
  | .found result =>
    if result.user ≠ reqUser then Reply.failure 403 "Not authorized to access this result"
    else Reply.result result

/-- The route `DELETE /:id`: the reply, and whether `result.deleteOne()` was
called and succeeded. -/
def deleteResult (lookup : Lookup) (reqUser : String) (deleteThrows : Bool) : Reply × Bool :=
  match lookup with
  | .throws => (Reply.failure 500 "Server error", false)
  | .missing => (Reply.failure 404 "Result not found", false)
  | .found result =>
    if result.user ≠ reqUser then (Reply.failure 403 "Not authorized to delete this result", false)
    else if deleteThrows then (Reply.failure 500 "Server error", false)
    else (Reply.deleted, true)

/-- The status code of a reply. -/
def Reply.status : Reply → Nat
  | .failure status _ => status
  | _ => 200

/-- A stored result of the user `alice` with no file. -/
def sampleResult : StoredResult :=
  { id := "r1", user := "alice", files := fun _ => none }

/-! ## Rounds of a growing text file -/

/-- The text of whole lines: each line followed by a line feed. -/
def linesBlock (lines : List Str) : Str :=
  (lines.map (fun l => l ++ ['\n'])).flatten

/-- The `data` events of the lines that are not empty or white space only. -/
def lineEvents {J : Type} (key : FileKey) (lines : List Str) : List (Event J) :=
  (lines.filter (fun l => !l.all isJsWhitespace)).map
    (fun l => Event.data key (Payload.text (trim l)))

/-- The callbacks of one scheduler read that runs to its end: the tick, the
chunks delivered by the stream, and the stream's `end`. -/
def readActions (fs : Files) (key : FileKey) (chunks : List Str) : List Action :=
  Action.tick fs :: (chunks.map (Action.streamData key) ++ [Action.streamEnd key])

/-- One tick of a growing text file: the files seen by the tick, the lines
appended since the tick before, and the chunks in which the stream delivers
what it reads. -/
structure Round where
  fs : Files
  lines : List Str
  chunks : List Str

/-- The callbacks of a sequence of rounds. -/
def roundsActions (key : FileKey) : List Round → List Action
  | [] => []
  | r :: rs => readActions r.fs key r.chunks ++ roundsActions key rs

/-- The lines appended over a sequence of rounds. -/
def allLines : List Round → List Str
  | [] => []
  | r :: rs => r.lines ++ allLines rs

/-- The file of `key` holds `prev` before the first round; at each round it has
grown by that round's whole lines, and the stream delivers, in the round's
chunks, the file's text from the byte length of the content before. -/
def Grows (key : FileKey) : Str → List Round → Prop
  | _, [] => True
  | prev, r :: rs =>
    (∀ l ∈ r.lines, '\n' ∉ l) ∧
    r.fs key = some (prev ++ linesBlock r.lines) ∧
    r.chunks.flatten = readFrom (prev ++ linesBlock r.lines) (byteLength prev) ∧
    Grows key (prev ++ linesBlock r.lines) rs

/-- What the handlers of a read stream never change. -/
def StreamFrame {J : Type} (s t : Session J) : Prop :=
  t.filePositions = s.filePositions ∧ t.fileStreams = s.fileStreams ∧
  t.monitoring = s.monitoring

/-- The key has no read open, the interval is set, and the stored offset is
the byte length of `prev`. -/
def Idle {J : Type} (key : FileKey) (prev : Str) (s : Session J) : Prop :=
  s.monitoring = true ∧ s.fileStreams key = false ∧ s.streams key = none ∧
  (s.filePositions key).getD 0 = byteLength prev

/-- The two rounds of the `postid` file growing to `alice\n` and then to
`alice\nbob\n`, each read in one chunk. -/
def aliceBobRounds : List Round :=
  [{ fs := postidOnly ['a', 'l', 'i', 'c', 'e', '\n'],
     lines := [['a', 'l', 'i', 'c', 'e']],
     chunks := [['a', 'l', 'i', 'c', 'e', '\n']] },
   { fs := postidOnly ['a', 'l', 'i', 'c', 'e', '\n', 'b', 'o', 'b', '\n'],
     lines := [['b', 'o', 'b']],
     chunks := [['b', 'o', 'b', '\n']] }]

/-! ## The scheduler with every read stream kept apart -/

/-- A read stream created by one call of `streamFileIncremental` and not yet
ended or failed: its number in creation order, and its closure variables. -/
structure OpenRead where
  id : Nat
  fileKey : FileKey
  startPosition : Nat
  bytesRead : Nat
  deriving DecidableEq, Repr

/-- The scheduler's part of the session, with the open read streams as a list,
so that two streams of one key would both be present. -/
structure Scheduler where
  filePositions : FileKey → Option Nat
  fileStreams : FileKey → Bool
  reads : List OpenRead
  /-- The number of read streams created so far. -/
  created : Nat
  monitoring : Bool

/-- The scheduler at the start of a session. -/
def Scheduler.init : Scheduler :=
  { filePositions := fun _ => none, fileStreams := fun _ => false, reads := [],
    created := 0, monitoring := true }

/-- The body of `filesToMonitor.forEach` in the interval callback, for one
key, with `streamFileIncremental` inlined: the key is marked and a new
stream is created. -/
def Scheduler.tickFile (fs : Files) (s : Scheduler) (key : FileKey) : Scheduler :=
  match fs key with
  | none => s
  | some content =>
    let currentSize := byteLength content
    let lastPosition := (s.filePositions key).getD 0
    if currentSize > lastPosition && !s.fileStreams key then
      { s with
        fileStreams := Function.update s.fileStreams key true
        reads := s.reads ++ [⟨s.created, key, lastPosition, 0⟩]
        created := s.created + 1 }
    else s

/-- The callback of `monitorInterval`. -/
def Scheduler.tick (fs : Files) (s : Scheduler) : Scheduler :=
  if s.monitoring then (filesToMonitor.map Prod.fst).foldl (Scheduler.tickFile fs) s else s

/-- The handler `stream.on('data')` of the stream `id`, as far as the
scheduler goes: the chunk's bytes are counted. -/
def Scheduler.streamData (s : Scheduler) (id bytes : Nat) : Scheduler :=
  { s with
    reads := List.map
      (fun r => if r.id = id then { r with bytesRead := r.bytesRead + bytes } else r) s.reads }

/-- The handler `stream.on('end')` of the stream `id`. -/
def Scheduler.streamEnd (s : Scheduler) (id : Nat) : Scheduler :=
  match s.reads.find? (fun r => r.id = id) with
  | none => s
  | some r =>
    { s with
      filePositions := Function.update s.filePositions r.fileKey
        (some (r.startPosition + r.bytesRead))
      fileStreams := Function.update s.fileStreams r.fileKey false
      reads := s.reads.filter (fun x => x.id ≠ id) }

/-- The handler `stream.on('error')` of the stream `id`. -/
def Scheduler.streamError (s : Scheduler) (id : Nat) : Scheduler :=
  match s.reads.find? (fun r => r.id = id) with
  | none => s
  | some r =>
    { s with
      fileStreams := Function.update s.fileStreams r.fileKey false
      reads := s.reads.filter (fun x => x.id ≠ id) }

/-- The final read, as far as the scheduler goes: the offsets of grown files
are set to their sizes; `fileStreams` is neither read nor written. -/
def Scheduler.finalRead (fs : Files) (s : Scheduler) : Scheduler :=
  { s with filePositions := fun key =>
      match fs key with
      | none => s.filePositions key
      | some content =>
        if byteLength content > (s.filePositions key).getD 0 then some (byteLength content)
        else s.filePositions key }

/-- The callbacks that touch the scheduler. -/
inductive SchedulerAction where
  | tick (fs : Files)
  | streamData (id bytes : Nat)
  | streamEnd (id : Nat)
  | streamError (id : Nat)
  | clearInterval
  | finalRead (fs : Files)

/-- One callback on the scheduler. -/
def Scheduler.step (s : Scheduler) : SchedulerAction → Scheduler
  | .tick fs => s.tick fs
  | .streamData id bytes => s.streamData id bytes
  | .streamEnd id => s.streamEnd id
  | .streamError id => s.streamError id
  | .clearInterval => { s with monitoring := false }
  | .finalRead fs => s.finalRead fs

/-- A sequence of callbacks on the scheduler. -/
def Scheduler.run (s : Scheduler) (actions : List SchedulerAction) : Scheduler :=
  actions.foldl Scheduler.step s

/-- The invariant: the open streams have distinct numbers below `created`
and distinct keys, and a key is marked exactly when a stream of it is open. -/
def Scheduler.Inv (s : Scheduler) : Prop :=
  (∀ r ∈ s.reads, r.id < s.created) ∧
  s.reads.Pairwise (fun a b => a.id ≠ b.id ∧ a.fileKey ≠ b.fileKey) ∧
  (∀ key, s.fileStreams key = true ↔ ∃ r ∈ s.reads, r.fileKey = key)

/-! ## Rejected spans -/

/-- Two scanner states, each with the text already visited, that no later
iteration can tell apart: the same depth and flags and, while the depth is
positive, the same text since `objectStart`. -/
def SameView (p1 : Str) (σ1 : ScanState) (p2 : Str) (σ2 : ScanState) : Prop :=
  σ1.braceCount = σ2.braceCount ∧ σ1.inString = σ2.inString ∧
  σ1.escapeNext = σ2.escapeNext ∧
  (1 ≤ σ1.braceCount →
    0 ≤ σ1.objectStart ∧ 0 ≤ σ2.objectStart ∧
    σ1.objectStart.toNat ≤ p1.length ∧ σ2.objectStart.toNat ≤ p2.length ∧
    p1.drop σ1.objectStart.toNat = p2.drop σ2.objectStart.toNat)

/-- A candidate span: a complete brace span whose depth stays positive
before its last character, so that the scanner, meeting it at depth 0, hands
exactly this span to the parser. -/
def CandidateSpan (span : Str) : Prop :=
  BalancedSpan span ∧
  ∀ n, 0 < n → n < span.length →
    (lexSpan (span.take n)).closes < (lexSpan (span.take n)).opens

/-- The text `{"a":1}`. -/
def sampleFirst : Str := ['{', '"', 'a', '"', ':', '1', '}']

/-- The text `{x}`, balanced but not JSON. -/
def sampleRejected : Str := ['{', 'x', '}']

/-- The text `{"b":2}`. -/
def sampleSecond : Str := ['{', '"', 'b', '"', ':', '2', '}']

/-- A parser that accepts `sampleFirst` and `sampleSecond` only. -/
def sampleParseTwo (t : Str) : Option Nat :=
  if t = sampleFirst then some 1 else if t = sampleSecond then some 2 else none

/-! ## Paths -/

/-- The segments of a path between its `/` separators. -/
def splitSlash : Str → List Str
  | [] => [[]]
  | c :: cs =>
    match splitSlash cs with
    | [] => if c = '/' then [[], []] else [[c]]
    | seg :: segs => if c = '/' then [] :: seg :: segs else (c :: seg) :: segs

/-- One segment in the normalisation that `path.join` applies to an absolute
POSIX path: an empty segment and `.` are dropped, `..` removes the segment
before it (at the root there is none to remove), any other segment is kept. -/
def normalizeStep (stack : List Str) (segment : Str) : List Str :=
  if segment = [] ∨ segment = ['.'] then stack
  else if segment = ['.', '.'] then stack.dropLast
  else stack ++ [segment]

/-- The segments of an absolute path after normalisation, from the root. -/
def normalize (path : Str) : List Str :=
  (splitSlash path).foldl normalizeStep []

/-- Whether the normalised path `path` lies strictly below the directory
`dir`, both given by their segments from the root. -/
def inside (dir path : List Str) : Bool :=
  dir.isPrefixOf path && decide (dir.length < path.length)

/-! ## The client -/

/-- The state `status` of the `Scraper` component. -/
inductive ClientStatus where
  | idle
  | running
  | completed
  | error
  deriving DecidableEq, Repr

/-- The effect of `handleStreamData(data)` on `status`: only a `complete`
event sets it, to `completed` when `data.code === 0` and to `error`
otherwise. -/
def handleStreamData {J : Type} (status : ClientStatus) : Event J → ClientStatus
  | Event.complete code _ => if code = some 0 then ClientStatus.completed else ClientStatus.error
  | _ => status

/-- The `for` loop of `readStream` over the lines of one chunk: a line that
starts with `data: ` is parsed from its seventh character on and handled; a
line that does not parse is ignored.  `JSON.parse` followed by the reading of
the fields is the parameter `parseEvent`. -/
def handleLines {J : Type} (parseEvent : Str → Option (Event J)) (status : ClientStatus)
    (lines : List Str) : ClientStatus :=
  lines.foldl
    (fun status line =>
      if "data: ".toList.isPrefixOf line then
        match parseEvent (line.drop 6) with
        | some data => handleStreamData status data
        | none => status
      else status)
    status

/-- The loop of `readStream` over the results of `reader.read()`, each a chunk
of text (`some`) or the report that the stream is done (`none`): a chunk is
appended to `buffer`, the lines but the last are handled and the last is kept;
when the reader reports done the status is set to `completed` and the loop
ends.  An empty list leaves the reader waiting; a read that rejects (the
`catch`, which sets `error`) is not among the results. -/
def readStream {J : Type} (parseEvent : Str → Option (Event J)) :
    ClientStatus → Str → List (Option Str) → ClientStatus
  | status, _, [] => status
  | _, _, none :: _ => ClientStatus.completed
  | status, buffer, some value :: rest =>
    let lines := splitNewline (buffer ++ value)
    readStream parseEvent (handleLines parseEvent status lines.dropLast)
      (lines.getLast?.getD []) rest

/-- The line of a `complete` event with code 1, after `data: `. -/
def failedLine : Str :=
  "\x7b\"type\":\"complete\",\"code\":1,\"message\":\"Scraping failed\"\x7d".toList

/-- A reader of events that knows the line `failedLine` only. -/
def sampleParseEvent (t : Str) : Option (Event Nat) :=
  if t = failedLine then some (Event.complete (some 1) "Scraping failed") else none

/-- The chunk with the `complete` event of a worker that exited with code 1. -/
def failedChunk : Str :=
  "data: ".toList ++ failedLine ++ ['\n', '\n']

/-! ## The URL of an endpoint -/

/-- The function `getApiUrl(endpoint)` of `config/api.js`, with the module
constant `API_BASE_URL` as a parameter: one leading `/` of the endpoint and
one trailing `/` of the base are removed; an empty base gives a relative
URL. -/
def getApiUrl (API_BASE_URL endpoint : Str) : Str :=
  let cleanEndpoint := if endpoint.head? = some '/' then endpoint.drop 1 else endpoint
  if !API_BASE_URL.isEmpty then
    let cleanBaseUrl :=
      if API_BASE_URL.getLast? = some '/' then API_BASE_URL.dropLast else API_BASE_URL
    cleanBaseUrl ++ '/' :: cleanEndpoint
  else '/' :: cleanEndpoint

/-! ## Lemmas -/

theorem splitNewline_ne_nil (s : Str) : splitNewline s ≠ [] := by
  cases s with
  | nil => simp [splitNewline]
  | cons c cs =>
    unfold splitNewline
    split <;> split <;> simp

theorem splitNewline_no_newline (s : Str) (h : '\n' ∉ s) : splitNewline s = [s] := by
  induction s with
  | nil => rfl
  | cons c cs ih =>
    have hc : c ≠ '\n' := fun e => h (by simp [e])
    have hcs : '\n' ∉ cs := fun e => h (List.mem_cons_of_mem _ e)
    simp [splitNewline, ih hcs, hc]

theorem splitNewline_segment (s rest : Str) (h : '\n' ∉ s) :
    splitNewline (s ++ '\n' :: rest) = s :: splitNewline rest := by
  induction s with
  | nil =>
    show splitNewline ('\n' :: rest) = [] :: splitNewline rest
    have hne := splitNewline_ne_nil rest
    cases heq : splitNewline rest with
    | nil => exact absurd heq hne
    | cons seg segs => simp [splitNewline, heq]
  | cons c cs ih =>
    have hc : c ≠ '\n' := fun e => h (by simp [e])
    have hcs : '\n' ∉ cs := fun e => h (List.mem_cons_of_mem _ e)
    show splitNewline (c :: (cs ++ '\n' :: rest)) = (c :: cs) :: splitNewline rest
    rw [splitNewline, ih hcs]
    simp [hc]

theorem splitNewline_terminated (segs : List Str) (tail : Str)
    (hsegs : ∀ s ∈ segs, '\n' ∉ s) (htail : '\n' ∉ tail) :
    splitNewline ((segs.map (fun s => s ++ ['\n'])).flatten ++ tail) = segs ++ [tail] := by
  induction segs with
  | nil => simpa using splitNewline_no_newline tail htail
  | cons s segs ih =>
    have hs : '\n' ∉ s := hsegs s (List.mem_cons_self _ _)
    have hrest : ∀ t ∈ segs, '\n' ∉ t := fun t ht => hsegs t (List.mem_cons_of_mem _ ht)
    have : (List.map (fun s => s ++ ['\n']) (s :: segs)).flatten ++ tail
        = s ++ '\n' :: ((List.map (fun s => s ++ ['\n']) segs).flatten ++ tail) := by
      simp
    rw [this, splitNewline_segment _ _ hs, ih hrest]
    rfl

theorem trim_isEmpty_iff (s : Str) : (trim s).isEmpty = s.all isJsWhitespace := by
  rw [Bool.eq_iff_iff]
  simp only [List.isEmpty_iff, List.all_eq_true, trim, List.reverse_eq_nil_iff,
    List.dropWhile_eq_nil_iff, List.mem_reverse]
  constructor
  · intro h
    have hnil : s.dropWhile isJsWhitespace = [] := by
      cases hd : s.dropWhile isJsWhitespace with
      | nil => rfl
      | cons x xs =>
        have hx : isJsWhitespace x = true := h x (by simp [hd])
        have hhead := List.head_dropWhile_not isJsWhitespace s (by simp [hd])
        simp [hd, hx] at hhead
    exact List.dropWhile_eq_nil_iff.mp hnil
  · intro h x hx
    exact h x ((List.dropWhile_sublist _).subset hx)

theorem splitLines_terminated (segs : List Str) (tail : Str)
    (hsegs : ∀ s ∈ segs, '\n' ∉ s) (htail : '\n' ∉ tail) :
    splitLines ((segs.map (fun s => s ++ ['\n'])).flatten ++ tail)
      = ((segs.filter (fun s => !s.all isJsWhitespace)).map trim, tail) := by
  unfold splitLines
  simp only [splitNewline_terminated segs tail hsegs htail, trim_isEmpty_iff]
  simp

theorem scanFrom_nil {J : Type} (parse : Str → Option J) (fileKey : FileKey)
    (jsonBuffer : Str) (i : Nat) (σ : ScanState) :
    scanFrom parse fileKey [] jsonBuffer i σ = ([], jsonBuffer) := by
  simp [scanFrom, scanLoop]

theorem scanFrom_cons_skip {J : Type} (parse : Str → Option J) (fileKey : FileKey)
    (char : Char) (rest jsonBuffer : Str) (i : Nat) (σ : ScanState) (h : ¬ σ.closes char) :
    scanFrom parse fileKey (char :: rest) jsonBuffer i σ
      = scanFrom parse fileKey rest jsonBuffer (i + 1) (σ.next i char) := by
  obtain ⟨bc, os, ins, esc⟩ := σ
  simp only [ScanState.closes, not_and] at h
  simp only [scanFrom, scanLoop, ScanState.next]
  cases esc <;> cases ins <;> simp
  all_goals split_ifs <;> simp_all <;> omega

theorem scanFrom_cons_closes {J : Type} (parse : Str → Option J) (fileKey : FileKey)
    (char : Char) (rest jsonBuffer : Str) (i : Nat) (σ : ScanState) (h : σ.closes char) :
    scanFrom parse fileKey (char :: rest) jsonBuffer i σ
      = match parse (substring jsonBuffer σ.objectStart.toNat (i + 1)) with
        | some item =>
          (Event.data fileKey (Payload.json item) :: (scanJson parse fileKey rest).1,
            (scanJson parse fileKey rest).2)
        | none => scanFrom parse fileKey rest jsonBuffer (i + 1) (σ.next i char) := by
  obtain ⟨bc, os, ins, esc⟩ := σ
  obtain ⟨h1, h2, h3, h4, h5⟩ := h
  simp only at h1 h2 h3 h4 h5
  subst h1 h2 h3 h4
  simp [scanFrom, scanLoop, ScanState.next, scanJson, h5]

theorem substring_append_left (s t : Str) (a b : Nat) (ha : a ≤ b) (hb : b ≤ s.length) :
    substring (s ++ t) a b = substring s a b := by
  simp [substring, Nat.max_eq_right ha, List.take_append_of_le_length hb]

theorem next_objectStart_le (σ : ScanState) (i : Nat) (char : Char)
    (h : σ.objectStart.toNat ≤ i) : (σ.next i char).objectStart.toNat ≤ i + 1 := by
  obtain ⟨bc, os, ins, esc⟩ := σ
  simp only [ScanState.next]
  simp only at h
  split_ifs <;> simp <;> omega

/-- Feeding a chunk `a` and then `b`: while nothing has been written the buffer
is kept whole, and once something has been written the scan of `a ++ b`
continues as a fresh scan of the kept buffer followed by `b`. -/
theorem scanFrom_split {J : Type} (parse : Str → Option J) (fileKey : FileKey) (a : Str) :
    ∀ (b pre jsonBuffer : Str) (i : Nat) (σ : ScanState),
      jsonBuffer = pre ++ a → i = pre.length → σ.objectStart.toNat ≤ i →
      ((scanFrom parse fileKey a jsonBuffer i σ).1 = [] →
        (scanFrom parse fileKey a jsonBuffer i σ).2 = jsonBuffer) ∧
      ((scanFrom parse fileKey a jsonBuffer i σ).1 ≠ [] →
        scanFrom parse fileKey (a ++ b) (jsonBuffer ++ b) i σ
          = ((scanFrom parse fileKey a jsonBuffer i σ).1
                ++ (scanJson parse fileKey ((scanFrom parse fileKey a jsonBuffer i σ).2 ++ b)).1,
              (scanJson parse fileKey ((scanFrom parse fileKey a jsonBuffer i σ).2 ++ b)).2)) := by
  induction a with
  | nil =>
    intro b pre jsonBuffer i σ _ _ _
    simp [scanFrom_nil]
  | cons c a ih =>
    intro b pre jsonBuffer i σ hjb hi hos
    have hjb2 : jsonBuffer = (pre ++ [c]) ++ a := by simp [hjb]
    have hi2 : i + 1 = (pre ++ [c]).length := by simp [hi]
    have hstep := ih b (pre ++ [c]) jsonBuffer (i + 1) (σ.next i c) hjb2 hi2
      (next_objectStart_le σ i c hos)
    by_cases hc : σ.closes c
    · rw [List.cons_append, scanFrom_cons_closes _ _ _ _ _ _ _ hc,
        scanFrom_cons_closes _ _ _ _ _ _ _ hc]
      have hsub : substring (jsonBuffer ++ b) σ.objectStart.toNat (i + 1)
          = substring jsonBuffer σ.objectStart.toNat (i + 1) :=
        substring_append_left _ _ _ _ (by omega) (by simp [hjb, hi])
      rw [hsub]
      cases hp : parse (substring jsonBuffer σ.objectStart.toNat (i + 1)) with
      | none => exact hstep
      | some item =>
        have hfresh := ih b [] a 0 ScanState.init (by simp) (by simp) (by simp [ScanState.init])
        have hinit : ∀ x : Str, scanFrom parse fileKey x x 0 ScanState.init
            = scanJson parse fileKey x := fun _ => rfl
        rw [hinit] at hfresh
        refine ⟨by simp, fun _ => ?_⟩
        simp only [List.cons_append]
        by_cases hnil : (scanJson parse fileKey a).1 = []
        · have hrem := hfresh.1 hnil
          rw [hnil, hrem]
          simp
        · have hcont := hfresh.2 hnil
          have hinit2 : scanFrom parse fileKey (a ++ b) (a ++ b) 0 ScanState.init
              = scanJson parse fileKey (a ++ b) := rfl
          rw [hinit2] at hcont
          rw [hcont]
    · rw [List.cons_append, scanFrom_cons_skip _ _ _ _ _ _ _ hc,
        scanFrom_cons_skip _ _ _ _ _ _ _ hc]
      exact hstep

/-- Feeding `a` and then `b` through `stream.on('data')` equals feeding `a ++ b`. -/
theorem jsonOnData_two_chunks {J : Type} (parse : Str → Option J) (fileKey : FileKey)
    (buffer a b : Str) :
    ((jsonOnData parse fileKey buffer a).1
        ++ (jsonOnData parse fileKey (jsonOnData parse fileKey buffer a).2 b).1,
      (jsonOnData parse fileKey (jsonOnData parse fileKey buffer a).2 b).2)
      = jsonOnData parse fileKey buffer (a ++ b) := by
  have h := scanFrom_split parse fileKey (buffer ++ a) b [] (buffer ++ a) 0 ScanState.init
    (by simp) (by simp) (by simp [ScanState.init])
  have hinit : ∀ x : Str, scanFrom parse fileKey x x 0 ScanState.init
      = scanJson parse fileKey x := fun _ => rfl
  rw [hinit, hinit] at h
  simp only [jsonOnData, ← List.append_assoc]
  by_cases hnil : (scanJson parse fileKey (buffer ++ a)).1 = []
  · rw [hnil, h.1 hnil]
    simp
  · rw [h.2 hnil]

theorem lexSpan_snoc (s : Str) (c : Char) : lexSpan (s ++ [c]) = lexStep (lexSpan s) c := by
  simp [lexSpan, List.foldl_append]

theorem openSpan_init (pre : Str) : OpenSpan pre ScanState.init := by
  intro h
  simp [ScanState.init] at h

theorem openSpan_next (pre : Str) (σ : ScanState) (c : Char) (h : OpenSpan pre σ) :
    OpenSpan (pre ++ [c]) (σ.next pre.length c) := by
  obtain ⟨bc, os, ins, esc⟩ := σ
  by_cases hbc : 1 ≤ bc
  · obtain ⟨h0, hlt, hhead, hin, hesc, hcnt⟩ := h hbc
    simp only at h0 hlt hhead hin hesc hcnt
    have hdrop : (pre ++ [c]).drop os.toNat = pre.drop os.toNat ++ [c] :=
      List.drop_append_of_le_length (Nat.le_of_lt hlt)
    have hne : pre.drop os.toNat ≠ [] := by
      intro hnil
      rw [hnil] at hhead
      simp at hhead
    have hhead2 : (pre.drop os.toNat ++ [c]).head? = some '{' := by
      rw [List.head?_append_of_ne_nil _ hne]
      exact hhead
    have hbc0 : bc ≠ 0 := by omega
    intro hpos
    subst hin hesc
    simp only [ScanState.next] at hpos ⊢
    split_ifs at hpos ⊢ <;>
      simp_all [hdrop, lexSpan_snoc, lexStep] <;> omega
  · intro hpos
    simp only [ScanState.next] at hpos ⊢
    split_ifs at hpos ⊢ <;> simp_all <;> try omega
    all_goals simp [lexSpan, lexStep]

/-- At a closing iteration the candidate text is a complete brace span of the
buffer. -/
theorem closes_span (pre rest : Str) (σ : ScanState) (c : Char)
    (hinv : OpenSpan pre σ) (hc : σ.closes c) :
    pre ++ c :: rest
        = pre.take σ.objectStart.toNat
          ++ substring (pre ++ c :: rest) σ.objectStart.toNat (pre.length + 1) ++ rest ∧
    BalancedSpan (substring (pre ++ c :: rest) σ.objectStart.toNat (pre.length + 1)) := by
  obtain ⟨bc, os, ins, esc⟩ := σ
  obtain ⟨h1, h2, h3, h4, h5⟩ := hc
  simp only at h1 h2 h3 h4 h5
  subst h1 h2 h3 h4
  obtain ⟨_, hlt, hhead, hin, hesc, hcnt⟩ := hinv (by simp)
  simp only at hlt hhead hin hesc hcnt
  have hne : pre.drop os.toNat ≠ [] := by
    intro hnil
    rw [hnil] at hhead
    simp at hhead
  have hsub : substring (pre ++ '}' :: rest) os.toNat (pre.length + 1)
      = pre.drop os.toNat ++ ['}'] := by
    have htake : (pre ++ '}' :: rest).take (pre.length + 1) = pre ++ ['}'] := by
      have : pre ++ '}' :: rest = (pre ++ ['}']) ++ rest := by simp
      rw [this, List.take_append_of_le_length (by simp)]
      exact List.take_of_length_le (by simp)
    simp only [substring, Nat.max_eq_right (by omega : os.toNat ≤ pre.length + 1),
      Nat.min_eq_left (by omega : os.toNat ≤ pre.length + 1), htake]
    exact List.drop_append_of_le_length (Nat.le_of_lt hlt)
  rw [hsub]
  refine ⟨?_, ?_, ?_, ?_, ?_, ?_⟩
  · rw [← List.append_assoc (pre.take os.toNat), List.take_append_drop]
    simp
  · rw [List.head?_append_of_ne_nil _ hne]
    exact hhead
  · simp
  · rw [lexSpan_snoc]
    simp only [lexStep, hesc, hin]
    simp
    omega
  · simpa using hin
  · simpa using hesc

/-- Every event written by the incremental loop carries the parse of a
complete brace span of the buffer. -/
theorem scanFrom_balanced {J : Type} (parse : Str → Option J) (fileKey : FileKey) (rest : Str) :
    ∀ (pre jsonBuffer : Str) (i : Nat) (σ : ScanState),
      jsonBuffer = pre ++ rest → i = pre.length → OpenSpan pre σ →
      ∀ e ∈ (scanFrom parse fileKey rest jsonBuffer i σ).1,
        ∃ (a span b : Str) (item : J), jsonBuffer = a ++ span ++ b ∧ parse span = some item ∧
          e = Event.data fileKey (Payload.json item) ∧ BalancedSpan span := by
  induction rest with
  | nil =>
    intro pre jsonBuffer i σ _ _ _ e he
    simp [scanFrom_nil] at he
  | cons c rest ih =>
    intro pre jsonBuffer i σ hjb hi hinv e he
    have hjb2 : jsonBuffer = (pre ++ [c]) ++ rest := by simp [hjb]
    have hi2 : i + 1 = (pre ++ [c]).length := by simp [hi]
    have hinv2 : OpenSpan (pre ++ [c]) (σ.next i c) := by
      rw [hi]
      exact openSpan_next pre σ c hinv
    by_cases hc : σ.closes c
    · rw [scanFrom_cons_closes _ _ _ _ _ _ _ hc] at he
      obtain ⟨hcut, hbal⟩ := closes_span pre rest σ c hinv hc
      rw [← hjb, ← hi] at hcut hbal
      cases hp : parse (substring jsonBuffer σ.objectStart.toNat (i + 1)) with
      | none =>
        rw [hp] at he
        exact ih (pre ++ [c]) jsonBuffer (i + 1) (σ.next i c) hjb2 hi2 hinv2 e he
      | some item =>
        rw [hp] at he
        simp only [List.mem_cons] at he
        rcases he with he | he
        · exact ⟨_, _, _, item, hcut, hp, he, hbal⟩
        · obtain ⟨a, span, b, item2, hrest, hp2, he2, hbal2⟩ :=
            ih [] rest 0 ScanState.init (by simp) (by simp) (openSpan_init []) e he
          refine ⟨pre ++ [c] ++ a, span, b, item2, ?_, hp2, he2, hbal2⟩
          rw [hjb2, hrest]
          simp
    · rw [scanFrom_cons_skip _ _ _ _ _ _ _ hc] at he
      exact ih (pre ++ [c]) jsonBuffer (i + 1) (σ.next i c) hjb2 hi2 hinv2 e he

theorem drainFrom_nil {J : Type} (parse : Str → Option J) (key : FileKey)
    (remainingContent : Str) (i : Nat) (σ : ScanState) :
    drainFrom parse key [] remainingContent i σ = [] := by
  simp [drainFrom, drainLoop]

theorem drainFrom_cons_skip {J : Type} (parse : Str → Option J) (key : FileKey)
    (char : Char) (rest remainingContent : Str) (i : Nat) (σ : ScanState) (h : ¬ σ.closes char) :
    drainFrom parse key (char :: rest) remainingContent i σ
      = drainFrom parse key rest remainingContent (i + 1) (σ.next i char) := by
  obtain ⟨bc, os, ins, esc⟩ := σ
  simp only [ScanState.closes, not_and] at h
  simp only [drainFrom, drainLoop, ScanState.next]
  cases esc <;> cases ins <;> simp
  all_goals split_ifs <;> simp_all <;> omega

theorem drainFrom_cons_closes {J : Type} (parse : Str → Option J) (key : FileKey)
    (char : Char) (rest remainingContent : Str) (i : Nat) (σ : ScanState) (h : σ.closes char) :
    drainFrom parse key (char :: rest) remainingContent i σ
      = (match parse (substring remainingContent σ.objectStart.toNat (i + 1)) with
          | some item => [Event.data key (Payload.json item)]
          | none => [])
        ++ drainFrom parse key rest remainingContent (i + 1)
            { σ.next i char with objectStart := -1 } := by
  obtain ⟨bc, os, ins, esc⟩ := σ
  obtain ⟨h1, h2, h3, h4, h5⟩ := h
  simp only at h1 h2 h3 h4 h5
  subst h1 h2 h3 h4
  simp [drainFrom, drainLoop, ScanState.next, h5]

theorem openSpan_closed (pre : Str) (σ : ScanState) (i : Nat) (c : Char) (hc : σ.closes c) :
    OpenSpan pre { σ.next i c with objectStart := -1 } := by
  obtain ⟨bc, os, ins, esc⟩ := σ
  obtain ⟨h1, h2, h3, h4, h5⟩ := hc
  simp only at h1 h2 h3 h4 h5
  subst h1 h2 h3 h4
  intro h
  simp [ScanState.next] at h

/-- Every event written by the final-read loop carries the parse of a complete
brace span of the content. -/
theorem drainFrom_balanced {J : Type} (parse : Str → Option J) (key : FileKey) (rest : Str) :
    ∀ (pre content : Str) (i : Nat) (σ : ScanState),
      content = pre ++ rest → i = pre.length → OpenSpan pre σ →
      ∀ e ∈ drainFrom parse key rest content i σ,
        ∃ (a span b : Str) (item : J), content = a ++ span ++ b ∧ parse span = some item ∧
          e = Event.data key (Payload.json item) ∧ BalancedSpan span := by
  induction rest with
  | nil =>
    intro pre content i σ _ _ _ e he
    simp [drainFrom_nil] at he
  | cons c rest ih =>
    intro pre content i σ hjb hi hinv e he
    have hjb2 : content = (pre ++ [c]) ++ rest := by simp [hjb]
    have hi2 : i + 1 = (pre ++ [c]).length := by simp [hi]
    by_cases hc : σ.closes c
    · rw [drainFrom_cons_closes _ _ _ _ _ _ _ hc] at he
      obtain ⟨hcut, hbal⟩ := closes_span pre rest σ c hinv hc
      rw [← hjb, ← hi] at hcut hbal
      have hinv2 : OpenSpan (pre ++ [c]) { σ.next i c with objectStart := -1 } :=
        openSpan_closed (pre ++ [c]) σ i c hc
      rcases List.mem_append.mp he with he | he
      · cases hp : parse (substring content σ.objectStart.toNat (i + 1)) with
        | none =>
          rw [hp] at he
          simp at he
        | some item =>
          rw [hp] at he
          simp only [List.mem_singleton] at he
          exact ⟨_, _, _, item, hcut, hp, he, hbal⟩
      · exact ih (pre ++ [c]) content (i + 1) _ hjb2 hi2 hinv2 e he
    · rw [drainFrom_cons_skip _ _ _ _ _ _ _ hc] at he
      have hinv2 : OpenSpan (pre ++ [c]) (σ.next i c) := by
        rw [hi]
        exact openSpan_next pre σ c hinv
      exact ih (pre ++ [c]) content (i + 1) (σ.next i c) hjb2 hi2 hinv2 e he

theorem run_append (x y : Str) : ∀ (σ : ScanState) (i : Nat),
    σ.run i (x ++ y) = (σ.run i x).run (i + x.length) y := by
  induction x with
  | nil => intro σ i; simp [ScanState.run]
  | cons c x ih =>
    intro σ i
    rw [List.cons_append, ScanState.run, ScanState.run, ih, List.length_cons,
      show i + 1 + x.length = i + (x.length + 1) by omega]

theorem noClose_append (x y : Str) : ∀ (σ : ScanState) (i : Nat),
    NoClose σ i x → NoClose (σ.run i x) (i + x.length) y → NoClose σ i (x ++ y) := by
  induction x with
  | nil => intro σ i _ h; simpa [ScanState.run] using h
  | cons c x ih =>
    intro σ i hx hy
    simp only [List.cons_append, NoClose] at hx ⊢
    refine ⟨hx.1, ih _ _ hx.2 ?_⟩
    simp only [ScanState.run, List.length_cons] at hy
    rw [show i + 1 + x.length = i + (x.length + 1) by omega]
    exact hy

theorem scanFrom_noClose {J : Type} (parse : Str → Option J) (fileKey : FileKey) (x : Str) :
    ∀ (y jsonBuffer : Str) (i : Nat) (σ : ScanState), NoClose σ i x →
      scanFrom parse fileKey (x ++ y) jsonBuffer i σ
        = scanFrom parse fileKey y jsonBuffer (i + x.length) (σ.run i x) := by
  induction x with
  | nil => intro y jsonBuffer i σ _; simp [ScanState.run]
  | cons c x ih =>
    intro y jsonBuffer i σ h
    simp only [NoClose] at h
    rw [List.cons_append, scanFrom_cons_skip _ _ _ _ _ _ _ h.1, ih _ _ _ _ h.2]
    simp only [ScanState.run, List.length_cons]
    rw [show i + 1 + x.length = i + (x.length + 1) by omega]

theorem transparent_nil : Transparent [] := by
  intro bc os i _
  simp [NoClose, ScanState.run]

theorem transparent_append (x y : Str) (hx : Transparent x) (hy : Transparent y) :
    Transparent (x ++ y) := by
  intro bc os i hbc
  obtain ⟨hx1, hx2⟩ := hx bc os i hbc
  obtain ⟨hy1, hy2⟩ := hy bc os (i + x.length) hbc
  refine ⟨noClose_append x y _ _ hx1 (by rw [hx2]; exact hy1), ?_⟩
  rw [run_append, hx2, hy2]

theorem transparent_inert (c : Char) (h : inert c = true) : Transparent [c] := by
  intro bc os i _
  simp only [inert, Bool.and_eq_true, decide_eq_true_eq] at h
  obtain ⟨⟨⟨h1, h2⟩, h3⟩, h4⟩ := h
  simp [NoClose, ScanState.run, ScanState.next, ScanState.closes, h1, h2, h3, h4]

theorem transparent_cons (c : Char) (x : Str) (h : inert c = true) (hx : Transparent x) :
    Transparent (c :: x) :=
  transparent_append [c] x (transparent_inert c h) hx

theorem transparent_all_inert (x : Str) (h : x.all inert = true) : Transparent x := by
  induction x with
  | nil => exact transparent_nil
  | cons c x ih =>
    simp only [List.all_cons, Bool.and_eq_true] at h
    exact transparent_cons c x h.1 (ih h.2)

theorem transparent_ws (w : Str) (h : isWs w = true) : Transparent w := by
  apply transparent_all_inert
  simp only [isWs, List.all_eq_true] at h ⊢
  intro c hc
  have := h c hc
  simp only [Bool.or_eq_true, decide_eq_true_eq] at this
  rcases this with ((h | h) | h) | h <;> subst h <;> decide

theorem quoted_characters (b : Str) (h : isCharacters b = true) : Quoted b := by
  induction b using isCharacters.induct with
  | case1 => intro bc os i; simp [NoClose, ScanState.run]
  | case2 => simp [isCharacters] at h
  | case3 h1 h2 h3 h4 rest3 ih =>
    simp only [isCharacters, Bool.and_eq_true] at h
    simp only [↓reduceIte, Bool.and_eq_true] at h
    obtain ⟨⟨⟨⟨a1, a2⟩, a3⟩, a4⟩, hr⟩ := h
    have hx : ∀ c, isHex c = true → c ≠ '\\' ∧ c ≠ '"' := by
      intro c hc
      constructor <;> (intro e; subst e; revert hc; decide)
    intro bc os i
    obtain ⟨ih1, ih2⟩ := ih hr bc os (i + 6)
    simp only [NoClose, ScanState.run, ScanState.next, ScanState.closes,
      (hx h1 a1).1, (hx h1 a1).2, (hx h2 a2).1, (hx h2 a2).2, (hx h3 a3).1, (hx h3 a3).2,
      (hx h4 a4).1, (hx h4 a4).2]
    simp
    exact ⟨ih1, ih2⟩
  | case4 rest2 hno =>
    simp only [isCharacters] at h
    simp only [↓reduceIte] at h
    exact absurd h (by simp)
  | case5 e rest2 hne ih =>
    unfold isCharacters at h
    simp only [↓reduceIte, hne, Bool.and_eq_true] at h
    intro bc os i
    obtain ⟨ih1, ih2⟩ := ih h.2 bc os (i + 2)
    simp only [NoClose, ScanState.run, ScanState.next, ScanState.closes]
    simp
    exact ⟨ih1, ih2⟩
  | case6 c cs hne ih =>
    unfold isCharacters at h
    simp only [hne, ↓reduceIte, Bool.and_eq_true, decide_eq_true_eq] at h
    obtain ⟨⟨hq, _⟩, hr⟩ := h
    simp only [ne_eq, decide_not, Bool.not_eq_true', decide_eq_false_iff_not] at hq
    intro bc os i
    obtain ⟨ih1, ih2⟩ := ih hr bc os (i + 1)
    simp only [NoClose, ScanState.run, ScanState.next, ScanState.closes, hne, hq]
    simp
    exact ⟨ih1, ih2⟩

theorem run_cons (σ : ScanState) (i : Nat) (c : Char) (x : Str) :
    σ.run i (c :: x) = (σ.next i c).run (i + 1) x := rfl

theorem noClose_cons (σ : ScanState) (i : Nat) (c : Char) (x : Str) :
    NoClose σ i (c :: x) ↔ ¬ σ.closes c ∧ NoClose (σ.next i c) (i + 1) x := Iff.rfl

theorem transparent_string (b : Str) (h : isCharacters b = true) :
    Transparent ('"' :: b ++ ['"']) := by
  intro bc os i _
  obtain ⟨h1, h2⟩ := quoted_characters b h bc os (i + 1)
  have hopen : (ScanState.mk bc os false false).next i '"' = ⟨bc, os, true, false⟩ := by
    simp [ScanState.next]
  have hclose : ∀ j, (ScanState.mk bc os true false).next j '"' = ⟨bc, os, false, false⟩ := by
    intro j
    simp [ScanState.next]
  constructor
  · rw [List.cons_append, noClose_cons, hopen]
    refine ⟨by simp [ScanState.closes], noClose_append b ['"'] _ _ h1 ?_⟩
    rw [h2]
    simp [NoClose, ScanState.closes]
  · rw [List.cons_append, run_cons, hopen, run_append, h2]
    simp [ScanState.run, hclose]

theorem transparent_braces (x : Str) (hx : Transparent x) : Transparent ('{' :: x ++ ['}']) := by
  intro bc os i hbc
  obtain ⟨h1, h2⟩ := hx (bc + 1) os (i + 1) (by omega)
  have hne : bc ≠ 0 := by omega
  have hopen : (ScanState.mk bc os false false).next i '{' = ⟨bc + 1, os, false, false⟩ := by
    simp [ScanState.next, hne]
  have hclose : ∀ j, (ScanState.mk (bc + 1) os false false).next j '}'
      = ⟨bc, os, false, false⟩ := by
    intro j
    simp [ScanState.next]
  constructor
  · rw [List.cons_append, noClose_cons, hopen]
    refine ⟨by simp [ScanState.closes], noClose_append x ['}'] _ _ h1 ?_⟩
    rw [h2]
    simp [NoClose, ScanState.closes, hne]
  · rw [List.cons_append, run_cons, hopen, run_append, h2]
    simp [ScanState.run, hclose]

theorem inert_of_isDigit (c : Char) (h : c.isDigit = true) : inert c = true := by
  have h1 : c ≠ '\\' := by intro e; subst e; revert h; decide
  have h2 : c ≠ '"' := by intro e; subst e; revert h; decide
  have h3 : c ≠ '{' := by intro e; subst e; revert h; decide
  have h4 : c ≠ '}' := by intro e; subst e; revert h; decide
  simp [inert, h1, h2, h3, h4]

theorem transparent_digits (ds : Str) (h : ds.all Char.isDigit = true) : Transparent ds := by
  apply transparent_all_inert
  simp only [List.all_eq_true] at h ⊢
  exact fun c hc => inert_of_isDigit c (h c hc)

theorem transparent_integer (n : Str) (h : isInteger n = true) : Transparent n := by
  have hbody : ∀ body : Str,
      (match body with
        | [] => false
        | [d] => d.isDigit
        | d :: ds => d.isDigit && d ≠ '0' && ds.all Char.isDigit) = true →
      Transparent body := by
    intro body hb
    apply transparent_digits
    match body, hb with
    | [d], hb => simpa using hb
    | d :: e :: ds, hb =>
      simp only [Bool.and_eq_true] at hb
      simp only [List.all_cons, Bool.and_eq_true]
      exact ⟨hb.1.1, by simpa using hb.2⟩
  unfold isInteger at h
  by_cases hm : n.head? = some '-'
  · simp only [hm, ↓reduceIte] at h
    cases n with
    | nil => simp at hm
    | cons c t =>
      simp only [List.head?_cons, Option.some.injEq] at hm
      subst hm
      exact transparent_cons '-' t (by decide) (hbody t h)
  · simp only [hm, ↓reduceIte] at h
    exact hbody n h

theorem transparent_fraction (f : Str) (h : isFraction f = true) : Transparent f := by
  cases f with
  | nil => exact transparent_nil
  | cons c ds =>
    simp only [isFraction, isDigits, Bool.and_eq_true, decide_eq_true_eq] at h
    obtain ⟨hc, _, hds⟩ := h
    subst hc
    exact transparent_cons '.' ds (by decide) (transparent_digits ds hds)

theorem transparent_exponent (e : Str) (h : isExponent e = true) : Transparent e := by
  cases e with
  | nil => exact transparent_nil
  | cons c t =>
    simp only [isExponent, isDigits, Bool.and_eq_true, Bool.or_eq_true, decide_eq_true_eq] at h
    obtain ⟨hc, _, hds⟩ := h
    have hci : inert c = true := by rcases hc with hc | hc <;> subst hc <;> decide
    refine transparent_cons c t hci ?_
    by_cases hs : t.head? = some '+' ∨ t.head? = some '-'
    · simp only [hs, ↓reduceIte] at hds
      cases t with
      | nil => simp at hs
      | cons s ds =>
        simp only [List.head?_cons, Option.some.injEq] at hs
        have hsi : inert s = true := by rcases hs with hs | hs <;> subst hs <;> decide
        exact transparent_cons s ds hsi (transparent_digits ds hds)
    · simp only [hs, ↓reduceIte] at hds
      exact transparent_digits t hds

/-- The scanner passes over every text of the grammar when inside an object. -/
theorem transparent_jsonText (k : Kind) (x : Str) (h : JsonText k x) : Transparent x := by
  induction h with
  | objectEmpty w hw => exact transparent_braces w (transparent_ws w hw)
  | objectMembers m _ ih => exact transparent_braces m ih
  | valueObject t _ ih => exact ih
  | valueArrayEmpty w hw =>
    exact transparent_cons '[' _ (by decide)
      (transparent_append w [']'] (transparent_ws w hw) (transparent_inert ']' (by decide)))
  | valueArray es _ ih =>
    exact transparent_cons '[' _ (by decide)
      (transparent_append es [']'] ih (transparent_inert ']' (by decide)))
  | valueString b hb => exact transparent_string b hb
  | valueNumber n f e hn hf he =>
    exact transparent_append _ _
      (transparent_append _ _ (transparent_integer n hn) (transparent_fraction f hf))
      (transparent_exponent e he)
  | valueTrue => exact transparent_all_inert _ (by decide)
  | valueFalse => exact transparent_all_inert _ (by decide)
  | valueNull => exact transparent_all_inert _ (by decide)
  | element w1 v w2 h1 _ h2 ih =>
    exact transparent_append _ _ (transparent_append _ _ (transparent_ws w1 h1) ih)
      (transparent_ws w2 h2)
  | member w1 k w2 e h1 hk h2 _ ih =>
    have hkey : Transparent ('"' :: k ++ ['"']) := transparent_string k hk
    have : w1 ++ '"' :: k ++ '"' :: w2 ++ ':' :: e
        = w1 ++ (('"' :: k ++ ['"']) ++ (w2 ++ (':' :: e))) := by simp
    rw [this]
    exact transparent_append _ _ (transparent_ws w1 h1)
      (transparent_append _ _ hkey
        (transparent_append _ _ (transparent_ws w2 h2) (transparent_cons ':' e (by decide) ih)))
  | membersCons w1 k w2 e ms h1 hk h2 _ _ ihe ihm =>
    have hkey : Transparent ('"' :: k ++ ['"']) := transparent_string k hk
    have : w1 ++ '"' :: k ++ '"' :: w2 ++ ':' :: e ++ ',' :: ms
        = w1 ++ (('"' :: k ++ ['"']) ++ (w2 ++ (':' :: (e ++ ',' :: ms)))) := by simp
    rw [this]
    exact transparent_append _ _ (transparent_ws w1 h1)
      (transparent_append _ _ hkey
        (transparent_append _ _ (transparent_ws w2 h2)
          (transparent_cons ':' _ (by decide)
            (transparent_append _ _ ihe (transparent_cons ',' ms (by decide) ihm)))))
  | elementsOne e _ ih => exact ih
  | elementsCons e es _ _ ihe ihes =>
    exact transparent_append _ _ ihe (transparent_cons ',' es (by decide) ihes)

theorem object_shape (t : Str) (h : JsonText .object t) :
    ∃ x : Str, t = '{' :: x ++ ['}'] ∧ Transparent x := by
  cases h with
  | objectEmpty w hw => exact ⟨w, rfl, transparent_ws w hw⟩
  | objectMembers m hm => exact ⟨m, rfl, transparent_jsonText _ m hm⟩

/-- An object text at the start of the buffer is written once, and the scan
goes on with the rest of the buffer as a fresh scan. -/
theorem scanJson_object {J : Type} (parse : Str → Option J) (fileKey : FileKey)
    (t rest : Str) (v : J) (ht : JsonText .object t) (hp : parse t = some v) :
    scanJson parse fileKey (t ++ rest)
      = (Event.data fileKey (Payload.json v) :: (scanJson parse fileKey rest).1,
          (scanJson parse fileKey rest).2) := by
  obtain ⟨x, hx, htr⟩ := object_shape t ht
  obtain ⟨hno, hrun⟩ := htr 1 0 1 (by omega)
  have hshape : t ++ rest = '{' :: (x ++ '}' :: rest) := by simp [hx]
  have hopen : ScanState.init.next 0 '{' = ⟨1, 0, false, false⟩ := by
    simp [ScanState.next, ScanState.init]
  have hsub : substring (t ++ rest) 0 (1 + x.length + 1) = t := by
    have hlen : t.length = 1 + x.length + 1 := by simp [hx]; omega
    simp [substring, ← hlen]
  show scanFrom parse fileKey (t ++ rest) (t ++ rest) 0 ScanState.init = _
  rw [show scanFrom parse fileKey (t ++ rest) (t ++ rest) 0 ScanState.init
      = scanFrom parse fileKey ('{' :: (x ++ '}' :: rest)) (t ++ rest) 0 ScanState.init by
        rw [← hshape]]
  rw [scanFrom_cons_skip _ _ _ _ _ _ _ (by simp [ScanState.closes, ScanState.init]), hopen,
    scanFrom_noClose _ _ _ _ _ _ _ hno, hrun,
    scanFrom_cons_closes _ _ _ _ _ _ _ (by simp [ScanState.closes])]
  simp only [Int.toNat_zero, zero_add]
  rw [hsub, hp]

theorem scanJson_nil {J : Type} (parse : Str → Option J) (fileKey : FileKey) :
    scanJson parse fileKey [] = ([], []) := rfl

/-- The scan of concatenated object texts writes their parses in order and
keeps nothing. -/
theorem scanJson_concat {J : Type} (parse : Str → Option J) (fileKey : FileKey)
    (objs : List (Str × J))
    (h : ∀ p ∈ objs, JsonText .object p.1 ∧ parse p.1 = some p.2) :
    scanJson parse fileKey (objs.map Prod.fst).flatten
      = (objs.map (fun p => Event.data fileKey (Payload.json p.2)), []) := by
  induction objs with
  | nil => exact scanJson_nil parse fileKey
  | cons p objs ih =>
    obtain ⟨hobj, hparse⟩ := h p (List.mem_cons_self _ _)
    have ih2 := ih (fun q hq => h q (List.mem_cons_of_mem _ hq))
    simp only [List.map_cons, List.flatten_cons]
    rw [scanJson_object parse fileKey p.1 _ p.2 hobj hparse, ih2]

theorem sampleBraceInString_object : JsonText Kind.object sampleBraceInString :=
  JsonText.objectMembers _
    (JsonText.member [] ['a'] [] _ (by decide) (by decide) (by decide)
      (JsonText.element [' '] _ [] (by decide)
        (JsonText.valueString ['x', '}', 'y'] (by decide)) (by decide)))

theorem sampleNested_object : JsonText Kind.object sampleNested :=
  JsonText.objectMembers _
    (JsonText.member [] ['b'] [] _ (by decide) (by decide) (by decide)
      (JsonText.element [] _ [] (by decide)
        (JsonText.valueObject _
          (JsonText.objectMembers _
            (JsonText.member [] ['c'] [] _ (by decide) (by decide) (by decide)
              (JsonText.element [] _ [] (by decide)
                (JsonText.valueString ['\\', '"', '\\', '\\', '{'] (by decide)) (by decide)))))
        (by decide)))

theorem tickFile_sameFor {J : Type} (fs : Files) (s : Session J) (key k : FileKey)
    (hsize : ∀ content, fs key = some content → byteLength content ≤ (s.filePositions key).getD 0) :
    SameFor key s (tickFile fs s k) := by
  unfold tickFile
  cases hk : fs k with
  | none => exact ⟨rfl, rfl, rfl, rfl⟩
  | some content =>
    simp only
    split
    · next hcond =>
      simp only [Bool.and_eq_true, decide_eq_true_eq, Bool.not_eq_true'] at hcond
      have hne : key ≠ k := by
        intro e
        subst e
        have := hsize content hk
        omega
      unfold streamFileIncremental
      simp only [hk, Option.isNone_some, Bool.false_eq_true, ↓reduceIte]
      exact ⟨rfl, rfl, Function.update_noteq hne _ _, Function.update_noteq hne _ _⟩
    · exact ⟨rfl, rfl, rfl, rfl⟩

theorem tickFile_fold_sameFor {J : Type} (fs : Files) (key : FileKey) (keys : List FileKey) :
    ∀ s : Session J, s.fileStreams key = false →
      (∀ content, fs key = some content → byteLength content ≤ (s.filePositions key).getD 0) →
      SameFor key s (keys.foldl (tickFile fs) s) := by
  induction keys with
  | nil => intro s _ _; exact ⟨rfl, rfl, rfl, rfl⟩
  | cons k keys ih =>
    intro s hidle hsize
    obtain ⟨h1, h2, h3, h4⟩ := tickFile_sameFor fs s key k hsize
    obtain ⟨g1, g2, g3, g4⟩ := ih (tickFile fs s k) (by rw [h3, hidle]) (by rw [h2]; exact hsize)
    exact ⟨g1.trans h1, g2.trans h2, g3.trans h3, g4.trans h4⟩

theorem tick_sameFor {J : Type} (fs : Files) (key : FileKey) (s : Session J)
    (hidle : s.fileStreams key = false)
    (hsize : ∀ content, fs key = some content → byteLength content ≤ (s.filePositions key).getD 0) :
    SameFor key s (tick fs s) := by
  unfold tick
  split
  · exact tickFile_fold_sameFor fs key _ s hidle hsize
  · exact ⟨rfl, rfl, rfl, rfl⟩

theorem tick_iterate_sameFor {J : Type} (fs : Files) (key : FileKey) (n : Nat) :
    ∀ s : Session J, s.fileStreams key = false →
      (∀ content, fs key = some content → byteLength content ≤ (s.filePositions key).getD 0) →
      SameFor key s (Nat.iterate (tick fs) n s) := by
  induction n with
  | zero => intro s _ _; exact ⟨rfl, rfl, rfl, rfl⟩
  | succ n ih =>
    intro s hidle hsize
    obtain ⟨h1, h2, h3, h4⟩ := tick_sameFor fs key s hidle hsize
    obtain ⟨g1, g2, g3, g4⟩ := ih (tick fs s) (by rw [h3, hidle]) (by rw [h2]; exact hsize)
    rw [Function.iterate_succ_apply]
    exact ⟨g1.trans h1, g2.trans h2, g3.trans h3, g4.trans h4⟩

theorem finalRead_written {J : Type} (parse : Str → Option J) (fs : Files) (s : Session J)
    (code : ExitCode) (h : s.finalReadPending = some code) :
    (finalRead parse fs s).written
      = ((filesToMonitor.map Prod.fst).foldl (finalReadFile parse fs) s).written
        ++ [completeEvent code] := by
  simp [finalRead, h, Session.resWrite, Session.resEnd]

theorem tickFile_monitoring {J : Type} (fs : Files) (s : Session J) (k : FileKey) :
    (tickFile fs s k).monitoring = s.monitoring := by
  unfold tickFile
  cases fs k with
  | none => rfl
  | some content =>
    simp only
    split
    · unfold streamFileIncremental
      split <;> rfl
    · rfl

theorem tickFile_fold_monitoring {J : Type} (fs : Files) (keys : List FileKey) :
    ∀ s : Session J, (keys.foldl (tickFile fs) s).monitoring = s.monitoring := by
  induction keys with
  | nil => intro s; rfl
  | cons k keys ih =>
    intro s
    rw [List.foldl_cons, ih, tickFile_monitoring]

theorem finalReadFile_monitoring {J : Type} (parse : Str → Option J) (fs : Files)
    (s : Session J) (k : FileKey) :
    (finalReadFile parse fs s k).monitoring = s.monitoring := by
  unfold finalReadFile
  cases fs k with
  | none => rfl
  | some content =>
    simp only
    split <;> rfl

theorem finalReadFile_fold_monitoring {J : Type} (parse : Str → Option J) (fs : Files)
    (keys : List FileKey) :
    ∀ s : Session J, (keys.foldl (finalReadFile parse fs) s).monitoring = s.monitoring := by
  induction keys with
  | nil => intro s; rfl
  | cons k keys ih =>
    intro s
    rw [List.foldl_cons, ih, finalReadFile_monitoring]

/-- No callback sets the interval again once it is cleared. -/
theorem step_monitoring_false {J : Type} (parse : Str → Option J) (s : Session J) (a : Action)
    (h : s.monitoring = false) : (step parse s a).monitoring = false := by
  cases a with
  | tick fs => simp [step, tick, h]
  | streamData key chunk =>
    simp only [step, streamOnData]
    split <;> simp [Session.resWrite, h]
  | streamEnd key =>
    simp only [step, streamOnEnd]
    split <;> simp [h]
  | streamError key =>
    simp only [step, streamOnError]
    split <;> simp [h]
  | stdout data => simp [step, stdoutData, Session.resWrite, h]
  | stderr data => simp [step, stderrData, Session.resWrite, h]
  | processClose code now =>
    simp only [step, processClose]
    split <;> simp [h]
  | finalRead fs =>
    simp only [step, finalRead]
    split
    · exact h
    · simp [Session.resWrite, Session.resEnd, finalReadFile_fold_monitoring, h]
  | requestClose => simp [step, requestClose]

theorem run_monitoring_false {J : Type} (parse : Str → Option J) (actions : List Action) :
    ∀ s : Session J, s.monitoring = false → (run parse s actions).monitoring = false := by
  induction actions with
  | nil => intro s h; exact h
  | cons a actions ih =>
    intro s h
    exact ih _ (step_monitoring_false parse s a h)

theorem tickFile_fileRecorded {J : Type} (fs : Files) (o u : Str) (key k : FileKey)
    (s : Session J) (h : FileRecorded o u key s) : FileRecorded o u key (tickFile fs s k) := by
  obtain ⟨h1, h2, h3⟩ := h
  unfold tickFile
  cases fs k with
  | none => exact ⟨h1, h2, h3⟩
  | some content =>
    simp only
    split
    · unfold streamFileIncremental
      split
      · exact ⟨h1, h2, h3⟩
      · refine ⟨h1, h2, ?_⟩
        by_cases hk : key = k
        · subst hk
          simp [h1, h2]
        · simp only [Function.update_noteq hk]
          exact h3
    · exact ⟨h1, h2, h3⟩

theorem tickFile_fold_fileRecorded {J : Type} (fs : Files) (o u : Str) (key : FileKey)
    (keys : List FileKey) :
    ∀ s : Session J, FileRecorded o u key s → FileRecorded o u key (keys.foldl (tickFile fs) s) := by
  induction keys with
  | nil => intro s h; exact h
  | cons k keys ih =>
    intro s h
    exact ih _ (tickFile_fileRecorded fs o u key k s h)

theorem finalReadFile_fileRecorded {J : Type} (parse : Str → Option J) (fs : Files) (o u : Str)
    (key k : FileKey) (s : Session J) (h : FileRecorded o u key s) :
    FileRecorded o u key (finalReadFile parse fs s k) := by
  unfold finalReadFile
  cases fs k with
  | none => exact h
  | some content =>
    simp only
    split
    · exact h
    · exact h

theorem finalReadFile_fold_fileRecorded {J : Type} (parse : Str → Option J) (fs : Files)
    (o u : Str) (key : FileKey) (keys : List FileKey) :
    ∀ s : Session J, FileRecorded o u key s →
      FileRecorded o u key (keys.foldl (finalReadFile parse fs) s) := by
  induction keys with
  | nil => intro s h; exact h
  | cons k keys ih =>
    intro s h
    exact ih _ (finalReadFile_fileRecorded parse fs o u key k s h)

/-- A recorded file path stays recorded under every callback. -/
theorem step_fileRecorded {J : Type} (parse : Str → Option J) (o u : Str) (key : FileKey)
    (s : Session J) (a : Action) (h : FileRecorded o u key s) :
    FileRecorded o u key (step parse s a) := by
  cases a with
  | tick fs =>
    simp only [step, tick]
    split
    · exact tickFile_fold_fileRecorded fs o u key _ s h
    · exact h
  | streamData k chunk =>
    simp only [step, streamOnData]
    split
    · exact h
    · exact h
  | streamEnd k =>
    simp only [step, streamOnEnd]
    split
    · exact h
    · exact h
  | streamError k =>
    simp only [step, streamOnError]
    split
    · exact h
    · exact h
  | stdout data => exact h
  | stderr data => exact h
  | processClose code now =>
    simp only [step, processClose]
    split
    · exact h
    · exact h
  | finalRead fs =>
    simp only [step, finalRead]
    split
    · exact h
    · exact finalReadFile_fold_fileRecorded parse fs o u key _ s h
  | requestClose => exact h

theorem run_fileRecorded {J : Type} (parse : Str → Option J) (o u : Str) (key : FileKey)
    (actions : List Action) :
    ∀ s : Session J, FileRecorded o u key s → FileRecorded o u key (run parse s actions) := by
  induction actions with
  | nil => intro s h; exact h
  | cons a actions ih =>
    intro s h
    exact ih _ (step_fileRecorded parse o u key s a h)

theorem tickFile_frame {J : Type} (fs : Files) (s : Session J) (k : FileKey) :
    TickFrame s (tickFile fs s k) := by
  unfold tickFile
  cases fs k with
  | none => exact ⟨rfl, rfl, rfl, rfl, rfl⟩
  | some content =>
    simp only
    split
    · unfold streamFileIncremental
      split <;> exact ⟨rfl, rfl, rfl, rfl, rfl⟩
    · exact ⟨rfl, rfl, rfl, rfl, rfl⟩

theorem tickFrame_trans {J : Type} {s t r : Session J} (h1 : TickFrame s t) (h2 : TickFrame t r) :
    TickFrame s r := by
  obtain ⟨a1, a2, a3, a4, a5⟩ := h1
  obtain ⟨b1, b2, b3, b4, b5⟩ := h2
  exact ⟨b1.trans a1, b2.trans a2, b3.trans a3, b4.trans a4, b5.trans a5⟩

theorem tickFile_fold_frame {J : Type} (fs : Files) (keys : List FileKey) :
    ∀ s : Session J, TickFrame s (keys.foldl (tickFile fs) s) := by
  induction keys with
  | nil => intro s; exact ⟨rfl, rfl, rfl, rfl, rfl⟩
  | cons k keys ih =>
    intro s
    exact tickFrame_trans (tickFile_frame fs s k) (ih _)

theorem tick_frame {J : Type} (fs : Files) (s : Session J) : TickFrame s (tick fs s) := by
  unfold tick
  split
  · exact tickFile_fold_frame fs _ s
  · exact ⟨rfl, rfl, rfl, rfl, rfl⟩

theorem tickFile_other {J : Type} (fs : Files) (s : Session J) (key k : FileKey) (h : key ≠ k) :
    (tickFile fs s k).streams key = s.streams key ∧
    (tickFile fs s k).fileStreams key = s.fileStreams key ∧
    (tickFile fs s k).job.files key = s.job.files key := by
  unfold tickFile
  cases fs k with
  | none => exact ⟨rfl, rfl, rfl⟩
  | some content =>
    simp only
    split
    · unfold streamFileIncremental
      split
      · exact ⟨rfl, rfl, rfl⟩
      · exact ⟨Function.update_noteq h _ _, Function.update_noteq h _ _,
          Function.update_noteq h _ _⟩
    · exact ⟨rfl, rfl, rfl⟩

theorem tickFile_marked {J : Type} (fs : Files) (s : Session J) (key : FileKey)
    (h : s.fileStreams key = true) : tickFile fs s key = s := by
  unfold tickFile
  cases fs key with
  | none => rfl
  | some content => simp [h]

theorem tickFile_opens {J : Type} (fs : Files) (s : Session J) (key : FileKey) (content : Str)
    (hidle : s.fileStreams key = false) (hfile : fs key = some content)
    (hgrown : (s.filePositions key).getD 0 < byteLength content) :
    ReadOpened key ((s.filePositions key).getD 0) (filePath s.outputDir s.username key)
      (tickFile fs s key) := by
  unfold tickFile
  simp only [hfile, hidle, Bool.not_false, Bool.and_true, decide_eq_true_eq, gt_iff_lt, hgrown,
    ↓reduceIte]
  unfold streamFileIncremental
  simp [hfile, ReadOpened]

theorem tickFile_fold_keeps {J : Type} (fs : Files) (key : FileKey) (off : Nat) (path : Str)
    (keys : List FileKey) :
    ∀ s : Session J, ReadOpened key off path s →
      ReadOpened key off path (keys.foldl (tickFile fs) s) := by
  induction keys with
  | nil => intro s h; exact h
  | cons k keys ih =>
    intro s h
    apply ih
    by_cases hk : key = k
    · subst hk
      rw [tickFile_marked fs s key h.2.1]
      exact h
    · obtain ⟨h1, h2, h3⟩ := tickFile_other fs s key k hk
      exact ⟨h1.trans h.1, h2.trans h.2.1, h3.trans h.2.2⟩

theorem tickFile_fold_opens {J : Type} (fs : Files) (key : FileKey) (content : Str)
    (hfile : fs key = some content) (keys : List FileKey) :
    ∀ s : Session J, key ∈ keys → s.fileStreams key = false →
      (s.filePositions key).getD 0 < byteLength content →
      ReadOpened key ((s.filePositions key).getD 0) (filePath s.outputDir s.username key)
        (keys.foldl (tickFile fs) s) := by
  induction keys with
  | nil => intro s hmem; simp at hmem
  | cons k keys ih =>
    intro s hmem hidle hgrown
    by_cases hk : key = k
    · subst hk
      exact tickFile_fold_keeps fs key _ _ keys _ (tickFile_opens fs s key content hidle hfile hgrown)
    · have hmem2 : key ∈ keys := by
        rcases List.mem_cons.mp hmem with h | h
        · exact absurd h hk
        · exact h
      obtain ⟨_, h2, _⟩ := tickFile_other fs s key k hk
      obtain ⟨_, f2, _, f4, f5⟩ := tickFile_frame fs s k
      have := ih (tickFile fs s k) hmem2 (h2.trans hidle) (by rw [f2]; exact hgrown)
      rw [f2, f4, f5] at this
      exact this

theorem mem_filesToMonitor (key : FileKey) : key ∈ filesToMonitor.map Prod.fst := by
  cases key <;> decide

/-- A tick opens a read, at the stored offset, for every unmarked key whose
file is larger than that offset, and records the file's path. -/
theorem tick_opens {J : Type} (fs : Files) (s : Session J) (key : FileKey) (content : Str)
    (hmon : s.monitoring = true) (hidle : s.fileStreams key = false)
    (hfile : fs key = some content)
    (hgrown : (s.filePositions key).getD 0 < byteLength content) :
    ReadOpened key ((s.filePositions key).getD 0) (filePath s.outputDir s.username key)
      (tick fs s) := by
  unfold tick
  rw [if_pos hmon]
  exact tickFile_fold_opens fs key content hfile _ s (mem_filesToMonitor key) hidle hgrown

theorem byteLength_append (a b : Str) : byteLength (a ++ b) = byteLength a + byteLength b := by
  simp [byteLength]

theorem byteLength_pos (a : Str) (h : a ≠ []) : 0 < byteLength a := by
  cases a with
  | nil => exact absurd rfl h
  | cons c cs =>
    have := Char.utf8Size_pos c
    simp only [byteLength, List.map_cons, List.sum_cons]
    omega

theorem readFrom_zero (b : Str) : readFrom b 0 = b := by
  cases b <;> simp [readFrom]

theorem readFrom_append (a b : Str) : readFrom (a ++ b) (byteLength a) = b := by
  induction a with
  | nil => simpa [byteLength] using readFrom_zero b
  | cons c cs ih =>
    have hpos := Char.utf8Size_pos c
    have hlen : byteLength (c :: cs) = c.utf8Size + byteLength cs := by simp [byteLength]
    rw [List.cons_append, readFrom, hlen, if_neg (by omega), Nat.add_sub_cancel_left]
    exact ih

/-- Every text is a sequence of newline-terminated segments and a tail, none
of which holds a line feed. -/
theorem exists_lines (a : Str) :
    ∃ (segs : List Str) (tail : Str), (∀ s ∈ segs, '\n' ∉ s) ∧ '\n' ∉ tail ∧
      a = linesBlock segs ++ tail := by
  induction a with
  | nil => exact ⟨[], [], by simp, by simp, by simp [linesBlock]⟩
  | cons c cs ih =>
    obtain ⟨segs, tail, hsegs, htail, hcs⟩ := ih
    by_cases hc : c = '\n'
    · refine ⟨[] :: segs, tail, ?_, htail, ?_⟩
      · intro s hs
        rcases List.mem_cons.mp hs with h | h
        · subst h; simp
        · exact hsegs s h
      · simp [linesBlock, hc, hcs]
    · cases segs with
      | nil =>
        refine ⟨[], c :: tail, by simp, ?_, ?_⟩
        · intro h
          rcases List.mem_cons.mp h with h | h
          · exact hc h.symm
          · exact htail h
        · simpa [linesBlock] using hcs
      | cons s0 rest =>
        refine ⟨(c :: s0) :: rest, tail, ?_, htail, ?_⟩
        · intro s hs
          rcases List.mem_cons.mp hs with h | h
          · subst h
            intro hmem
            rcases List.mem_cons.mp hmem with h | h
            · exact hc h.symm
            · exact hsegs s0 (List.mem_cons_self _ _) h
          · exact hsegs s (List.mem_cons_of_mem _ h)
        · simp [linesBlock, hcs]

theorem linesBlock_append (a b : List Str) : linesBlock (a ++ b) = linesBlock a ++ linesBlock b := by
  simp [linesBlock]

/-- The line splitter over two pieces: the records of the first piece, then
those of the held tail followed by the second piece. -/
theorem splitLines_append (a b : Str) :
    splitLines (a ++ b)
      = ((splitLines a).1 ++ (splitLines ((splitLines a).2 ++ b)).1,
          (splitLines ((splitLines a).2 ++ b)).2) := by
  obtain ⟨segs, tail, hsegs, htail, ha⟩ := exists_lines a
  obtain ⟨segs2, tail2, hsegs2, htail2, hb⟩ := exists_lines (tail ++ b)
  have h1 : splitLines a = ((segs.filter (fun s => !s.all isJsWhitespace)).map trim, tail) := by
    rw [ha]
    exact splitLines_terminated segs tail hsegs htail
  have h2 : splitLines (tail ++ b)
      = ((segs2.filter (fun s => !s.all isJsWhitespace)).map trim, tail2) := by
    rw [hb]
    exact splitLines_terminated segs2 tail2 hsegs2 htail2
  have h3 : a ++ b = linesBlock (segs ++ segs2) ++ tail2 := by
    rw [ha, List.append_assoc, hb, linesBlock_append, List.append_assoc]
  have h4 : splitLines (a ++ b)
      = (((segs ++ segs2).filter (fun s => !s.all isJsWhitespace)).map trim, tail2) := by
    rw [h3]
    exact splitLines_terminated (segs ++ segs2) tail2
      (by
        intro s hs
        rcases List.mem_append.mp hs with h | h
        · exact hsegs s h
        · exact hsegs2 s h)
      htail2
  rw [h4, h1]
  simp only [h2, List.filter_append, List.map_append]

theorem run_append_actions {J : Type} (parse : Str → Option J) (s : Session J)
    (a b : List Action) : run parse s (a ++ b) = run parse (run parse s a) b := by
  simp [run, List.foldl_append]

theorem run_cons_action {J : Type} (parse : Str → Option J) (s : Session J)
    (a : Action) (b : List Action) : run parse s (a :: b) = run parse (step parse s a) b := rfl

/-- The chunks of a read of any file leave the offsets, the marks and the
interval alone, and keep the stream open with its start position. -/
theorem streamData_keeps {J : Type} (parse : Str → Option J) (key : FileKey)
    (chunks : List Str) :
    ∀ (s : Session J) (st : ReadStream), s.streams key = some st →
      StreamFrame s (run parse s (chunks.map (Action.streamData key))) ∧
      ∃ st', (run parse s (chunks.map (Action.streamData key))).streams key = some st' ∧
        st'.startPosition = st.startPosition := by
  induction chunks with
  | nil => intro s st h; exact ⟨⟨rfl, rfl, rfl⟩, st, h, rfl⟩
  | cons c chunks ih =>
    intro s st h
    rw [List.map_cons, run_cons_action]
    have hstep : (step parse s (Action.streamData key c)).streams key
        = some { st with
            buffer := (if fileExtension key = ".json".toList
              then jsonOnData parse key st.buffer c else textOnData key st.buffer c).2
            bytesRead := st.bytesRead + byteLength c } := by
      simp [step, streamOnData, h]
    have hframe : StreamFrame s (step parse s (Action.streamData key c)) := by
      simp [step, streamOnData, h, StreamFrame, Session.resWrite]
    obtain ⟨⟨f1, f2, f3⟩, st', hst', hpos⟩ := ih _ _ hstep
    exact ⟨⟨f1.trans hframe.1, f2.trans hframe.2.1, f3.trans hframe.2.2⟩, st', hst', hpos⟩

theorem splitLines_no_newline (b : Str) (h : '\n' ∉ b) : splitLines b = ([], b) := by
  have := splitLines_terminated [] b (by simp) h
  simpa using this

theorem splitLines_tail_no_newline (x : Str) : '\n' ∉ (splitLines x).2 := by
  obtain ⟨segs, tail, hsegs, htail, hx⟩ := exists_lines x
  rw [hx, show linesBlock segs = (segs.map (fun s => s ++ ['\n'])).flatten from rfl,
    splitLines_terminated segs tail hsegs htail]
  exact htail

/-- The chunks of a read of a text file: the events are those of the line
splitter over the buffer followed by all the chunks, and the bytes are
counted. -/
theorem streamData_text {J : Type} (parse : Str → Option J) (key : FileKey)
    (htext : fileExtension key ≠ ".json".toList) (chunks : List Str) :
    ∀ (s : Session J) (st : ReadStream), s.streams key = some st → '\n' ∉ st.buffer →
      (run parse s (chunks.map (Action.streamData key))).written
        = s.written ++ (splitLines (st.buffer ++ chunks.flatten)).1.map
            (fun line => Event.data key (Payload.text line)) ∧
      (run parse s (chunks.map (Action.streamData key))).streams key
        = some ⟨st.startPosition, (splitLines (st.buffer ++ chunks.flatten)).2,
            st.bytesRead + byteLength chunks.flatten⟩ := by
  induction chunks with
  | nil =>
    intro s st h hbuf
    simp [run, splitLines_no_newline st.buffer hbuf, byteLength, h]
  | cons c chunks ih =>
    intro s st h hbuf
    rw [List.map_cons, run_cons_action]
    have htext2 : ¬ fileExtension key = ['.', 'j', 's', 'o', 'n'] := htext
    have hstep : (step parse s (Action.streamData key c)).streams key
        = some ⟨st.startPosition, (splitLines (st.buffer ++ c)).2,
            st.bytesRead + byteLength c⟩ := by
      simp [step, streamOnData, h, htext2, textOnData]
    have hwritten : (step parse s (Action.streamData key c)).written
        = s.written ++ (splitLines (st.buffer ++ c)).1.map
            (fun line => Event.data key (Payload.text line)) := by
      simp [step, streamOnData, h, htext2, textOnData, Session.resWrite]
    obtain ⟨ih1, ih2⟩ := ih _ _ hstep (splitLines_tail_no_newline _)
    have hsplit := splitLines_append (st.buffer ++ c) chunks.flatten
    simp only [List.flatten_cons, ← List.append_assoc]
    rw [hsplit]
    refine ⟨?_, ?_⟩
    · rw [ih1, hwritten]
      simp
    · rw [ih2]
      simp [byteLength_append, Nat.add_assoc]

theorem run_streamData_none {J : Type} (parse : Str → Option J) (key : FileKey)
    (chunks : List Str) (s : Session J) (h : s.streams key = none) :
    run parse s (chunks.map (Action.streamData key)) = s := by
  induction chunks with
  | nil => rfl
  | cons c chunks ih =>
    rw [List.map_cons, run_cons_action]
    have : step parse s (Action.streamData key c) = s := by
      simp [step, streamOnData, h]
    rw [this, ih]

theorem linesBlock_eq_nil (lines : List Str) (h : linesBlock lines = []) : lines = [] := by
  cases lines with
  | nil => rfl
  | cons l ls => simp [linesBlock] at h

/-- One scheduler read of a text file that has grown by whole lines: the
events are the trimmed non-blank lines, and the key is idle again with the
offset at the new length. -/
theorem read_round {J : Type} (parse : Str → Option J) (key : FileKey)
    (htext : fileExtension key ≠ ".json".toList) (s : Session J) (prev : Str)
    (fs : Files) (lines chunks : List Str)
    (hidle : Idle key prev s) (hlines : ∀ l ∈ lines, '\n' ∉ l)
    (hfile : fs key = some (prev ++ linesBlock lines))
    (hchunks : chunks.flatten = readFrom (prev ++ linesBlock lines) (byteLength prev)) :
    Idle key (prev ++ linesBlock lines) (run parse s (readActions fs key chunks)) ∧
    (run parse s (readActions fs key chunks)).written = s.written ++ lineEvents key lines := by
  obtain ⟨hmon, hmark, hnone, hoff⟩ := hidle
  rw [readFrom_append] at hchunks
  unfold readActions
  rw [run_cons_action, run_append_actions]
  show Idle key (prev ++ linesBlock lines)
      (step parse (run parse (tick fs s) (chunks.map (Action.streamData key)))
        (Action.streamEnd key)) ∧
    (step parse (run parse (tick fs s) (chunks.map (Action.streamData key)))
        (Action.streamEnd key)).written = s.written ++ lineEvents key lines
  obtain ⟨t1, t2, t3, _, _⟩ := tick_frame fs s
  by_cases hgrow : lines = []
  · subst hgrow
    have hquiet := tick_sameFor fs key s hmark (by
      intro content hc
      rw [hfile] at hc
      have : content = prev := by simpa [linesBlock] using hc.symm
      rw [this, hoff])
    obtain ⟨_, _, q3, q4⟩ := hquiet
    have hnone1 : (tick fs s).streams key = none := q4.trans hnone
    rw [run_streamData_none parse key chunks _ hnone1]
    have hend : step parse (tick fs s) (Action.streamEnd key) = tick fs s := by
      simp [step, streamOnEnd, hnone1]
    rw [hend]
    refine ⟨⟨t3.trans hmon, q3.trans hmark, hnone1, ?_⟩, ?_⟩
    · rw [t2]
      simpa [linesBlock] using hoff
    · simp [t1, lineEvents]
  · have hne : linesBlock lines ≠ [] := fun h => hgrow (linesBlock_eq_nil lines h)
    have hgrown : (s.filePositions key).getD 0 < byteLength (prev ++ linesBlock lines) := by
      rw [hoff, byteLength_append]
      have := byteLength_pos _ hne
      omega
    obtain ⟨o1, o2, _⟩ := tick_opens fs s key _ hmon hmark hfile hgrown
    obtain ⟨d1, d2⟩ := streamData_text parse key htext chunks (tick fs s) _ o1 (by simp)
    obtain ⟨⟨f1, f2, f3⟩, _⟩ := streamData_keeps parse key chunks (tick fs s) _ o1
    simp only [List.nil_append, hchunks] at d1 d2
    have hsplit : splitLines (linesBlock lines)
        = ((lines.filter (fun s => !s.all isJsWhitespace)).map trim, []) := by
      have := splitLines_terminated lines [] hlines (by simp)
      simpa [linesBlock] using this
    rw [hsplit] at d1 d2
    simp only [step, streamOnEnd, d2]
    refine ⟨⟨?_, ?_, ?_, ?_⟩, ?_⟩
    · exact f3.trans (t3.trans hmon)
    · simp
    · simp
    · simp only [Function.update_same, Option.getD_some, hoff, byteLength_append]
      omega
    · rw [d1, t1]
      simp [lineEvents, List.map_map, Function.comp_def]

/-- Over any number of rounds of whole-line growth, the events are the
trimmed non-blank lines in file order and the key ends idle with the offset
at the file's length. -/
theorem rounds_read {J : Type} (parse : Str → Option J) (key : FileKey)
    (htext : fileExtension key ≠ ".json".toList) (rounds : List Round) :
    ∀ (s : Session J) (prev : Str), Idle key prev s → Grows key prev rounds →
      Idle key (prev ++ linesBlock (allLines rounds)) (run parse s (roundsActions key rounds)) ∧
      (run parse s (roundsActions key rounds)).written
        = s.written ++ lineEvents key (allLines rounds) := by
  induction rounds with
  | nil =>
    intro s prev hidle _
    simpa [roundsActions, allLines, linesBlock, lineEvents, run] using hidle
  | cons r rounds ih =>
    intro s prev hidle hgrows
    obtain ⟨hlines, hfile, hchunks, hrest⟩ := hgrows
    obtain ⟨h1, h2⟩ := read_round parse key htext s prev r.fs r.lines r.chunks hidle hlines
      hfile hchunks
    obtain ⟨g1, g2⟩ := ih _ _ h1 hrest
    simp only [roundsActions, allLines, run_append_actions, linesBlock_append,
      ← List.append_assoc]
    refine ⟨g1, ?_⟩
    rw [g2, h2]
    simp [lineEvents, List.append_assoc]

theorem Scheduler.inv_init : Scheduler.init.Inv := by
  refine ⟨by simp [Scheduler.init], by simp [Scheduler.init], ?_⟩
  intro key
  simp [Scheduler.init]

theorem Scheduler.tickFile_marks_mono (fs : Files) (s : Scheduler) (key k : FileKey)
    (h : s.fileStreams key = true) : (s.tickFile fs k).fileStreams key = true := by
  unfold Scheduler.tickFile
  cases fs k with
  | none => exact h
  | some content =>
    simp only
    split
    · by_cases hk : key = k
      · subst hk; simp
      · simp only [Function.update_noteq hk]
        exact h
    · exact h

theorem Scheduler.tickFile_new_read (fs : Files) (s : Scheduler) (k : FileKey) (r : OpenRead)
    (hr : r ∈ (s.tickFile fs k).reads) (hnew : r ∉ s.reads) :
    r.fileKey = k ∧ s.fileStreams k = false := by
  unfold Scheduler.tickFile at hr
  cases hk : fs k with
  | none =>
    rw [hk] at hr
    exact absurd hr hnew
  | some content =>
    rw [hk] at hr
    simp only at hr
    split at hr
    · next hcond =>
      simp only [Bool.and_eq_true, Bool.not_eq_true', decide_eq_true_eq] at hcond
      rcases List.mem_append.mp hr with h | h
      · exact absurd h hnew
      · simp only [List.mem_singleton] at h
        subst h
        exact ⟨rfl, hcond.2⟩
    · exact absurd hr hnew

theorem Scheduler.inv_tickFile (fs : Files) (s : Scheduler) (k : FileKey) (h : s.Inv) :
    (s.tickFile fs k).Inv := by
  obtain ⟨hid, hpair, hmark⟩ := h
  unfold Scheduler.tickFile
  cases fs k with
  | none => exact ⟨hid, hpair, hmark⟩
  | some content =>
    simp only
    split
    · next hcond =>
      simp only [Bool.and_eq_true, Bool.not_eq_true', decide_eq_true_eq] at hcond
      have hnone : ∀ r ∈ s.reads, r.fileKey ≠ k := by
        intro r hr hk
        have := (hmark k).mpr ⟨r, hr, hk⟩
        rw [hcond.2] at this
        exact absurd this (by simp)
      refine ⟨?_, ?_, ?_⟩
      · intro r hr
        rcases List.mem_append.mp hr with h | h
        · have := hid r h
          show r.id < s.created + 1
          omega
        · simp only [List.mem_singleton] at h
          subst h
          show s.created < s.created + 1
          omega
      · rw [List.pairwise_append]
        refine ⟨hpair, by simp, ?_⟩
        intro a ha b hb
        simp only [List.mem_singleton] at hb
        subst hb
        exact ⟨Nat.ne_of_lt (hid a ha), hnone a ha⟩
      · intro key
        by_cases hk : key = k
        · subst hk
          simp only [Function.update_same, List.mem_append, List.mem_singleton, true_iff]
          exact ⟨_, Or.inr rfl, rfl⟩
        · simp only [Function.update_noteq hk, hmark key, List.mem_append, List.mem_singleton]
          constructor
          · rintro ⟨r, hr, hrk⟩
            exact ⟨r, Or.inl hr, hrk⟩
          · rintro ⟨r, hr | hr, hrk⟩
            · exact ⟨r, hr, hrk⟩
            · subst hr
              exact absurd hrk.symm hk
    · exact ⟨hid, hpair, hmark⟩

theorem Scheduler.inv_tickFile_fold (fs : Files) (keys : List FileKey) :
    ∀ s : Scheduler, s.Inv → (keys.foldl (Scheduler.tickFile fs) s).Inv := by
  induction keys with
  | nil => intro s h; exact h
  | cons k keys ih => intro s h; exact ih _ (Scheduler.inv_tickFile fs s k h)

theorem Scheduler.tickFile_fold_new_read (fs : Files) (keys : List FileKey) :
    ∀ (s : Scheduler) (r : OpenRead), r ∈ (keys.foldl (Scheduler.tickFile fs) s).reads →
      r ∉ s.reads → s.fileStreams r.fileKey = false := by
  induction keys with
  | nil => intro s r hr hnew; exact absurd hr hnew
  | cons k keys ih =>
    intro s r hr hnew
    rw [List.foldl_cons] at hr
    by_cases hmid : r ∈ (s.tickFile fs k).reads
    · obtain ⟨h1, h2⟩ := Scheduler.tickFile_new_read fs s k r hmid hnew
      rw [h1]
      exact h2
    · have := ih _ r hr hmid
      cases hs : s.fileStreams r.fileKey with
      | false => rfl
      | true =>
        rw [Scheduler.tickFile_marks_mono fs s r.fileKey k hs] at this
        exact absurd this (by simp)

theorem Scheduler.tickFile_fold_marks_mono (fs : Files) (key : FileKey) (keys : List FileKey) :
    ∀ s : Scheduler, s.fileStreams key = true →
      (keys.foldl (Scheduler.tickFile fs) s).fileStreams key = true := by
  induction keys with
  | nil => intro s h; exact h
  | cons k keys ih => intro s h; exact ih _ (Scheduler.tickFile_marks_mono fs s key k h)

/-- Closing the stream `r`: it alone leaves the list, and its key alone is
unmarked. -/
theorem Scheduler.inv_close (s : Scheduler) (id : Nat) (r : OpenRead)
    (positions : FileKey → Option Nat) (h : s.Inv)
    (hfind : s.reads.find? (fun r => r.id = id) = some r) :
    Scheduler.Inv
      { s with
        filePositions := positions
        fileStreams := Function.update s.fileStreams r.fileKey false
        reads := s.reads.filter (fun x => x.id ≠ id) } := by
  obtain ⟨hid, hpair, hmark⟩ := h
  have hrmem : r ∈ s.reads := List.mem_of_find?_eq_some hfind
  have hrid : r.id = id := by
    have := List.find?_some hfind
    simpa using this
  have hsymm : Symmetric (fun a b : OpenRead => a.id ≠ b.id ∧ a.fileKey ≠ b.fileKey) :=
    fun a b hab => ⟨fun e => hab.1 e.symm, fun e => hab.2 e.symm⟩
  refine ⟨?_, hpair.filter _, ?_⟩
  · intro x hx
    exact hid x (List.mem_of_mem_filter hx)
  · intro key
    simp only [List.mem_filter, ne_eq, decide_not, Bool.not_eq_true', decide_eq_false_iff_not]
    by_cases hk : key = r.fileKey
    · subst hk
      simp only [Function.update_same, Bool.false_eq_true, false_iff, not_exists, not_and,
        and_imp]
      intro x hx hxid hxkey
      have hne : x ≠ r := by
        intro e
        subst e
        exact hxid hrid
      exact (hpair.forall hsymm hx hrmem hne).2 hxkey
    · simp only [Function.update_noteq hk, hmark key]
      constructor
      · rintro ⟨x, hx, hxkey⟩
        refine ⟨x, ⟨hx, ?_⟩, hxkey⟩
        intro hxid
        by_cases hne : x = r
        · subst hne
          exact hk hxkey.symm
        · exact (hpair.forall hsymm hx hrmem hne).1 (hxid.trans hrid.symm)
      · rintro ⟨x, ⟨hx, _⟩, hxkey⟩
        exact ⟨x, hx, hxkey⟩

theorem Scheduler.inv_step (s : Scheduler) (a : SchedulerAction) (h : s.Inv) :
    (s.step a).Inv := by
  cases a with
  | tick fs =>
    simp only [Scheduler.step, Scheduler.tick]
    split
    · exact Scheduler.inv_tickFile_fold fs _ s h
    · exact h
  | streamData id bytes =>
    obtain ⟨hid, hpair, hmark⟩ := h
    simp only [Scheduler.step, Scheduler.streamData]
    refine ⟨?_, ?_, ?_⟩
    · intro r hr
      simp only [List.mem_map] at hr
      obtain ⟨x, hx, rfl⟩ := hr
      have := hid x hx
      split <;> exact this
    · rw [List.pairwise_map]
      refine hpair.imp ?_
      intro a b hab
      split <;> split <;> exact hab
    · intro key
      rw [hmark key]
      simp only [List.mem_map]
      constructor
      · rintro ⟨r, hr, hk⟩
        refine ⟨_, ⟨r, hr, rfl⟩, ?_⟩
        split <;> exact hk
      · rintro ⟨_, ⟨r, hr, rfl⟩, hk⟩
        refine ⟨r, hr, ?_⟩
        split at hk <;> exact hk
  | streamEnd id =>
    simp only [Scheduler.step, Scheduler.streamEnd]
    split
    · exact h
    · next r hfind => exact Scheduler.inv_close s id r _ h hfind
  | streamError id =>
    simp only [Scheduler.step, Scheduler.streamError]
    split
    · exact h
    · next r hfind => exact Scheduler.inv_close s id r s.filePositions h hfind
  | clearInterval => exact h
  | finalRead fs => exact h

theorem Scheduler.inv_run (actions : List SchedulerAction) :
    ∀ s : Scheduler, s.Inv → (s.run actions).Inv := by
  induction actions with
  | nil => intro s h; exact h
  | cons a actions ih => intro s h; exact ih _ (Scheduler.inv_step s a h)

theorem pairwise_keys_count (reads : List OpenRead) (key : FileKey)
    (h : reads.Pairwise (fun a b => a.id ≠ b.id ∧ a.fileKey ≠ b.fileKey)) :
    (reads.filter (fun r => r.fileKey = key)).length ≤ 1 := by
  induction reads with
  | nil => simp
  | cons r reads ih =>
    rw [List.pairwise_cons] at h
    by_cases hk : r.fileKey = key
    · have hnone : reads.filter (fun x => x.fileKey = key) = [] := by
        rw [List.filter_eq_nil_iff]
        intro x hx
        have := (h.1 x hx).2
        simp only [decide_eq_true_eq]
        intro hxk
        exact this (hk.trans hxk.symm)
      simp [List.filter_cons, hk, hnone]
    · simp only [List.filter_cons, hk, decide_False, Bool.false_eq_true, ↓reduceIte]
      exact ih h.2

/-- The mark of a key is removed only by the `end` or `error` handler of an
open stream of that key. -/
theorem Scheduler.unmark_only_by_own_read (s : Scheduler) (a : SchedulerAction) (key : FileKey)
    (hmarked : s.fileStreams key = true) (hafter : (s.step a).fileStreams key = false) :
    ∃ (id : Nat) (r : OpenRead),
      (a = SchedulerAction.streamEnd id ∨ a = SchedulerAction.streamError id) ∧
      r ∈ s.reads ∧ r.id = id ∧ r.fileKey = key := by
  have hcontra : ∀ t : Scheduler, t.fileStreams key = true → ¬ t.fileStreams key = false := by
    intro t h1 h2
    rw [h1] at h2
    exact absurd h2 (by simp)
  cases a with
  | tick fs =>
    simp only [Scheduler.step, Scheduler.tick] at hafter
    split at hafter
    · exact absurd hafter
        (hcontra _ (Scheduler.tickFile_fold_marks_mono fs key _ s hmarked))
    · exact absurd hafter (hcontra s hmarked)
  | streamData id bytes => exact absurd hafter (hcontra s hmarked)
  | streamEnd id =>
    simp only [Scheduler.step, Scheduler.streamEnd] at hafter
    split at hafter
    · exact absurd hafter (hcontra s hmarked)
    · next r hfind =>
      have hrid : r.id = id := by simpa using List.find?_some hfind
      by_cases hk : key = r.fileKey
      · exact ⟨id, r, Or.inl rfl, List.mem_of_find?_eq_some hfind, hrid, hk.symm⟩
      · simp only [Function.update_noteq hk] at hafter
        exact absurd hafter (hcontra s hmarked)
  | streamError id =>
    simp only [Scheduler.step, Scheduler.streamError] at hafter
    split at hafter
    · exact absurd hafter (hcontra s hmarked)
    · next r hfind =>
      have hrid : r.id = id := by simpa using List.find?_some hfind
      by_cases hk : key = r.fileKey
      · exact ⟨id, r, Or.inr rfl, List.mem_of_find?_eq_some hfind, hrid, hk.symm⟩
      · simp only [Function.update_noteq hk] at hafter
        exact absurd hafter (hcontra s hmarked)
  | clearInterval => exact absurd hafter (hcontra s hmarked)
  | finalRead fs => exact absurd hafter (hcontra s hmarked)

theorem substring_at (p r : Str) (c : Char) (n : Nat) (h : n ≤ p.length) :
    substring (p ++ c :: r) n (p.length + 1) = p.drop n ++ [c] := by
  have htake : (p ++ c :: r).take (p.length + 1) = p ++ [c] := by
    have : p ++ c :: r = (p ++ [c]) ++ r := by simp
    rw [this, List.take_append_of_le_length (by simp)]
    exact List.take_of_length_le (by simp)
  simp only [substring, Nat.max_eq_right (by omega : n ≤ p.length + 1),
    Nat.min_eq_left (by omega : n ≤ p.length + 1), htake]
  exact List.drop_append_of_le_length h

theorem sameView_closes (p1 p2 : Str) (σ1 σ2 : ScanState) (c : Char)
    (h : SameView p1 σ1 p2 σ2) : σ1.closes c ↔ σ2.closes c := by
  obtain ⟨h1, h2, h3, h4⟩ := h
  unfold ScanState.closes
  constructor
  · rintro ⟨a1, a2, a3, a4, _⟩
    exact ⟨h3 ▸ a1, h2 ▸ a2, a3, h1 ▸ a4, (h4 (by omega)).2.1⟩
  · rintro ⟨a1, a2, a3, a4, _⟩
    exact ⟨h3.symm ▸ a1, h2.symm ▸ a2, a3, h1.symm ▸ a4, (h4 (by omega)).1⟩

theorem sameView_substring (p1 p2 r1 r2 : Str) (σ1 σ2 : ScanState) (c : Char)
    (h : SameView p1 σ1 p2 σ2) (hc : σ1.closes c) :
    substring (p1 ++ c :: r1) σ1.objectStart.toNat (p1.length + 1)
      = substring (p2 ++ c :: r2) σ2.objectStart.toNat (p2.length + 1) := by
  obtain ⟨_, _, _, h4⟩ := h
  obtain ⟨_, _, _, hbc, _⟩ := hc
  obtain ⟨_, _, l1, l2, hdrop⟩ := h4 (by omega)
  rw [substring_at p1 r1 c _ l1, substring_at p2 r2 c _ l2, hdrop]

theorem sameView_next (p1 p2 : Str) (σ1 σ2 : ScanState) (c : Char)
    (h : SameView p1 σ1 p2 σ2) :
    SameView (p1 ++ [c]) (σ1.next p1.length c) (p2 ++ [c]) (σ2.next p2.length c) := by
  obtain ⟨bc1, os1, ins1, esc1⟩ := σ1
  obtain ⟨bc2, os2, ins2, esc2⟩ := σ2
  obtain ⟨h1, h2, h3, h4⟩ := h
  simp only at h1 h2 h3 h4
  subst h1 h2 h3
  have hkeep : 1 ≤ bc1 →
      0 ≤ os1 ∧ 0 ≤ os2 ∧ os1.toNat ≤ (p1 ++ [c]).length ∧ os2.toNat ≤ (p2 ++ [c]).length ∧
      (p1 ++ [c]).drop os1.toNat = (p2 ++ [c]).drop os2.toNat := by
    intro hbc
    obtain ⟨a1, a2, a3, a4, a5⟩ := h4 hbc
    refine ⟨a1, a2, by simp; omega, by simp; omega, ?_⟩
    rw [List.drop_append_of_le_length a3, List.drop_append_of_le_length a4, a5]
  have hfresh : 0 ≤ (p1.length : Int) ∧ 0 ≤ (p2.length : Int) ∧
      (p1.length : Int).toNat ≤ (p1 ++ [c]).length ∧
      (p2.length : Int).toNat ≤ (p2 ++ [c]).length ∧
      (p1 ++ [c]).drop (p1.length : Int).toNat = (p2 ++ [c]).drop (p2.length : Int).toNat := by
    refine ⟨by omega, by omega, by simp, by simp, ?_⟩
    simp
  unfold SameView ScanState.next
  by_cases he : esc1 = true
  · simp only [he, ↓reduceIte, true_and]
    exact hkeep
  · simp only [he, Bool.false_eq_true, ↓reduceIte]
    by_cases hb : c = '\\'
    · subst hb
      simp only [↓reduceIte, true_and]
      exact hkeep
    · simp only [hb, ↓reduceIte]
      by_cases hq : c = '"'
      · subst hq
        simp only [↓reduceIte, true_and]
        exact hkeep
      · simp only [hq, ↓reduceIte]
        by_cases hi : ins1 = true
        · simp only [hi, ↓reduceIte, true_and]
          exact hkeep
        · simp only [hi, Bool.false_eq_true, ↓reduceIte]
          by_cases ho : c = '{'
          · subst ho
            simp only [↓reduceIte, true_and]
            intro hpos
            by_cases hz : bc1 = 0
            · simp only [hz, ↓reduceIte]
              exact hfresh
            · simp only [hz, ↓reduceIte]
              exact hkeep (by omega)
          · simp only [ho, ↓reduceIte]
            by_cases hcl : c = '}'
            · subst hcl
              simp only [↓reduceIte, true_and]
              intro hpos
              exact hkeep (by omega)
            · simp only [hcl, ↓reduceIte, true_and]
              exact hkeep

theorem next_core (σ τ : ScanState) (i j : Nat) (c : Char)
    (h1 : σ.braceCount = τ.braceCount) (h2 : σ.inString = τ.inString)
    (h3 : σ.escapeNext = τ.escapeNext) :
    (σ.next i c).braceCount = (τ.next j c).braceCount ∧
    (σ.next i c).inString = (τ.next j c).inString ∧
    (σ.next i c).escapeNext = (τ.next j c).escapeNext := by
  obtain ⟨bc1, os1, ins1, esc1⟩ := σ
  obtain ⟨bc2, os2, ins2, esc2⟩ := τ
  simp only at h1 h2 h3
  subst h1 h2 h3
  simp only [ScanState.next]
  split_ifs <;> simp

theorem run_core (x : Str) : ∀ (σ τ : ScanState) (i j : Nat),
    σ.braceCount = τ.braceCount → σ.inString = τ.inString → σ.escapeNext = τ.escapeNext →
    (σ.run i x).braceCount = (τ.run j x).braceCount ∧
    (σ.run i x).inString = (τ.run j x).inString ∧
    (σ.run i x).escapeNext = (τ.run j x).escapeNext := by
  induction x with
  | nil => intro σ τ i j h1 h2 h3; exact ⟨h1, h2, h3⟩
  | cons c x ih =>
    intro σ τ i j h1 h2 h3
    obtain ⟨g1, g2, g3⟩ := next_core σ τ i j c h1 h2 h3
    exact ih _ _ _ _ g1 g2 g3

theorem scanJson_eq_scanFrom {J : Type} (parse : Str → Option J) (fileKey : FileKey) (t : Str) :
    scanJson parse fileKey t = scanFrom parse fileKey t ([] ++ t) ([] : Str).length
      ScanState.init := rfl

theorem sameView_init : SameView [] ScanState.init [] ScanState.init := by
  refine ⟨rfl, rfl, rfl, ?_⟩
  intro h
  simp [ScanState.init] at h

theorem sameView_depth_zero (p1 p2 : Str) (σ1 σ2 : ScanState)
    (h1 : σ1.braceCount = 0) (h2 : σ2.braceCount = 0)
    (h3 : σ1.inString = σ2.inString) (h4 : σ1.escapeNext = σ2.escapeNext) :
    SameView p1 σ1 p2 σ2 := by
  refine ⟨h1.trans h2.symm, h3, h4, ?_⟩
  intro h
  omega

theorem closes_next_core (σ : ScanState) (i : Nat) (c : Char) (h : σ.closes c) :
    (σ.next i c).braceCount = 0 ∧ (σ.next i c).inString = false ∧
    (σ.next i c).escapeNext = false := by
  obtain ⟨bc, os, ins, esc⟩ := σ
  obtain ⟨h1, h2, h3, h4, _⟩ := h
  simp only at h1 h2 h3 h4
  subst h1 h2 h3 h4
  simp [ScanState.next]

/-- Two incremental scans that visit the same text `x` from states that
cannot be told apart write the same events, if they do so on what follows
`x` whenever the state after `x` satisfies `E`. -/
theorem scanFrom_lockstep {J : Type} (parse : Str → Option J) (fileKey : FileKey)
    (E : Int → Bool → Bool → Prop) (y1 y2 : Str)
    (hcont : ∀ (q1 q2 : Str) (τ1 τ2 : ScanState), SameView q1 τ1 q2 τ2 →
      E τ1.braceCount τ1.inString τ1.escapeNext →
      (scanFrom parse fileKey y1 (q1 ++ y1) q1.length τ1).1
        = (scanFrom parse fileKey y2 (q2 ++ y2) q2.length τ2).1)
    (x : Str) :
    ∀ (p1 p2 : Str) (σ1 σ2 : ScanState), SameView p1 σ1 p2 σ2 →
      E (σ1.run p1.length x).braceCount (σ1.run p1.length x).inString
        (σ1.run p1.length x).escapeNext →
      (scanFrom parse fileKey (x ++ y1) (p1 ++ (x ++ y1)) p1.length σ1).1
        = (scanFrom parse fileKey (x ++ y2) (p2 ++ (x ++ y2)) p2.length σ2).1 := by
  induction x with
  | nil =>
    intro p1 p2 σ1 σ2 hview hE
    exact hcont p1 p2 σ1 σ2 hview hE
  | cons c x ih =>
    intro p1 p2 σ1 σ2 hview hE
    have e1 : p1 ++ c :: (x ++ y1) = (p1 ++ [c]) ++ (x ++ y1) := by simp
    have e2 : p2 ++ c :: (x ++ y2) = (p2 ++ [c]) ++ (x ++ y2) := by simp
    have l1 : p1.length + 1 = (p1 ++ [c]).length := by simp
    have l2 : p2.length + 1 = (p2 ++ [c]).length := by simp
    have hskip : (scanFrom parse fileKey (x ++ y1) (p1 ++ c :: (x ++ y1)) (p1.length + 1)
          (σ1.next p1.length c)).1
        = (scanFrom parse fileKey (x ++ y2) (p2 ++ c :: (x ++ y2)) (p2.length + 1)
          (σ2.next p2.length c)).1 := by
      rw [e1, e2, l1, l2]
      refine ih _ _ _ _ (sameView_next p1 p2 σ1 σ2 c hview) ?_
      rw [← l1]
      exact hE
    simp only [List.cons_append]
    by_cases hc : σ1.closes c
    · have hc2 : σ2.closes c := (sameView_closes p1 p2 σ1 σ2 c hview).mp hc
      rw [scanFrom_cons_closes _ _ _ _ _ _ _ hc, scanFrom_cons_closes _ _ _ _ _ _ _ hc2,
        sameView_substring p1 p2 (x ++ y1) (x ++ y2) σ1 σ2 c hview hc]
      cases hp : parse (substring (p2 ++ c :: (x ++ y2)) σ2.objectStart.toNat (p2.length + 1)) with
      | none => exact hskip
      | some item =>
        simp only
        congr 1
        rw [scanJson_eq_scanFrom, scanJson_eq_scanFrom]
        refine ih [] [] ScanState.init ScanState.init sameView_init ?_
        obtain ⟨n1, n2, n3⟩ := closes_next_core σ1 p1.length c hc
        obtain ⟨r1, r2, r3⟩ := run_core x (σ1.next p1.length c) ScanState.init
          (p1.length + 1) ([] : Str).length n1 n2 n3
        rw [← r1, ← r2, ← r3]
        exact hE
    · have hc2 : ¬ σ2.closes c := fun h => hc ((sameView_closes p1 p2 σ1 σ2 c hview).mpr h)
      rw [scanFrom_cons_skip _ _ _ _ _ _ _ hc, scanFrom_cons_skip _ _ _ _ _ _ _ hc2]
      exact hskip

/-- The final-read scan writes what the incremental scan writes, from states
that cannot be told apart. -/
theorem drainFrom_eq_scanFrom {J : Type} (parse : Str → Option J) (key : FileKey) (rest : Str) :
    ∀ (p1 p2 : Str) (σ1 σ2 : ScanState), SameView p1 σ1 p2 σ2 →
      drainFrom parse key rest (p1 ++ rest) p1.length σ1
        = (scanFrom parse key rest (p2 ++ rest) p2.length σ2).1 := by
  induction rest with
  | nil =>
    intro p1 p2 σ1 σ2 _
    simp [drainFrom_nil, scanFrom_nil]
  | cons c rest ih =>
    intro p1 p2 σ1 σ2 hview
    have e1 : p1 ++ c :: rest = (p1 ++ [c]) ++ rest := by simp
    have e2 : p2 ++ c :: rest = (p2 ++ [c]) ++ rest := by simp
    have l1 : p1.length + 1 = (p1 ++ [c]).length := by simp
    have l2 : p2.length + 1 = (p2 ++ [c]).length := by simp
    by_cases hc : σ1.closes c
    · have hc2 : σ2.closes c := (sameView_closes p1 p2 σ1 σ2 c hview).mp hc
      rw [drainFrom_cons_closes _ _ _ _ _ _ _ hc, scanFrom_cons_closes _ _ _ _ _ _ _ hc2,
        sameView_substring p1 p2 rest rest σ1 σ2 c hview hc]
      obtain ⟨n1, n2, n3⟩ := closes_next_core σ1 p1.length c hc
      obtain ⟨m1, m2, m3⟩ := closes_next_core σ2 p2.length c hc2
      cases hp : parse (substring (p2 ++ c :: rest) σ2.objectStart.toNat (p2.length + 1)) with
      | none =>
        simp only [List.nil_append]
        rw [e1, e2, l1, l2]
        exact ih _ _ _ _ (sameView_depth_zero _ _ _ _ n1 m1 (n2.trans m2.symm)
          (n3.trans m3.symm))
      | some item =>
        simp only [List.singleton_append]
        congr 1
        rw [scanJson_eq_scanFrom, e1, l1]
        exact ih _ _ _ _ (sameView_depth_zero _ _ _ _ n1 rfl n2 n3)
    · have hc2 : ¬ σ2.closes c := fun h => hc ((sameView_closes p1 p2 σ1 σ2 c hview).mpr h)
      rw [drainFrom_cons_skip _ _ _ _ _ _ _ hc, scanFrom_cons_skip _ _ _ _ _ _ _ hc2,
        e1, e2, l1, l2]
      exact ih _ _ _ _ (sameView_next p1 p2 σ1 σ2 c hview)

/-- The final-read scanner writes the events of the incremental scanner fed
the same text as one chunk. -/
theorem drainJson_eq_scanJson {J : Type} (parse : Str → Option J) (key : FileKey) (t : Str) :
    drainJson parse key t = (scanJson parse key t).1 :=
  drainFrom_eq_scanFrom parse key t [] [] ScanState.init ScanState.init sameView_init

theorem next_lex (σ : ScanState) (i : Nat) (l : LexState) (c : Char)
    (h1 : σ.inString = l.inString) (h2 : σ.escapeNext = l.escapeNext) :
    (σ.next i c).inString = (lexStep l c).inString ∧
    (σ.next i c).escapeNext = (lexStep l c).escapeNext ∧
    (σ.next i c).braceCount + l.opens + (lexStep l c).closes
      = σ.braceCount + (lexStep l c).opens + l.closes := by
  obtain ⟨bc, os, ins, esc⟩ := σ
  obtain ⟨lin, lesc, lo, lc⟩ := l
  simp only at h1 h2
  subst h1 h2
  simp only [ScanState.next, lexStep]
  split_ifs <;> simp <;> omega

/-- The depth and the flags of the scanner follow the lexical state of the
text it has visited. -/
theorem run_lex (x : Str) : ∀ (σ : ScanState) (i : Nat) (l : LexState),
    σ.inString = l.inString → σ.escapeNext = l.escapeNext →
    (σ.run i x).inString = (x.foldl lexStep l).inString ∧
    (σ.run i x).escapeNext = (x.foldl lexStep l).escapeNext ∧
    (σ.run i x).braceCount + l.opens + (x.foldl lexStep l).closes
      = σ.braceCount + (x.foldl lexStep l).opens + l.closes := by
  induction x with
  | nil => intro σ i l h1 h2; exact ⟨h1, h2, by simp [ScanState.run]⟩
  | cons c x ih =>
    intro σ i l h1 h2
    obtain ⟨g1, g2, g3⟩ := next_lex σ i l c h1 h2
    obtain ⟨k1, k2, k3⟩ := ih (σ.next i c) (i + 1) (lexStep l c) g1 g2
    simp only [ScanState.run, List.foldl_cons]
    exact ⟨k1, k2, by omega⟩

theorem run_lexSpan (x : Str) (σ : ScanState) (i : Nat)
    (h1 : σ.inString = false) (h2 : σ.escapeNext = false) :
    (σ.run i x).inString = (lexSpan x).inString ∧
    (σ.run i x).escapeNext = (lexSpan x).escapeNext ∧
    (σ.run i x).braceCount + (lexSpan x).closes = σ.braceCount + (lexSpan x).opens := by
  obtain ⟨k1, k2, k3⟩ := run_lex x σ i ⟨false, false, 0, 0⟩ h1 h2
  exact ⟨k1, k2, by simpa using k3⟩

theorem run_snoc (σ : ScanState) (i : Nat) (b : Str) (c : Char) :
    σ.run i (b ++ [c]) = (σ.run i b).next (i + b.length) c := by
  rw [run_append]
  rfl

/-- Over a text whose depth is positive after every non-empty prefix, a scan
that starts at depth 0 outside a string makes no parse attempt and keeps
`objectStart` at the index of the first character. -/
theorem run_positive_depth (b : Str) :
    (∀ n, 0 < n → n ≤ b.length →
      (lexSpan (b.take n)).closes < (lexSpan (b.take n)).opens) →
    ∀ (τ : ScanState) (i : Nat), τ.braceCount = 0 → τ.inString = false →
      τ.escapeNext = false →
      NoClose τ i b ∧ (b ≠ [] → (τ.run i b).objectStart = i) := by
  induction b using List.reverseRecOn with
  | nil =>
    intro _ τ i _ _ _
    exact ⟨trivial, fun h => absurd rfl h⟩
  | append_singleton b c ih =>
    intro hdepth τ i hbc hin hesc
    have hprefix : ∀ n, 0 < n → n ≤ b.length →
        (lexSpan (b.take n)).closes < (lexSpan (b.take n)).opens := by
      intro n hn hle
      have := hdepth n hn (by simp; omega)
      rwa [List.take_append_of_le_length hle] at this
    obtain ⟨hno, hos⟩ := ih hprefix τ i hbc hin hesc
    have hfull := hdepth (b.length + 1) (by omega) (by simp)
    have htake : (b ++ [c]).take (b.length + 1) = b ++ [c] :=
      List.take_of_length_le (by simp)
    rw [htake, lexSpan_snoc] at hfull
    obtain ⟨k1, k2, k3⟩ := run_lexSpan b τ i hin hesc
    rw [hbc] at k3
    by_cases hb : b = []
    · subst hb
      simp only [List.nil_append, List.length_nil, Nat.add_zero, ne_eq, List.cons_ne_self,
        not_false_eq_true, forall_const, ScanState.run, NoClose, and_true, List.cons_ne_nil]
      obtain ⟨bc, os, ins, esc⟩ := τ
      simp only at hbc hin hesc
      subst hbc hin hesc
      simp only [lexSpan, List.foldl_nil, lexStep] at hfull
      refine ⟨by simp [ScanState.closes], ?_⟩
      simp only [ScanState.next]
      split_ifs at hfull ⊢ <;> simp_all
    · have hposb := hprefix b.length (Nat.pos_of_ne_zero (by simpa using hb)) (Nat.le_refl _)
      rw [List.take_length] at hposb
      have hosb := hos hb
      refine ⟨noClose_append b [c] τ i hno ?_, fun _ => ?_⟩
      · simp only [NoClose, and_true]
        intro hcl
        obtain ⟨c1, c2, c3, c4, _⟩ := hcl
        rw [c2] at k1
        rw [c1] at k2
        subst c3
        simp only [lexStep, ← k1, ← k2] at hfull
        simp at hfull
        omega
      · rw [run_snoc]
        generalize hσ : τ.run i b = σ at hosb k1 k2 k3
        obtain ⟨bc, os, ins, esc⟩ := σ
        simp only at hosb k3
        have hne : bc ≠ 0 := by omega
        simp only [ScanState.next]
        split_ifs <;> exact hosb

theorem candidate_shape (bad : Str) (h : CandidateSpan bad) :
    ∃ b : Str, bad = b ++ ['}'] ∧ b ≠ [] ∧
      (lexSpan b).inString = false ∧ (lexSpan b).escapeNext = false ∧
      (lexSpan b).opens = (lexSpan b).closes + 1 ∧
      ∀ n, 0 < n → n ≤ b.length →
        (lexSpan (b.take n)).closes < (lexSpan (b.take n)).opens := by
  obtain ⟨⟨hhead, hlast, hcount, hin, hesc⟩, hdepth⟩ := h
  have hne : bad ≠ [] := by
    intro e
    rw [e] at hhead
    simp at hhead
  have hsplit : bad = bad.dropLast ++ ['}'] := by
    have h1 := List.dropLast_append_getLast hne
    have h2 : bad.getLast hne = '}' := by
      have := List.getLast?_eq_getLast bad hne
      rw [hlast] at this
      exact (Option.some.inj this).symm
    rw [h2] at h1
    exact h1.symm
  generalize bad.dropLast = b at hsplit hin hesc
  subst hsplit
  refine ⟨b, rfl, ?_, hin, hesc, ?_, ?_⟩
  · intro e
    subst e
    simp at hhead
  · rw [lexSpan_snoc] at hcount
    simp only [lexStep, hin, hesc] at hcount
    simp at hcount
    exact hcount
  · intro n hn hle
    have := hdepth n hn (by simp; omega)
    rwa [List.take_append_of_le_length hle] at this

/-- A candidate span met at depth 0 outside a string is handed to the parser
as a whole; when the parser rejects it, the scan goes on behind it at depth
0. -/
theorem scanFrom_candidate_rejected {J : Type} (parse : Str → Option J) (fileKey : FileKey)
    (bad post q : Str) (τ : ScanState) (hbad : CandidateSpan bad) (hrej : parse bad = none)
    (hbc : τ.braceCount = 0) (hin : τ.inString = false) (hesc : τ.escapeNext = false) :
    scanFrom parse fileKey (bad ++ post) (q ++ (bad ++ post)) q.length τ
      = scanFrom parse fileKey post ((q ++ bad) ++ post) (q ++ bad).length
          ⟨0, (q.length : Int), false, false⟩ := by
  obtain ⟨b, hshape, hne, lin, lesc, lcount, hdepth⟩ := candidate_shape bad hbad
  obtain ⟨hno, hos⟩ := run_positive_depth b hdepth τ q.length hbc hin hesc
  obtain ⟨k1, k2, k3⟩ := run_lexSpan b τ q.length hin hesc
  have hstate : τ.run q.length b = ⟨1, (q.length : Int), false, false⟩ := by
    have hosb := hos hne
    generalize τ.run q.length b = σ at hosb k1 k2 k3
    obtain ⟨bc, os, ins, esc⟩ := σ
    simp only at hosb k1 k2 k3
    rw [lin] at k1
    rw [lesc] at k2
    subst k1 k2 hosb
    have : bc = 1 := by
      rw [hbc, lcount] at k3
      push_cast at k3
      omega
    rw [this]
  have hjb : q ++ (bad ++ post) = (q ++ b) ++ '}' :: post := by
    rw [hshape]
    simp
  have hlen : (q ++ bad).length = q.length + b.length + 1 := by
    rw [hshape]
    simp
    omega
  rw [show bad ++ post = b ++ '}' :: post by rw [hshape]; simp,
    scanFrom_noClose parse fileKey b _ _ _ _ hno, hstate,
    scanFrom_cons_closes _ _ _ _ _ _ _ (by simp [ScanState.closes])]
  have hsub : substring (q ++ (b ++ '}' :: post)) (q.length : Int).toNat
      (q.length + b.length + 1) = bad := by
    have h1 : q ++ (b ++ '}' :: post) = (q ++ b) ++ '}' :: post := by simp
    have h2 : q.length + b.length + 1 = (q ++ b).length + 1 := by simp
    rw [h1, h2, substring_at (q ++ b) post '}' _ (by simp), hshape]
    simp
  rw [hsub, hrej]
  simp only [ScanState.next]
  have hall : q ++ (b ++ '}' :: post) = q ++ bad ++ post := by
    rw [hshape]
    simp
  rw [hall, hlen]
  simp

theorem scanFrom_same_rest {J : Type} (parse : Str → Option J) (fileKey : FileKey)
    (rest p1 p2 : Str) (σ1 σ2 : ScanState) (h : SameView p1 σ1 p2 σ2) :
    (scanFrom parse fileKey rest (p1 ++ rest) p1.length σ1).1
      = (scanFrom parse fileKey rest (p2 ++ rest) p2.length σ2).1 := by
  have := scanFrom_lockstep parse fileKey (fun _ _ _ => True) [] []
    (by intro q1 q2 τ1 τ2 _ _; simp [scanFrom_nil]) rest p1 p2 σ1 σ2 h trivial
  simpa using this

/-- The incremental scan of a text with a rejected candidate span at depth 0
writes what it writes without the span. -/
theorem scanJson_rejected_span {J : Type} (parse : Str → Option J) (fileKey : FileKey)
    (pre bad post : Str)
    (hpre : (lexSpan pre).opens = (lexSpan pre).closes ∧ (lexSpan pre).inString = false ∧
      (lexSpan pre).escapeNext = false)
    (hbad : CandidateSpan bad) (hrej : parse bad = none) :
    (scanJson parse fileKey (pre ++ bad ++ post)).1
      = (scanJson parse fileKey (pre ++ post)).1 := by
  rw [List.append_assoc, scanJson_eq_scanFrom, scanJson_eq_scanFrom]
  refine scanFrom_lockstep parse fileKey (fun bc ins esc => bc = 0 ∧ ins = false ∧ esc = false)
    (bad ++ post) post ?_ pre [] [] ScanState.init ScanState.init sameView_init ?_
  · intro q1 q2 τ1 τ2 hview hE
    obtain ⟨e1, e2, e3⟩ := hE
    rw [scanFrom_candidate_rejected parse fileKey bad post q1 τ1 hbad hrej e1 e2 e3]
    refine scanFrom_same_rest parse fileKey post (q1 ++ bad) q2 _ τ2 ?_
    exact sameView_depth_zero _ _ _ _ rfl (hview.1 ▸ e1) (hview.2.1 ▸ e2.symm)
      (hview.2.2.1 ▸ e3.symm)
  · obtain ⟨k1, k2, k3⟩ := run_lexSpan pre ScanState.init ([] : Str).length rfl rfl
    obtain ⟨h1, h2, h3⟩ := hpre
    refine ⟨?_, k1.trans h2, k2.trans h3⟩
    have hinit : ScanState.init.braceCount = 0 := rfl
    rw [h1, hinit] at k3
    omega

theorem sampleRejected_candidate : CandidateSpan sampleRejected := by
  refine ⟨by decide, ?_⟩
  intro n hn hlt
  have hlen : sampleRejected.length = 3 := rfl
  rw [hlen] at hlt
  interval_cases n <;> decide

theorem scanFrom_no_closing_brace {J : Type} (parse : Str → Option J) (fileKey : FileKey)
    (rest : Str) : ∀ (text : Str) (i : Nat) (σ : ScanState), '}' ∉ rest →
      (scanFrom parse fileKey rest text i σ).1 = [] := by
  induction rest with
  | nil => intro text i σ _; simp [scanFrom_nil]
  | cons c rest ih =>
    intro text i σ h
    have hc : ¬ σ.closes c := by
      intro hcl
      exact h (by simp [hcl.2.2.1])
    rw [scanFrom_cons_skip _ _ _ _ _ _ _ hc]
    exact ih _ _ _ (fun hm => h (List.mem_cons_of_mem _ hm))

theorem whitespace_no_brace (s : Str) (h : s.all isJsWhitespace = true) : '}' ∉ s := by
  intro hm
  have := (List.all_eq_true.mp h) '}' hm
  revert this
  decide

theorem finalReadFile_job {J : Type} (parse : Str → Option J) (fs : Files)
    (s : Session J) (k : FileKey) : (finalReadFile parse fs s k).job = s.job := by
  unfold finalReadFile
  cases fs k with
  | none => rfl
  | some content =>
    simp only
    split <;> rfl

theorem finalReadFile_fold_job {J : Type} (parse : Str → Option J) (fs : Files)
    (keys : List FileKey) :
    ∀ s : Session J, (keys.foldl (finalReadFile parse fs) s).job = s.job := by
  induction keys with
  | nil => intro s; rfl
  | cons k keys ih =>
    intro s
    rw [List.foldl_cons, ih, finalReadFile_job]

theorem splitNewline_segments_sub (s : Str) :
    ∀ seg ∈ splitNewline s, ∀ c ∈ seg, c ∈ s := by
  induction s with
  | nil => intro seg hseg c hc; simp [splitNewline] at hseg; subst hseg; exact hc
  | cons a s ih =>
    intro seg hseg c hc
    unfold splitNewline at hseg
    cases hsp : splitNewline s with
    | nil => exact absurd hsp (splitNewline_ne_nil s)
    | cons seg0 segs =>
      rw [hsp] at hseg ih
      by_cases ha : a = '\n'
      · simp only [ha, ↓reduceIte, List.mem_cons] at hseg
        rcases hseg with h | h | h
        · subst h; simp at hc
        · exact List.mem_cons_of_mem _ (ih seg (by simp [h]) c hc)
        · exact List.mem_cons_of_mem _ (ih seg (by simp [h]) c hc)
      · simp only [ha, ↓reduceIte, List.mem_cons] at hseg
        rcases hseg with h | h
        · subst h
          rcases List.mem_cons.mp hc with h1 | h1
          · simp [h1]
          · exact List.mem_cons_of_mem _ (ih seg0 (by simp) c h1)
        · exact List.mem_cons_of_mem _ (ih seg (by simp [h]) c hc)

theorem splitNewline_blank (s : Str) (h : s.all isJsWhitespace = true) :
    ∀ seg ∈ splitNewline s, seg.all isJsWhitespace = true := by
  intro seg hseg
  rw [List.all_eq_true] at h ⊢
  intro c hc
  exact h c (splitNewline_segments_sub s seg hseg c hc)

theorem readStream_done {J : Type} (parseEvent : Str → Option (Event J))
    (chunks : List Str) : ∀ (status : ClientStatus) (buffer : Str),
      readStream parseEvent status buffer (chunks.map some ++ [none])
        = ClientStatus.completed := by
  induction chunks with
  | nil => intro status buffer; rfl
  | cons value chunks ih =>
    intro status buffer
    simp only [List.map_cons, List.cons_append, readStream]
    exact ih _ _

theorem splitSlash_ne_nil (s : Str) : splitSlash s ≠ [] := by
  cases s with
  | nil => simp [splitSlash]
  | cons c cs =>
    unfold splitSlash
    split <;> split <;> simp

theorem splitSlash_no_slash (s : Str) (h : '/' ∉ s) : splitSlash s = [s] := by
  induction s with
  | nil => rfl
  | cons c cs ih =>
    have hc : c ≠ '/' := fun e => h (by simp [e])
    have hcs : '/' ∉ cs := fun e => h (List.mem_cons_of_mem _ e)
    simp [splitSlash, ih hcs, hc]

theorem splitSlash_slash (a b : Str) :
    splitSlash (a ++ '/' :: b) = splitSlash a ++ splitSlash b := by
  induction a with
  | nil =>
    show splitSlash ('/' :: b) = [[]] ++ splitSlash b
    cases hb : splitSlash b with
    | nil => exact absurd hb (splitSlash_ne_nil b)
    | cons seg segs => simp [splitSlash, hb]
  | cons c a ih =>
    cases ha : splitSlash a with
    | nil => exact absurd ha (splitSlash_ne_nil a)
    | cons seg segs =>
      rw [ha] at ih
      by_cases hc : c = '/'
      · simp [splitSlash, ih, ha, hc]
      · simp [splitSlash, ih, ha, hc]

theorem splitSlash_suffix (suffix : Str) (hs : '/' ∉ suffix) (u : Str) :
    ∃ init last, splitSlash u = init ++ [last] ∧
      splitSlash (u ++ suffix) = init ++ [last ++ suffix] := by
  induction u with
  | nil => exact ⟨[], [], rfl, by simpa using splitSlash_no_slash suffix hs⟩
  | cons c u ih =>
    obtain ⟨init, last, h1, h2⟩ := ih
    cases init with
    | nil =>
      by_cases hc : c = '/'
      · exact ⟨[[]], last, by simp [splitSlash, h1, hc], by simp [splitSlash, h2, hc]⟩
      · exact ⟨[], c :: last, by simp [splitSlash, h1, hc], by simp [splitSlash, h2, hc]⟩
    | cons i0 init =>
      by_cases hc : c = '/'
      · exact ⟨[] :: i0 :: init, last, by simp [splitSlash, h1, hc],
          by simp [splitSlash, h2, hc]⟩
      · exact ⟨(c :: i0) :: init, last, by simp [splitSlash, h1, hc],
          by simp [splitSlash, h2, hc]⟩

theorem normalizeStep_keep (stack : List Str) (seg : Str) (h0 : seg ≠ [])
    (h1 : seg ≠ ['.']) (h2 : seg ≠ ['.', '.']) : normalizeStep stack seg = stack ++ [seg] := by
  simp [normalizeStep, h0, h1, h2]

theorem normalizeStep_prefix (stack : List Str) (seg : Str) (h2 : seg ≠ ['.', '.']) :
    ∃ more, normalizeStep stack seg = stack ++ more := by
  by_cases hskip : seg = [] ∨ seg = ['.']
  · exact ⟨[], by simp [normalizeStep, hskip]⟩
  · exact ⟨[seg], by simp [normalizeStep, hskip, h2]⟩

theorem normalize_fold_prefix (segs : List Str) (h : ['.', '.'] ∉ segs) :
    ∀ stack : List Str, ∃ more, segs.foldl normalizeStep stack = stack ++ more := by
  induction segs with
  | nil => intro stack; exact ⟨[], by simp⟩
  | cons seg segs ih =>
    intro stack
    have hseg : seg ≠ ['.', '.'] := fun e => h (by simp [e])
    have hsegs : ['.', '.'] ∉ segs := fun e => h (List.mem_cons_of_mem _ e)
    obtain ⟨m1, hm1⟩ := normalizeStep_prefix stack seg hseg
    obtain ⟨m2, hm2⟩ := ih hsegs (stack ++ m1)
    exact ⟨m1 ++ m2, by rw [List.foldl_cons, hm1, hm2, List.append_assoc]⟩

theorem fileSuffix_shape (key : FileKey) :
    '/' ∉ fileSuffix key ∧ '_' ∈ fileSuffix key := by
  cases key <;> decide

theorem next_init_inert (i : Nat) (c : Char) (h : inert c = true) :
    ScanState.init.next i c = ScanState.init := by
  simp only [inert, Bool.and_eq_true, decide_eq_true_eq, Bool.decide_eq_true] at h
  obtain ⟨⟨⟨h1, h2⟩, h3⟩, h4⟩ := h
  simp [ScanState.next, ScanState.init, h1, h2, h3, h4]

theorem scanFrom_inert_prefix {J : Type} (parse : Str → Option J) (fileKey : FileKey)
    (t : Str) (p : Str) : ∀ q : Str, p.all inert = true →
      scanFrom parse fileKey (p ++ t) (q ++ (p ++ t)) q.length ScanState.init
        = scanFrom parse fileKey t ((q ++ p) ++ t) (q ++ p).length ScanState.init := by
  induction p with
  | nil => intro q _; simp
  | cons c p ih =>
    intro q h
    simp only [List.all_cons, Bool.and_eq_true] at h
    have hc : ¬ ScanState.init.closes c := by
      intro hcl
      simp [ScanState.closes, ScanState.init] at hcl
    rw [List.cons_append, scanFrom_cons_skip _ _ _ _ _ _ _ hc, next_init_inert _ _ h.1]
    have := ih (q ++ [c]) h.2
    simpa using this

/-- A prefix of characters other than the backslash, the quote and the two
braces does not change what either scanner writes. -/
theorem scanJson_inert_prefix {J : Type} (parse : Str → Option J) (fileKey : FileKey)
    (p t : Str) (h : p.all inert = true) :
    (scanJson parse fileKey (p ++ t)).1 = (scanJson parse fileKey t).1 ∧
    drainJson parse fileKey (p ++ t) = drainJson parse fileKey t := by
  have hscan : (scanJson parse fileKey (p ++ t)).1 = (scanJson parse fileKey t).1 := by
    rw [scanJson_eq_scanFrom, scanJson_eq_scanFrom, scanFrom_inert_prefix parse fileKey t p [] h]
    exact scanFrom_same_rest parse fileKey t ([] ++ p) [] ScanState.init ScanState.init
      (sameView_depth_zero _ _ _ _ rfl rfl rfl rfl)
  exact ⟨hscan, by rw [drainJson_eq_scanJson, drainJson_eq_scanJson, hscan]⟩

/-! ## The claims -/

/-- C3: under the line discipline (the stdout handler, the stderr handler and
the text branch of the file reader), when the held buffer followed by the new
chunk consists of newline-terminated segments `segs` and a final text `tail`
with no newline, the events written are, in order, the trimmed forms of the
segments that are not empty or whitespace-only, and `tail` is the new buffer,
which the next call puts in front of its chunk. -/
theorem line_discipline_records {J : Type} (fileKey : FileKey) (buffer chunk : Str)
    (segs : List Str) (tail : Str)
    (hsegs : ∀ s ∈ segs, '\n' ∉ s) (htail : '\n' ∉ tail)
    (hcat : buffer ++ chunk = (segs.map (fun s => s ++ ['\n'])).flatten ++ tail) :
    (stdoutOnData buffer chunk : List (Event J) × Str)
        = ((segs.filter (fun s => !s.all isJsWhitespace)).map (fun s => Event.log (trim s)),
            tail) ∧
    (stderrOnData buffer chunk : List (Event J) × Str)
        = ((segs.filter (fun s => !s.all isJsWhitespace)).map (fun s => Event.error (trim s)),
            tail) ∧
    (textOnData fileKey buffer chunk : List (Event J) × Str)
        = ((segs.filter (fun s => !s.all isJsWhitespace)).map
            (fun s => Event.data fileKey (Payload.text (trim s))), tail) := by
  have h := splitLines_terminated segs tail hsegs htail
  simp only [stdoutOnData, stderrOnData, textOnData, hcat, h, List.map_map]
  exact ⟨rfl, rfl, rfl⟩

/-- Witness for C3: the buffer `al` and the chunk `ice\n  \n bob \nca`. -/
theorem line_discipline_records_witness :
    (stdoutOnData "al".toList "ice\n  \n bob \nca".toList : List (Event Unit) × Str)
        = (([['a', 'l', 'i', 'c', 'e'], [' ', ' '], [' ', 'b', 'o', 'b', ' ']].filter
              (fun s => !s.all isJsWhitespace)).map (fun s => Event.log (trim s)),
            ['c', 'a']) ∧
    (stderrOnData "al".toList "ice\n  \n bob \nca".toList : List (Event Unit) × Str)
        = (([['a', 'l', 'i', 'c', 'e'], [' ', ' '], [' ', 'b', 'o', 'b', ' ']].filter
              (fun s => !s.all isJsWhitespace)).map (fun s => Event.error (trim s)),
            ['c', 'a']) ∧
    (textOnData FileKey.postid "al".toList "ice\n  \n bob \nca".toList : List (Event Unit) × Str)
        = (([['a', 'l', 'i', 'c', 'e'], [' ', ' '], [' ', 'b', 'o', 'b', ' ']].filter
              (fun s => !s.all isJsWhitespace)).map
              (fun s => Event.data FileKey.postid (Payload.text (trim s))), ['c', 'a']) :=
  line_discipline_records FileKey.postid "al".toList "ice\n  \n bob \nca".toList
    [['a', 'l', 'i', 'c', 'e'], [' ', ' '], [' ', 'b', 'o', 'b', ' ']] ['c', 'a']
    (by decide) (by decide) (by decide)

/-- C4: in the JSON branch, feeding a chunk `a` and then a chunk `b` to the data
handler writes the same events, and leaves the same buffer, as feeding `a ++ b`
as one chunk, whatever the buffer held before and wherever the cut falls. -/
theorem json_chunk_split_invariant {J : Type} (parse : Str → Option J) (fileKey : FileKey)
    (buffer a b : Str) :
    ((jsonOnData parse fileKey buffer a).1
        ++ (jsonOnData parse fileKey (jsonOnData parse fileKey buffer a).2 b).1,
      (jsonOnData parse fileKey (jsonOnData parse fileKey buffer a).2 b).2)
      = jsonOnData parse fileKey buffer (a ++ b) :=
  jsonOnData_two_chunks parse fileKey buffer a b

/-- C5: every event written by the incremental scanner, and every event written
by the final-read scanner, carries the parse of a contiguous span of the
scanned text that is a complete brace span (begins with `{`, ends with `}`,
holds as many `{` as `}` outside string literals, and closes outside a
string); and the text `{"a":1` yields no event in either scanner. -/
theorem json_records_are_complete_spans {J : Type} (parse : Str → Option J) (fileKey : FileKey)
    (text : Str) :
    (∀ e ∈ (scanJson parse fileKey text).1,
      ∃ (a span b : Str) (item : J), text = a ++ span ++ b ∧ parse span = some item ∧
        e = Event.data fileKey (Payload.json item) ∧ BalancedSpan span) ∧
    (∀ e ∈ drainJson parse fileKey text,
      ∃ (a span b : Str) (item : J), text = a ++ span ++ b ∧ parse span = some item ∧
        e = Event.data fileKey (Payload.json item) ∧ BalancedSpan span) ∧
    (scanJson parse fileKey ['{', '"', 'a', '"', ':', '1']).1 = [] ∧
    drainJson parse fileKey ['{', '"', 'a', '"', ':', '1'] = [] := by
  refine ⟨?_, ?_, ?_, ?_⟩
  · exact scanFrom_balanced parse fileKey text [] text 0 ScanState.init (by simp) (by simp)
      (openSpan_init [])
  · exact drainFrom_balanced parse fileKey text [] text 0 ScanState.init (by simp) (by simp)
      (openSpan_init [])
  · simp [scanJson, scanLoop]
  · simp [drainJson, drainLoop]

/-- Witness for C5: the text `{"a":1}` with a parser that accepts everything. -/
theorem json_records_are_complete_spans_witness :
    ∃ (a span b : Str) (item : Nat), ['{', '"', 'a', '"', ':', '1', '}'] = a ++ span ++ b ∧
      (fun _ => some 7 : Str → Option Nat) span = some item ∧
      Event.data FileKey.comments (Payload.json 7) = Event.data FileKey.comments (Payload.json item) ∧
      BalancedSpan span :=
  (json_records_are_complete_spans (fun _ => some 7) FileKey.comments
    ['{', '"', 'a', '"', ':', '1', '}']).1 (Event.data FileKey.comments (Payload.json 7))
    (by decide)

/-- C2: for object texts of the JSON grammar that the parser accepts (nested
objects and braces, escaped quotes and escaped backslashes inside strings
included), the scan of their concatenation with nothing in between writes
exactly their parses, in order, each once, and the buffer kept is empty. -/
theorem concatenated_objects_scanned {J : Type} (parse : Str → Option J) (fileKey : FileKey)
    (objs : List (Str × J))
    (h : ∀ p ∈ objs, JsonText Kind.object p.1 ∧ parse p.1 = some p.2) :
    scanJson parse fileKey (objs.map Prod.fst).flatten
      = (objs.map (fun p => Event.data fileKey (Payload.json p.2)), []) :=
  scanJson_concat parse fileKey objs h

/-- Witness for C2: `{"a": "x}y"}` directly followed by `{"b":{"c":"\"\\{"}}`. -/
theorem concatenated_objects_scanned_witness :
    scanJson sampleParse FileKey.comments
        ([(sampleBraceInString, 1), (sampleNested, 2)].map Prod.fst).flatten
      = ([(sampleBraceInString, 1), (sampleNested, 2)].map
          (fun p => Event.data FileKey.comments (Payload.json p.2)), []) :=
  concatenated_objects_scanned sampleParse FileKey.comments
    [(sampleBraceInString, 1), (sampleNested, 2)]
    (by
      intro p hp
      simp only [List.mem_cons, List.mem_singleton, List.not_mem_nil, or_false] at hp
      rcases hp with rfl | rfl
      · exact ⟨sampleBraceInString_object, by decide⟩
      · exact ⟨sampleNested_object, by decide⟩)

/-- C8: for a key with no read in progress whose file is not larger than the
stored offset, the interval callback does nothing for that key (the session
is returned as it was), and any number of whole ticks over such files writes
no event, leaves the stored offsets as they were, leaves the key unmarked and
opens no stream for it. -/
theorem tick_without_growth_is_silent {J : Type} (fs : Files) (s : Session J) (key : FileKey)
    (hidle : s.fileStreams key = false)
    (hsize : ∀ content, fs key = some content →
      byteLength content ≤ (s.filePositions key).getD 0) :
    tickFile fs s key = s ∧
    ∀ n : Nat,
      (Nat.iterate (tick fs) n s).written = s.written ∧
      (Nat.iterate (tick fs) n s).filePositions = s.filePositions ∧
      (Nat.iterate (tick fs) n s).fileStreams key = false ∧
      (Nat.iterate (tick fs) n s).streams key = s.streams key := by
  constructor
  · unfold tickFile
    cases hk : fs key with
    | none => rfl
    | some content =>
      have := hsize content hk
      simp only [hidle, Bool.not_false, Bool.and_true, decide_eq_true_eq]
      rw [if_neg (by omega)]
  · intro n
    obtain ⟨h1, h2, h3, h4⟩ := tick_iterate_sameFor fs key n s hidle hsize
    exact ⟨h1, h2, h3.trans hidle, h4⟩

/-- Witness for C8: ticks after the read of `alice\n` has ended at offset 6. -/
theorem tick_without_growth_is_silent_witness :
    tickFile sampleFiles sampleSession FileKey.postid = sampleSession ∧
    ∀ n : Nat,
      (Nat.iterate (tick sampleFiles) n sampleSession).written = sampleSession.written ∧
      (Nat.iterate (tick sampleFiles) n sampleSession).filePositions
        = sampleSession.filePositions ∧
      (Nat.iterate (tick sampleFiles) n sampleSession).fileStreams FileKey.postid = false ∧
      (Nat.iterate (tick sampleFiles) n sampleSession).streams FileKey.postid
        = sampleSession.streams FileKey.postid :=
  tick_without_growth_is_silent sampleFiles sampleSession FileKey.postid (by decide)
    (by
      intro content hc
      have : content = ['a', 'l', 'i', 'c', 'e', '\n'] := by
        simpa [sampleFiles] using hc.symm
      subst this
      decide)

/-- C10: when the worker's `close` handler runs with code `c`, the update sets
the status to `completed` if `c` is 0 and to `failed` otherwise, sets the end
time, and sets an error, "Process exited with code c", exactly when `c` is not
0; the `complete` event written by the final read is the last event, carries
`c`, and has the message 'Scraping completed successfully' if `c` is 0 and
'Scraping failed' otherwise, so the status is `completed` exactly when the
event's message is the success message. -/
theorem exit_outcome_agrees {J : Type} (parse : Str → Option J) (fs : Files) (s : Session J)
    (code : ExitCode) (now : Nat) (hopen : s.workerClosed = false) :
    (processClose s code now).job.status
        = (if code = some 0 then JobStatus.completed else JobStatus.failed) ∧
    (processClose s code now).job.endTime = some now ∧
    ((exitUpdate code now).error.isSome ↔ code ≠ some 0) ∧
    (code ≠ some 0 →
      (processClose s code now).job.error
        = some ("Process exited with code " ++ codeText code)) ∧
    (code = some 0 → (processClose s code now).job.error = s.job.error) ∧
    (finalRead parse fs (processClose s code now)).written.getLast?
        = some (Event.complete code
            (if code = some 0 then "Scraping completed successfully" else "Scraping failed")) ∧
    ((processClose s code now).job.status = JobStatus.completed ↔
      (completeEvent code : Event J) = Event.complete code "Scraping completed successfully") := by
  have hpend : (processClose s code now).finalReadPending = some code := by
    simp [processClose, hopen]
  refine ⟨?_, ?_, ?_, ?_, ?_, ?_, ?_⟩
  · simp [processClose, hopen, Job.update, exitUpdate]
  · simp [processClose, hopen, Job.update, exitUpdate]
  · by_cases hc : code = some 0 <;> simp [exitUpdate, hc]
  · intro hc
    simp [processClose, hopen, Job.update, exitUpdate, hc]
  · intro hc
    simp [processClose, hopen, Job.update, exitUpdate, hc]
  · rw [finalRead_written parse fs _ code hpend]
    simp [completeEvent]
  · by_cases hc : code = some 0 <;>
      simp [processClose, hopen, Job.update, exitUpdate, completeEvent, hc]

/-- Witness for C10: exit code 1 at time 9 in a fresh session. -/
theorem exit_outcome_agrees_witness :
    (processClose (Session.start ['u'] ['o'] 0 : Session Unit) (some 1) 9).job.status
        = (if (some 1 : ExitCode) = some 0 then JobStatus.completed else JobStatus.failed) ∧
    (processClose (Session.start ['u'] ['o'] 0 : Session Unit) (some 1) 9).job.endTime = some 9 ∧
    ((exitUpdate (some 1) 9).error.isSome ↔ (some 1 : ExitCode) ≠ some 0) ∧
    ((some 1 : ExitCode) ≠ some 0 →
      (processClose (Session.start ['u'] ['o'] 0 : Session Unit) (some 1) 9).job.error
        = some ("Process exited with code " ++ codeText (some 1))) ∧
    ((some 1 : ExitCode) = some 0 →
      (processClose (Session.start ['u'] ['o'] 0 : Session Unit) (some 1) 9).job.error
        = (Session.start ['u'] ['o'] 0 : Session Unit).job.error) ∧
    (finalRead (fun _ => none) (fun _ => none)
        (processClose (Session.start ['u'] ['o'] 0 : Session Unit) (some 1) 9)).written.getLast?
        = some (Event.complete (some 1)
            (if (some 1 : ExitCode) = some 0 then "Scraping completed successfully"
              else "Scraping failed")) ∧
    ((processClose (Session.start ['u'] ['o'] 0 : Session Unit) (some 1) 9).job.status
        = JobStatus.completed ↔
      (completeEvent (some 1) : Event Unit)
        = Event.complete (some 1) "Scraping completed successfully") :=
  exit_outcome_agrees (fun _ => none) (fun _ => none) (Session.start ['u'] ['o'] 0) (some 1) 9 rfl

/-- C1 (the code departs from it): over two reads, the first ending inside the
line `bob`, the events are `alice` and `b`, while one pass over the whole
content gives `alice` and `bob`; the first read stores offset 8, past the
two bytes `bo` that it kept in its buffer and wrote nowhere. -/
theorem straddling_line_is_cut_in_two :
    (run (fun _ => none) (Session.start ['u'] ['o'] 0 : Session Unit) straddlingReads).written
      = [Event.connected "Streaming started",
         Event.data FileKey.postid (Payload.text ['a', 'l', 'i', 'c', 'e']),
         Event.data FileKey.postid (Payload.text ['b'])] ∧
    (textOnData FileKey.postid [] ['a', 'l', 'i', 'c', 'e', '\n', 'b', 'o', 'b', '\n']
        : List (Event Unit) × Str).1
      = [Event.data FileKey.postid (Payload.text ['a', 'l', 'i', 'c', 'e']),
         Event.data FileKey.postid (Payload.text ['b', 'o', 'b'])] ∧
    (run (fun _ => none) (Session.start ['u'] ['o'] 0 : Session Unit)
        (straddlingReads.take 3)).filePositions FileKey.postid = some 8 ∧
    (textOnData FileKey.postid [] ['a', 'l', 'i', 'c', 'e', '\n', 'b', 'o']
        : List (Event Unit) × Str).2 = ['b', 'o'] := by
  decide

/-- C6 (the code departs from it): with the stored offset 3 after the three
bytes of `é\n`, the final read of `é\nx\n` scans `slice(3)`, the single line
feed, while the content from byte 3 is `x\n`; no event is written for `x`,
and the offset is set to the size 5. -/
theorem final_read_slices_by_code_unit :
    byteLength ['é', '\n'] = 3 ∧
    jsSlice ['é', '\n', 'x', '\n'] 3 = ['\n'] ∧
    readFrom ['é', '\n', 'x', '\n'] 3 = ['x', '\n'] ∧
    (run (fun _ => none) (Session.start ['u'] ['o'] 0 : Session Unit) multibyteFinalRead).written
      = [Event.connected "Streaming started",
         Event.data FileKey.postid (Payload.text ['é']),
         Event.complete (some 0) "Scraping completed successfully"] ∧
    (run (fun _ => none) (Session.start ['u'] ['o'] 0 : Session Unit)
        multibyteFinalRead).filePositions FileKey.postid = some 5 := by
  decide

/-- C7 (the code departs from it): when a scheduler read is still open at the
final read, the chunk it delivers afterwards is passed to `res.write` after the
`complete` event and after `res.end()`, which was called with three events
written. -/
theorem data_written_after_complete :
    (run (fun _ => none) (Session.start ['u'] ['o'] 0 : Session Unit) lateChunk).written
      = [Event.connected "Streaming started",
         Event.data FileKey.postid (Payload.text ['a']),
         Event.complete (some 0) "Scraping completed successfully",
         Event.data FileKey.postid (Payload.text ['a'])] ∧
    (run (fun _ => none) (Session.start ['u'] ['o'] 0 : Session Unit) lateChunk).endedAt
      = some 3 := by
  decide

/-- C9 (the code departs from it): the final read stores offset 4 while a
scheduler read that started at 0 and read 2 bytes is still open; the `end`
handler of that read then stores 2. -/
theorem offset_rewound_by_late_end :
    (run (fun _ => none) (Session.start ['u'] ['o'] 0 : Session Unit)
        finalReadBeforeEnd).filePositions FileKey.postid = some 4 ∧
    (run (fun _ => none) (Session.start ['u'] ['o'] 0 : Session Unit)
        (finalReadBeforeEnd ++ [Action.streamEnd FileKey.postid])).filePositions FileKey.postid
      = some 2 := by
  decide

/-- Counterexample for C11: after the request closes with only `connected`
written, the open read writes `a`, and the final read of the killed worker
writes `b` and the `complete` event. -/
theorem events_written_after_disconnect :
    (run (fun _ => none) (Session.start ['u'] ['o'] 0 : Session Unit)
        (disconnectThenExit.take 2)).written = [Event.connected "Streaming started"] ∧
    (run (fun _ => none) (Session.start ['u'] ['o'] 0 : Session Unit)
        disconnectThenExit).written
      = [Event.connected "Streaming started",
         Event.data FileKey.postid (Payload.text ['a']),
         Event.data FileKey.postid (Payload.text ['b']),
         Event.complete none "Scraping failed"] := by
  decide

/-- C11 (amended): after the request's `close` handler has run, the interval
stays cleared whatever callbacks run next, so a tick changes nothing: it
starts no read and writes no event.  (Open reads, the worker's output
handlers and the final read are not stopped.) -/
theorem no_tick_after_disconnect {J : Type} (parse : Str → Option J) (s : Session J)
    (actions : List Action) (fs : Files) :
    (run parse (requestClose s) actions).monitoring = false ∧
    tick fs (run parse (requestClose s) actions) = run parse (requestClose s) actions := by
  have h := run_monitoring_false parse actions (requestClose s) rfl
  exact ⟨h, by simp [tick, h]⟩

/-- C12 (the code departs from it): the request closes during the run and the
killed worker's `close` handler runs with code `null`; the job ends `failed`
with the error "Process exited with code null". -/
theorem disconnect_error_overwritten :
    (run (fun _ => none) (Session.start ['u'] ['o'] 0 : Session Unit)
        [Action.requestClose]).job.error = some "Client disconnected" ∧
    (run (fun _ => none) (Session.start ['u'] ['o'] 0 : Session Unit)
        [Action.requestClose, Action.processClose none 5]).job.status = JobStatus.failed ∧
    (run (fun _ => none) (Session.start ['u'] ['o'] 0 : Session Unit)
        [Action.requestClose, Action.processClose none 5]).job.error
      = some "Process exited with code null" := by
  decide

/-- C13 (the code departs from it): the worker exits with code 0 and the job is
`completed` with no error; when the request closes after the response was
ended, the job becomes `failed` with the error "Client disconnected". -/
theorem completed_job_marked_failed :
    (run (fun _ => none) (Session.start ['u'] ['o'] 0 : Session Unit)
        (closeAfterCompletion.take 2)).job.status = JobStatus.completed ∧
    (run (fun _ => none) (Session.start ['u'] ['o'] 0 : Session Unit)
        (closeAfterCompletion.take 2)).job.error = none ∧
    (run (fun _ => none) (Session.start ['u'] ['o'] 0 : Session Unit)
        (closeAfterCompletion.take 2)).endedAt = some 2 ∧
    (run (fun _ => none) (Session.start ['u'] ['o'] 0 : Session Unit)
        closeAfterCompletion).job.status = JobStatus.failed ∧
    (run (fun _ => none) (Session.start ['u'] ['o'] 0 : Session Unit)
        closeAfterCompletion).job.error = some "Client disconnected" := by
  decide

/-- Counterexample for C18: an empty `postid` file exists at a tick and at the
final read, and a `postid` file that appears after the last tick is read by
the final read (its line `a` is written); in both sessions the job record's
`files.postid` is never set. -/
theorem file_path_not_recorded :
    (run (fun _ => none) (Session.start ['u'] ['o'] 0 : Session Unit)
        emptyFileSession).job.files FileKey.postid = none ∧
    (run (fun _ => none) (Session.start ['u'] ['o'] 0 : Session Unit)
        emptyFileSession).endedAt = some 2 ∧
    (run (fun _ => none) (Session.start ['u'] ['o'] 0 : Session Unit)
        foundByFinalRead).written
      = [Event.connected "Streaming started",
         Event.data FileKey.postid (Payload.text ['a']),
         Event.complete (some 0) "Scraping completed successfully"] ∧
    (run (fun _ => none) (Session.start ['u'] ['o'] 0 : Session Unit)
        foundByFinalRead).job.files FileKey.postid = none := by
  decide

/-- C18 (amended): when a tick finds the file of a key to hold more bytes than
the stored offset while no read of the key is in progress, the job record's
`files.<key>` is set to that file's path by that tick and stays so for the
rest of the session. -/
theorem grown_file_path_recorded {J : Type} (parse : Str → Option J) (fs : Files)
    (s : Session J) (key : FileKey) (content : Str) (actions : List Action)
    (hmon : s.monitoring = true) (hidle : s.fileStreams key = false)
    (hfile : fs key = some content)
    (hgrown : (s.filePositions key).getD 0 < byteLength content) :
    (run parse (tick fs s) actions).job.files key
      = some (filePath s.outputDir s.username key) := by
  obtain ⟨_, _, hpath⟩ := tick_opens fs s key content hmon hidle hfile hgrown
  obtain ⟨_, _, _, ho, hu⟩ := tick_frame fs s
  exact (run_fileRecorded parse s.outputDir s.username key actions (tick fs s)
    ⟨ho, hu, hpath⟩).2.2

/-- Witness for C18: a tick sees `alice\n` in the `postid` file of a fresh
session; the worker then exits and the final read runs. -/
theorem grown_file_path_recorded_witness :
    (run (fun _ => none) (tick sampleFiles (Session.start ['u'] ['o'] 0 : Session Unit))
        [Action.processClose (some 0) 5, Action.finalRead sampleFiles]).job.files FileKey.postid
      = some (filePath (Session.start ['u'] ['o'] 0 : Session Unit).outputDir
          (Session.start ['u'] ['o'] 0 : Session Unit).username FileKey.postid) :=
  grown_file_path_recorded (fun _ => none) sampleFiles (Session.start ['u'] ['o'] 0)
    FileKey.postid ['a', 'l', 'i', 'c', 'e', '\n']
    [Action.processClose (some 0) 5, Action.finalRead sampleFiles]
    rfl rfl rfl (by decide)

/-- C19: when `ScrapeResult.create` rejects or the start of the worker throws,
the events written are `connected` followed by one `error` event, `res.end()`
is called right after it, and no `complete`, `data` or `log` event is among
them; no handler of the session is attached, so nothing is written later. -/
theorem failed_start_writes_one_error {J : Type} (username outputDir : Str) (startTime : Nat)
    (outcome : StartOutcome) (huser : username.isEmpty = false)
    (hfail : outcome ≠ StartOutcome.started) :
    ∃ written : List (Event J),
      (postStart username outputDir startTime outcome : Started J)
        = Started.failed written written.length ∧
      written = [Event.connected "Streaming started",
        Event.error "Failed to start scraping process".toList] ∧
      ∀ e ∈ written.drop 1,
        (∃ m, e = Event.error m) ∧ (∀ c m, e ≠ Event.complete c m) ∧
        (∀ k d, e ≠ Event.data k d) ∧ (∀ m, e ≠ Event.log m) := by
  refine ⟨[Event.connected "Streaming started",
    Event.error "Failed to start scraping process".toList], ?_, rfl, ?_⟩
  · cases outcome with
    | createRejects => simp [postStart, huser]
    | startThrows => simp [postStart, huser]
    | started => exact absurd rfl hfail
  · intro e he
    simp only [List.drop_succ_cons, List.drop_zero, List.mem_singleton] at he
    subst he
    exact ⟨⟨_, rfl⟩, by simp, by simp, by simp⟩

/-- Witness for C19: the username `u` and a rejected `create`. -/
theorem failed_start_writes_one_error_witness :
    ∃ written : List (Event Unit),
      (postStart ['u'] ['o'] 0 StartOutcome.createRejects : Started Unit)
        = Started.failed written written.length ∧
      written = [Event.connected "Streaming started",
        Event.error "Failed to start scraping process".toList] ∧
      ∀ e ∈ written.drop 1,
        (∃ m, e = Event.error m) ∧ (∀ c m, e ≠ Event.complete c m) ∧
        (∀ k d, e ≠ Event.data k d) ∧ (∀ m, e ≠ Event.log m) :=
  failed_start_writes_one_error ['u'] ['o'] 0 StartOutcome.createRejects rfl (by decide)

/-- C20: in each of the three routes on one result, the result is returned,
the file's text is sent, or the result is deleted only when the stored
owner equals the requesting user; a missing result gives 404 whoever asks; a
result of another user gives 403 and is not deleted. -/
theorem result_routes_check_owner (lookup : Lookup) (reqUser fileKey : String)
    (disk : Str → Option Str) (deleteThrows : Bool) :
    (∀ data, getResult lookup reqUser = Reply.result data →
      lookup = Lookup.found data ∧ data.user = reqUser) ∧
    (∀ content, getFile lookup reqUser fileKey disk = Reply.fileContent content →
      ∃ r, lookup = Lookup.found r ∧ r.user = reqUser) ∧
    ((deleteResult lookup reqUser deleteThrows).2 = true →
      ∃ r, lookup = Lookup.found r ∧ r.user = reqUser) ∧
    (lookup = Lookup.missing →
      (getResult lookup reqUser).status = 404 ∧
      (getFile lookup reqUser fileKey disk).status = 404 ∧
      (deleteResult lookup reqUser deleteThrows).1.status = 404 ∧
      (deleteResult lookup reqUser deleteThrows).2 = false) ∧
    (∀ r, lookup = Lookup.found r → r.user ≠ reqUser →
      (getResult lookup reqUser).status = 403 ∧
      (getFile lookup reqUser fileKey disk).status = 403 ∧
      (deleteResult lookup reqUser deleteThrows).1.status = 403 ∧
      (deleteResult lookup reqUser deleteThrows).2 = false) := by
  refine ⟨?_, ?_, ?_, ?_, ?_⟩
  · intro data h
    cases lookup with
    | throws => simp [getResult] at h
    | missing => simp [getResult] at h
    | found r =>
      by_cases hu : r.user = reqUser
      · simp only [getResult, hu, ne_eq, not_true_eq_false, ↓reduceIte, Reply.result.injEq] at h
        subst h
        exact ⟨rfl, hu⟩
      · simp [getResult, hu] at h
  · intro content h
    cases lookup with
    | throws => simp [getFile] at h
    | missing => simp [getFile] at h
    | found r =>
      by_cases hu : r.user = reqUser
      · exact ⟨r, rfl, hu⟩
      · simp [getFile, hu] at h
  · intro h
    cases lookup with
    | throws => simp [deleteResult] at h
    | missing => simp [deleteResult] at h
    | found r =>
      by_cases hu : r.user = reqUser
      · exact ⟨r, rfl, hu⟩
      · simp [deleteResult, hu] at h
  · intro h
    subst h
    simp [getResult, getFile, deleteResult, Reply.status]
  · intro r h hu
    subst h
    simp [getResult, getFile, deleteResult, Reply.status, hu]

/-- Witness for C20: the user `bob` asks for the result of `alice`. -/
theorem result_routes_check_owner_witness :
    (getResult (Lookup.found sampleResult) "bob").status = 403 ∧
    (getFile (Lookup.found sampleResult) "bob" "postid" (fun _ => none)).status = 403 ∧
    (deleteResult (Lookup.found sampleResult) "bob" false).1.status = 403 ∧
    (deleteResult (Lookup.found sampleResult) "bob" false).2 = false :=
  (result_routes_check_owner (Lookup.found sampleResult) "bob" "postid" (fun _ => none)
    false).2.2.2.2 sampleResult rfl (by decide)

/-- C14: for a text file that holds `prev` when the stored offset is its byte
length, and that grows by whole newline-terminated lines between ticks, each
tick's read running to its end in any chunks before the next tick, the events
written over all rounds are the trimmed non-blank appended lines in file
order, each once, and the stored offset at the end is the byte length of the
whole file. -/
theorem whole_lines_read_once {J : Type} (parse : Str → Option J) (key : FileKey)
    (s : Session J) (prev : Str) (rounds : List Round)
    (htext : fileExtension key ≠ ".json".toList)
    (hmon : s.monitoring = true) (hmark : s.fileStreams key = false)
    (hnone : s.streams key = none)
    (hoff : (s.filePositions key).getD 0 = byteLength prev)
    (hgrows : Grows key prev rounds) :
    (run parse s (roundsActions key rounds)).written
      = s.written ++ lineEvents key (allLines rounds) ∧
    ((run parse s (roundsActions key rounds)).filePositions key).getD 0
      = byteLength (prev ++ linesBlock (allLines rounds)) := by
  obtain ⟨h1, h2⟩ := rounds_read parse key htext rounds s prev ⟨hmon, hmark, hnone, hoff⟩ hgrows
  exact ⟨h2, h1.2.2.2⟩

/-- Witness for C14: `alice\n` then `bob\n` in the `postid` file of a fresh
session gives `alice`, `bob` and offset 10. -/
theorem whole_lines_read_once_witness :
    ((run (fun _ => none) (Session.start ['u'] ['o'] 0 : Session Unit)
        (roundsActions FileKey.postid aliceBobRounds)).written
      = (Session.start ['u'] ['o'] 0 : Session Unit).written
        ++ lineEvents FileKey.postid (allLines aliceBobRounds) ∧
    ((run (fun _ => none) (Session.start ['u'] ['o'] 0 : Session Unit)
        (roundsActions FileKey.postid aliceBobRounds)).filePositions FileKey.postid).getD 0
      = byteLength ([] ++ linesBlock (allLines aliceBobRounds))) ∧
    (Session.start ['u'] ['o'] 0 : Session Unit).written
        ++ lineEvents FileKey.postid (allLines aliceBobRounds)
      = [Event.connected "Streaming started",
         Event.data FileKey.postid (Payload.text ['a', 'l', 'i', 'c', 'e']),
         Event.data FileKey.postid (Payload.text ['b', 'o', 'b'])] ∧
    byteLength ([] ++ linesBlock (allLines aliceBobRounds)) = 10 :=
  ⟨whole_lines_read_once (fun _ => none) FileKey.postid (Session.start ['u'] ['o'] 0) []
      aliceBobRounds (by decide) rfl rfl rfl rfl
      ⟨by decide, rfl, by decide, by decide, rfl, by decide, trivial⟩,
    by decide, by decide⟩

/-- C16: when a scheduler read of a key is opened by a tick, delivers any
chunks and then fails with a stream error, the stored offset of the key is
what it was before the read and the key is unmarked; a later tick that finds
the file larger than that offset opens a read from the same offset. -/
theorem failed_read_is_retried {J : Type} (parse : Str → Option J) (s : Session J)
    (key : FileKey) (fs fs2 : Files) (content content2 : Str) (chunks : List Str)
    (hmon : s.monitoring = true) (hmark : s.fileStreams key = false)
    (hfile : fs key = some content)
    (hgrown : (s.filePositions key).getD 0 < byteLength content)
    (hfile2 : fs2 key = some content2)
    (hgrown2 : (s.filePositions key).getD 0 < byteLength content2) :
    (run parse s (Action.tick fs :: (chunks.map (Action.streamData key)
        ++ [Action.streamError key]))).filePositions key = s.filePositions key ∧
    (run parse s (Action.tick fs :: (chunks.map (Action.streamData key)
        ++ [Action.streamError key]))).fileStreams key = false ∧
    (tick fs2 (run parse s (Action.tick fs :: (chunks.map (Action.streamData key)
        ++ [Action.streamError key])))).streams key
      = some ⟨(s.filePositions key).getD 0, [], 0⟩ ∧
    (tick fs2 (run parse s (Action.tick fs :: (chunks.map (Action.streamData key)
        ++ [Action.streamError key])))).fileStreams key = true := by
  obtain ⟨_, t2, t3, _, _⟩ := tick_frame fs s
  obtain ⟨o1, _, _⟩ := tick_opens fs s key content hmon hmark hfile hgrown
  obtain ⟨⟨f1, f2, f3⟩, st', hst', _⟩ := streamData_keeps parse key chunks (tick fs s) _ o1
  have hrun : run parse s (Action.tick fs :: (chunks.map (Action.streamData key)
        ++ [Action.streamError key]))
      = streamOnError (run parse (tick fs s) (chunks.map (Action.streamData key))) key := by
    rw [run_cons_action, run_append_actions]
    rfl
  rw [hrun]
  have hpos : (streamOnError (run parse (tick fs s) (chunks.map (Action.streamData key)))
      key).filePositions = s.filePositions := by
    simp only [streamOnError, hst']
    exact f1.trans t2
  have hmark2 : (streamOnError (run parse (tick fs s) (chunks.map (Action.streamData key)))
      key).fileStreams key = false := by
    simp [streamOnError, hst']
  have hmon2 : (streamOnError (run parse (tick fs s) (chunks.map (Action.streamData key)))
      key).monitoring = true := by
    simp only [streamOnError, hst']
    exact f3.trans (t3.trans hmon)
  obtain ⟨r1, r2, _⟩ := tick_opens fs2 _ key content2 hmon2 hmark2 hfile2
    (by rw [hpos]; exact hgrown2)
  rw [hpos] at r1
  exact ⟨by rw [hpos], hmark2, r1, r2⟩

/-- Witness for C16: a read of `alice\n` in a fresh session delivers its chunk
and then fails. -/
theorem failed_read_is_retried_witness :
    (run (fun _ => none) (Session.start ['u'] ['o'] 0 : Session Unit)
        (Action.tick sampleFiles :: ([['a', 'l', 'i', 'c', 'e', '\n']].map
          (Action.streamData FileKey.postid)
          ++ [Action.streamError FileKey.postid]))).filePositions FileKey.postid
      = (Session.start ['u'] ['o'] 0 : Session Unit).filePositions FileKey.postid ∧
    (run (fun _ => none) (Session.start ['u'] ['o'] 0 : Session Unit)
        (Action.tick sampleFiles :: ([['a', 'l', 'i', 'c', 'e', '\n']].map
          (Action.streamData FileKey.postid)
          ++ [Action.streamError FileKey.postid]))).fileStreams FileKey.postid = false ∧
    (tick sampleFiles (run (fun _ => none) (Session.start ['u'] ['o'] 0 : Session Unit)
        (Action.tick sampleFiles :: ([['a', 'l', 'i', 'c', 'e', '\n']].map
          (Action.streamData FileKey.postid)
          ++ [Action.streamError FileKey.postid])))).streams FileKey.postid
      = some ⟨((Session.start ['u'] ['o'] 0 : Session Unit).filePositions FileKey.postid).getD 0,
          [], 0⟩ ∧
    (tick sampleFiles (run (fun _ => none) (Session.start ['u'] ['o'] 0 : Session Unit)
        (Action.tick sampleFiles :: ([['a', 'l', 'i', 'c', 'e', '\n']].map
          (Action.streamData FileKey.postid)
          ++ [Action.streamError FileKey.postid])))).fileStreams FileKey.postid = true :=
  failed_read_is_retried (fun _ => none) (Session.start ['u'] ['o'] 0) FileKey.postid
    sampleFiles sampleFiles ['a', 'l', 'i', 'c', 'e', '\n'] ['a', 'l', 'i', 'c', 'e', '\n']
    [['a', 'l', 'i', 'c', 'e', '\n']] rfl rfl rfl (by decide) rfl (by decide)

/-- C17: in every state the scheduler reaches, each key has at most one open
read stream, and the key is marked in `fileStreams` exactly while that stream
is open; a tick creates a stream only for a key that was unmarked and marks it
in the same callback, before any chunk can be delivered; and a mark is removed
only by the `end` or `error` handler of the open stream of that key. -/
theorem one_read_per_key (actions : List SchedulerAction) (key : FileKey) :
    ((Scheduler.init.run actions).reads.filter (fun r => r.fileKey = key)).length ≤ 1 ∧
    ((Scheduler.init.run actions).fileStreams key = true ↔
      ∃ r ∈ (Scheduler.init.run actions).reads, r.fileKey = key) ∧
    (∀ (fs : Files) (r : OpenRead), r ∈ ((Scheduler.init.run actions).tick fs).reads →
      r ∉ (Scheduler.init.run actions).reads →
      (Scheduler.init.run actions).fileStreams r.fileKey = false ∧
      ((Scheduler.init.run actions).tick fs).fileStreams r.fileKey = true) ∧
    (∀ a : SchedulerAction, (Scheduler.init.run actions).fileStreams key = true →
      ((Scheduler.init.run actions).step a).fileStreams key = false →
      ∃ (id : Nat) (r : OpenRead),
        (a = SchedulerAction.streamEnd id ∨ a = SchedulerAction.streamError id) ∧
        r ∈ (Scheduler.init.run actions).reads ∧ r.id = id ∧ r.fileKey = key) := by
  have hinv := Scheduler.inv_run actions Scheduler.init Scheduler.inv_init
  refine ⟨pairwise_keys_count _ key hinv.2.1, hinv.2.2 key, ?_, ?_⟩
  · intro fs r hr hnew
    have hinv2 : ((Scheduler.init.run actions).tick fs).Inv :=
      Scheduler.inv_step _ (SchedulerAction.tick fs) hinv
    refine ⟨?_, (hinv2.2.2 r.fileKey).mpr ⟨r, hr, rfl⟩⟩
    unfold Scheduler.tick at hr
    split at hr
    · exact Scheduler.tickFile_fold_new_read fs _ _ r hr hnew
    · exact absurd hr hnew
  · intro a hmarked hafter
    exact Scheduler.unmark_only_by_own_read _ a key hmarked hafter

/-- Witness for C17: after a tick that opens a read of the `postid` file, a
second tick over the same file opens no further read. -/
theorem one_read_per_key_witness :
    ((Scheduler.init.run [SchedulerAction.tick sampleFiles,
        SchedulerAction.tick sampleFiles]).reads.filter
      (fun r => r.fileKey = FileKey.postid)).length ≤ 1 ∧
    (Scheduler.init.run [SchedulerAction.tick sampleFiles,
        SchedulerAction.tick sampleFiles]).reads = [⟨0, FileKey.postid, 0, 0⟩] :=
  ⟨(one_read_per_key [SchedulerAction.tick sampleFiles, SchedulerAction.tick sampleFiles]
      FileKey.postid).1, by decide⟩

/-- C15: when the buffer holds a candidate span (a complete brace span met at
depth 0 outside a string) that the parser rejects, the events written are
those written for the buffer without that span, so nothing is written for it
and every object behind it is written in order; this holds for the
incremental scanner and for the final-read scanner. -/
theorem rejected_span_is_skipped {J : Type} (parse : Str → Option J) (fileKey : FileKey)
    (pre bad post : Str)
    (hpre : (lexSpan pre).opens = (lexSpan pre).closes ∧ (lexSpan pre).inString = false ∧
      (lexSpan pre).escapeNext = false)
    (hbad : CandidateSpan bad) (hrej : parse bad = none) :
    (scanJson parse fileKey (pre ++ bad ++ post)).1
      = (scanJson parse fileKey (pre ++ post)).1 ∧
    drainJson parse fileKey (pre ++ bad ++ post) = drainJson parse fileKey (pre ++ post) := by
  have h := scanJson_rejected_span parse fileKey pre bad post hpre hbad hrej
  exact ⟨h, by rw [drainJson_eq_scanJson, drainJson_eq_scanJson, h]⟩

/-- Witness for C15: `{"a":1}{x}{"b":2}` with a parser that rejects `{x}`: both
scanners write the two objects, as for `{"a":1}{"b":2}`. -/
theorem rejected_span_is_skipped_witness :
    ((scanJson sampleParseTwo FileKey.comments
        (sampleFirst ++ sampleRejected ++ sampleSecond)).1
      = (scanJson sampleParseTwo FileKey.comments (sampleFirst ++ sampleSecond)).1 ∧
    drainJson sampleParseTwo FileKey.comments (sampleFirst ++ sampleRejected ++ sampleSecond)
      = drainJson sampleParseTwo FileKey.comments (sampleFirst ++ sampleSecond)) ∧
    drainJson sampleParseTwo FileKey.comments (sampleFirst ++ sampleRejected ++ sampleSecond)
      = [Event.data FileKey.comments (Payload.json 1),
         Event.data FileKey.comments (Payload.json 2)] :=
  ⟨rejected_span_is_skipped sampleParseTwo FileKey.comments sampleFirst sampleRejected
      sampleSecond (by decide) sampleRejected_candidate (by decide),
    by decide⟩

/-- C21 (the code departs from it): with the prefix `}` in front of
`{"a":1}`, neither scanner writes the object that both write for `{"a":1}`
alone: the `}` takes the depth to -1, the `{` brings it to 0 without setting
`objectStart`, and the closing `}` takes it to -1 again. -/
theorem stray_closing_brace_hides_object :
    (scanJson sampleParseTwo FileKey.comments sampleFirst).1
      = [Event.data FileKey.comments (Payload.json 1)] ∧
    (scanJson sampleParseTwo FileKey.comments ('}' :: sampleFirst)).1 = [] ∧
    drainJson sampleParseTwo FileKey.comments sampleFirst
      = [Event.data FileKey.comments (Payload.json 1)] ∧
    drainJson sampleParseTwo FileKey.comments ('}' :: sampleFirst) = [] := by
  decide

/-- Counterexample for C22: a backslash outside any string in front of
`{"a":1}` makes both scanners skip the `{`, so the depth stays 0 after it and
no object is written; in front of a `"` it keeps the in-string flag off. -/
theorem backslash_outside_string_swallows :
    (ScanState.init.run 0 ['\\', '{']).braceCount = 0 ∧
    (ScanState.init.run 0 ['{']).braceCount = 1 ∧
    (ScanState.init.run 0 ['\\', '"']).inString = false ∧
    (ScanState.init.run 0 ['"']).inString = true ∧
    (scanJson sampleParseTwo FileKey.comments ('\\' :: sampleFirst)).1 = [] ∧
    drainJson sampleParseTwo FileKey.comments ('\\' :: sampleFirst) = [] ∧
    (scanJson sampleParseTwo FileKey.comments sampleFirst).1
      = [Event.data FileKey.comments (Payload.json 1)] := by
  decide

/-- C22 (amended): in both scanners the escape flag acts inside and outside a
string alike: a backslash met with no escape pending, and the character that
follows it, are passed over with the depth, `objectStart` and the in-string
flag unchanged, whatever that character is. -/
theorem backslash_skips_next_everywhere {J : Type} (parse : Str → Option J) (fileKey : FileKey)
    (d : Char) (rest text : Str) (i : Nat) (σ : ScanState) (hesc : σ.escapeNext = false) :
    scanFrom parse fileKey ('\\' :: d :: rest) text i σ
      = scanFrom parse fileKey rest text (i + 2) σ ∧
    drainFrom parse fileKey ('\\' :: d :: rest) text i σ
      = drainFrom parse fileKey rest text (i + 2) σ := by
  obtain ⟨bc, os, ins, esc⟩ := σ
  simp only at hesc
  subst hesc
  have h1 : ¬ (ScanState.mk bc os ins false).closes '\\' := by simp [ScanState.closes]
  have n1 : (ScanState.mk bc os ins false).next i '\\' = ⟨bc, os, ins, true⟩ := by
    simp [ScanState.next]
  have h2 : ¬ (ScanState.mk bc os ins true).closes d := by simp [ScanState.closes]
  have n2 : (ScanState.mk bc os ins true).next (i + 1) d = ⟨bc, os, ins, false⟩ := by
    simp [ScanState.next]
  constructor
  · rw [scanFrom_cons_skip _ _ _ _ _ _ _ h1, n1, scanFrom_cons_skip _ _ _ _ _ _ _ h2, n2]
  · rw [drainFrom_cons_skip _ _ _ _ _ _ _ h1, n1, drainFrom_cons_skip _ _ _ _ _ _ _ h2, n2]

/-- Witness for C22: a backslash and a `{` at the start of a scan. -/
theorem backslash_skips_next_everywhere_witness :
    scanFrom sampleParseTwo FileKey.comments ('\\' :: '{' :: ['}']) ['\\', '{', '}'] 0
        ScanState.init
      = scanFrom sampleParseTwo FileKey.comments ['}'] ['\\', '{', '}'] (0 + 2) ScanState.init ∧
    drainFrom sampleParseTwo FileKey.comments ('\\' :: '{' :: ['}']) ['\\', '{', '}'] 0
        ScanState.init
      = drainFrom sampleParseTwo FileKey.comments ['}'] ['\\', '{', '}'] (0 + 2) ScanState.init :=
  backslash_skips_next_everywhere sampleParseTwo FileKey.comments '{' ['}'] ['\\', '{', '}'] 0
    ScanState.init rfl

/-- C24: for every text, the final-read JSON scanner writes the same events,
in the same order, as the incremental JSON scanner given the text as one
chunk; this also holds for the final read's JSON branch behind its test
`remainingContent.trim()`. -/
theorem final_read_json_matches_incremental {J : Type} (parse : Str → Option J)
    (key : FileKey) (s : Str) :
    drainJson parse key s = (jsonOnData parse key [] s).1 ∧
    (fileExtension key = ".json".toList →
      finalReadEvents parse key s = (jsonOnData parse key [] s).1) := by
  have h : drainJson parse key s = (jsonOnData parse key [] s).1 := by
    rw [drainJson_eq_scanJson]
    rfl
  refine ⟨h, ?_⟩
  intro hjson
  unfold finalReadEvents
  by_cases hblank : (trim s).isEmpty = true
  · have hall : s.all isJsWhitespace = true := by rw [← trim_isEmpty_iff]; exact hblank
    have hnone : (jsonOnData parse key [] s).1 = [] := by
      have hs : jsonOnData parse key [] s = scanJson parse key s := rfl
      rw [hs, scanJson_eq_scanFrom]
      exact scanFrom_no_closing_brace parse key s _ _ _ (whitespace_no_brace s hall)
    simp [hblank, hnone]
  · simp only [hblank, Bool.not_false, Bool.false_eq_true, ↓reduceIte, not_false_eq_true,
      Bool.not_eq_true] at *
    simp [hblank, hjson, h]

/-- Witness for C24: the `comments` file holding `{"a":1}{"b":2}`. -/
theorem final_read_json_matches_incremental_witness :
    finalReadEvents sampleParseTwo FileKey.comments (sampleFirst ++ sampleSecond)
      = (jsonOnData sampleParseTwo FileKey.comments [] (sampleFirst ++ sampleSecond)).1 :=
  (final_read_json_matches_incremental sampleParseTwo FileKey.comments
    (sampleFirst ++ sampleSecond)).2 (by decide)

/-- C25 (the code departs from it): the timeout callback with the final read
leaves the job record exactly as the exit update left it, whatever the files
hold; the exit update is the only one. -/
theorem final_read_leaves_job_record {J : Type} (parse : Str → Option J) (fs : Files)
    (s : Session J) (code : ExitCode) (now : Nat) :
    (finalRead parse fs (processClose s code now)).job = (processClose s code now).job := by
  unfold finalRead
  split
  · rfl
  · simp [Session.resWrite, Session.resEnd, finalReadFile_fold_job]

/-- Counterexample for C23: for the content `alice`, newline, `bo` the final
read writes `alice` and `bo`, the incremental scanner given the content as one
chunk writes `alice` only and keeps `bo`. -/
theorem final_read_emits_unterminated_line :
    finalReadEvents sampleParseTwo FileKey.postid ['a', 'l', 'i', 'c', 'e', '\n', 'b', 'o']
      = [Event.data FileKey.postid (Payload.text ['a', 'l', 'i', 'c', 'e']),
         Event.data FileKey.postid (Payload.text ['b', 'o'])] ∧
    (textOnData FileKey.postid [] ['a', 'l', 'i', 'c', 'e', '\n', 'b', 'o'] :
        List (Event Nat) × Str)
      = ([Event.data FileKey.postid (Payload.text ['a', 'l', 'i', 'c', 'e'])], ['b', 'o']) := by
  decide

/-- C23 (amended): for every content of a text file, the final read writes the
events the incremental scanner writes for the content as one chunk, followed
by one more event for the scanner's held remainder, trimmed, when that
remainder is not blank. -/
theorem final_read_lines_and_remainder {J : Type} (parse : Str → Option J) (key : FileKey)
    (content : Str) (htext : fileExtension key ≠ ".json".toList) :
    finalReadEvents parse key content
      = (textOnData key [] content : List (Event J) × Str).1 ++
          (if (trim (textOnData key [] content : List (Event J) × Str).2).isEmpty then []
           else [Event.data key
                  (Payload.text (trim (textOnData key [] content : List (Event J) × Str).2))]) := by
  have htext2 : ¬ fileExtension key = ['.', 'j', 's', 'o', 'n'] := htext
  obtain ⟨init, last, hsplit⟩ : ∃ init last, splitNewline content = init ++ [last] :=
    ⟨(splitNewline content).dropLast, (splitNewline content).getLast (splitNewline_ne_nil content),
      (List.dropLast_append_getLast _).symm⟩
  by_cases hblank : (trim content).isEmpty = true
  · have hall : content.all isJsWhitespace = true := by rw [← trim_isEmpty_iff]; exact hblank
    have hsegs := splitNewline_blank content hall
    rw [hsplit] at hsegs
    have hlast : (trim last).isEmpty = true := by
      rw [trim_isEmpty_iff]; exact hsegs last (by simp)
    have hinit : init.filter (fun line => !(trim line).isEmpty) = [] := by
      rw [List.filter_eq_nil_iff]
      intro l hl
      have := hsegs l (by simp [hl])
      simp [trim_isEmpty_iff, this]
    simp [finalReadEvents, textOnData, splitLines, hsplit, hblank, hlast, hinit]
  · simp only [Bool.not_eq_true] at hblank
    by_cases hlast : (trim last).isEmpty = true
    · simp [finalReadEvents, textOnData, splitLines, hsplit, hblank, hlast, htext2,
        List.filter_append]
    · simp only [Bool.not_eq_true] at hlast
      simp [finalReadEvents, textOnData, splitLines, hsplit, hblank, hlast, htext2,
        List.filter_append]

/-- Witness for C23: the `postid` file holding `alice`, newline, `bo`. -/
theorem final_read_lines_and_remainder_witness :
    finalReadEvents sampleParseTwo FileKey.postid ['a', 'l', 'i', 'c', 'e', '\n', 'b', 'o']
      = (textOnData FileKey.postid [] ['a', 'l', 'i', 'c', 'e', '\n', 'b', 'o'] :
            List (Event Nat) × Str).1 ++
          (if (trim (textOnData FileKey.postid [] ['a', 'l', 'i', 'c', 'e', '\n', 'b', 'o'] :
                List (Event Nat) × Str).2).isEmpty then []
           else [Event.data FileKey.postid
                  (Payload.text (trim (textOnData FileKey.postid []
                    ['a', 'l', 'i', 'c', 'e', '\n', 'b', 'o'] : List (Event Nat) × Str).2))]) :=
  final_read_lines_and_remainder sampleParseTwo FileKey.postid
    ['a', 'l', 'i', 'c', 'e', '\n', 'b', 'o'] (by decide)

/-- C26 (the code departs from it): whatever the chunks of the event stream
hold, the status is `completed` once the reader has reported that the stream
is done; for the stream of a worker that exited with code 1 the status is
`error` after the `complete` event is handled and `completed` after the
report. -/
theorem client_status_completed_after_failure :
    (∀ (J : Type) (parseEvent : Str → Option (Event J)) (chunks : List Str)
        (status : ClientStatus) (buffer : Str),
        readStream parseEvent status buffer (chunks.map some ++ [none])
          = ClientStatus.completed) ∧
    readStream sampleParseEvent ClientStatus.running [] [some failedChunk]
      = ClientStatus.error ∧
    readStream sampleParseEvent ClientStatus.running [] [some failedChunk, none]
      = ClientStatus.completed :=
  ⟨fun _ parseEvent chunks => readStream_done parseEvent chunks, by decide, by decide⟩

/-- Counterexample for C27: with the output directory `/app/output` the
non-empty username `../x` gives the `postid` file the path `/app/x_postid.txt`,
which is not inside `/app/output`. -/
theorem traversal_username_leaves_output :
    "../x".toList.isEmpty = false ∧
    normalize "/app/output".toList = ["app".toList, "output".toList] ∧
    normalize (filePath "/app/output".toList "../x".toList FileKey.postid)
      = ["app".toList, "x_postid.txt".toList] ∧
    inside (normalize "/app/output".toList)
      (normalize (filePath "/app/output".toList "../x".toList FileKey.postid)) = false := by
  decide

/-- C27 (amended): for every username none of whose `/`-separated segments is
`..`, each of the eight monitored paths resolves to a location strictly inside
the output directory. -/
theorem monitored_path_inside_output (outputDir username : Str) (key : FileKey)
    (h : ['.', '.'] ∉ splitSlash username) :
    inside (normalize outputDir) (normalize (filePath outputDir username key)) = true := by
  obtain ⟨hslash, hunder⟩ := fileSuffix_shape key
  obtain ⟨init, last, h1, h2⟩ := splitSlash_suffix (fileSuffix key) hslash username
  have hinit : ['.', '.'] ∉ init := fun e => h (by rw [h1]; simp [e])
  have hreal : ∀ t : Str, '_' ∉ t → last ++ fileSuffix key ≠ t := by
    intro t ht e
    exact ht (e ▸ List.mem_append_right _ hunder)
  obtain ⟨more, hmore⟩ := normalize_fold_prefix init hinit (normalize outputDir)
  have hpath : normalize (filePath outputDir username key)
      = normalize outputDir ++ (more ++ [last ++ fileSuffix key]) := by
    show (splitSlash (outputDir ++ '/' :: (username ++ fileSuffix key))).foldl normalizeStep []
      = _
    rw [splitSlash_slash, List.foldl_append, h2, List.foldl_append]
    show normalizeStep (init.foldl normalizeStep (normalize outputDir)) _ = _
    rw [hmore, normalizeStep_keep _ _ (hreal [] (by simp)) (hreal ['.'] (by decide))
      (hreal ['.', '.'] (by decide)), List.append_assoc]
  rw [hpath]
  simp [inside, List.isPrefixOf_iff_prefix]

/-- Witness for C27: the username `a/b` under `/app/output`. -/
theorem monitored_path_inside_output_witness :
    inside (normalize "/app/output".toList)
      (normalize (filePath "/app/output".toList "a/b".toList FileKey.comments)) = true :=
  monitored_path_inside_output "/app/output".toList "a/b".toList FileKey.comments (by decide)

/-- Counterexample for C28: an endpoint with two leading slashes is joined to
an empty base, and to the base `h`, with two slashes, and a base with two
trailing slashes likewise; the results differ from those for the endpoint `x`
and the base `h`. -/
theorem second_slash_is_kept :
    getApiUrl [] ['/', '/', 'x'] = ['/', '/', 'x'] ∧
    getApiUrl [] ['x'] = ['/', 'x'] ∧
    getApiUrl ['h'] ['/', '/', 'x'] = ['h', '/', '/', 'x'] ∧
    getApiUrl ['h', '/', '/'] ['x'] = ['h', '/', '/', 'x'] ∧
    getApiUrl ['h'] ['x'] = ['h', '/', 'x'] := by
  decide

/-- C28 (amended): for every base that does not end in `/` (the empty base
included) and every endpoint that does not start with `/`, the URL is the
base, one `/` and the endpoint, and it is the same when the base is given
with one trailing `/` added, the endpoint with one leading `/` added, or
both. -/
theorem getApiUrl_single_slash (base endpoint : Str)
    (hbase : base.getLast? ≠ some '/') (hend : endpoint.head? ≠ some '/') :
    getApiUrl base endpoint = base ++ '/' :: endpoint ∧
    getApiUrl (base ++ ['/']) endpoint = base ++ '/' :: endpoint ∧
    getApiUrl base ('/' :: endpoint) = base ++ '/' :: endpoint ∧
    getApiUrl (base ++ ['/']) ('/' :: endpoint) = base ++ '/' :: endpoint := by
  have hb : ∀ e : Str, (if !base.isEmpty then
        (if base.getLast? = some '/' then base.dropLast else base) ++ '/' :: e
      else '/' :: e) = base ++ '/' :: e := by
    intro e
    cases base with
    | nil => rfl
    | cons b bs => simp [hbase]
  have hb2 : ∀ e : Str, (if !(base ++ ['/']).isEmpty then
        (if (base ++ ['/']).getLast? = some '/' then (base ++ ['/']).dropLast
          else base ++ ['/']) ++ '/' :: e
      else '/' :: e) = base ++ '/' :: e := by
    intro e
    simp
  refine ⟨?_, ?_, ?_, ?_⟩
  · unfold getApiUrl
    simp only [hend, if_false]
    exact hb endpoint
  · unfold getApiUrl
    simp only [hend, if_false]
    exact hb2 endpoint
  · unfold getApiUrl
    simp only [List.head?_cons, if_true, List.drop_succ_cons, List.drop_zero]
    exact hb endpoint
  · unfold getApiUrl
    simp only [List.head?_cons, if_true, List.drop_succ_cons, List.drop_zero]
    exact hb2 endpoint

/-- Witness for C28: the base `http://h` and the endpoint `api/x`. -/
theorem getApiUrl_single_slash_witness :
    getApiUrl "http://h".toList "api/x".toList = "http://h".toList ++ '/' :: "api/x".toList ∧
    getApiUrl ("http://h".toList ++ ['/']) "api/x".toList
      = "http://h".toList ++ '/' :: "api/x".toList ∧
    getApiUrl "http://h".toList ('/' :: "api/x".toList)
      = "http://h".toList ++ '/' :: "api/x".toList ∧
    getApiUrl ("http://h".toList ++ ['/']) ('/' :: "api/x".toList)
      = "http://h".toList ++ '/' :: "api/x".toList :=
  getApiUrl_single_slash "http://h".toList "api/x".toList (by decide) (by decide)

end Luminae
